import Mathlib

/-!
Verification of the runtime configuration and case-execution subsystem of
the ElasticPinchOff repository.

The development shallowly embeds three components:

* `parse_params.h` — the low-level key/value store (trim, line parsing,
  bounded entry table, lazy load);
* `params.h` — the typed accessors `param_int` / `param_double` built on
  `strtol` / `strtod`;
* `runSimulation.sh` — the bash case driver (argument parsing, pre-flight
  validation, staging, compile/run, exit-code propagation), including the
  `awk`-based `get_param_value` extractor and the shell's arithmetic
  comparison semantics (octal interpretation of leading-zero literals and
  64-bit wrap-around).

C strings are modelled as `List Char`; machine integers as `Int`/`Nat`
with explicit clamping; file systems as functions from file names to
optional contents (`none` = the file cannot be opened).
-/

set_option maxRecDepth 8000

namespace EPO

/-! ## Character classes and trimming (parse_params.h) -/

/-- ASCII whitespace, exactly the character set of C `isspace` in the C
locale: space, tab, newline, vertical tab, form feed, carriage return. -/
def cIsSpace (c : Char) : Bool :=
  c = ' ' || c = '\t' || c = '\n' || c = '\x0b' || c = '\x0c' || c = '\r'

/-- Decimal digit, C `isdigit`. -/
def isDigit10 (c : Char) : Bool :=
  '0' ≤ c && c ≤ '9'

/-- Hexadecimal digit, C `isxdigit`. -/
def isHexDigit16 (c : Char) : Bool :=
  ('0' ≤ c && c ≤ '9') || ('a' ≤ c && c ≤ 'f') || ('A' ≤ c && c ≤ 'F')

/-- Drop trailing ASCII whitespace (the second loop of `parse_params_trim`). -/
def trimRightWs (l : List Char) : List Char :=
  (l.reverse.dropWhile cIsSpace).reverse

/-- Embeds `parse_params_trim`: strip leading and trailing ASCII
whitespace. -/
def parse_params_trim (s : List Char) : List Char :=
  trimRightWs (s.dropWhile cIsSpace)

/-! ## The entry table (parse_params.h) -/

/-- Capacity of the static entry table (`PARSE_PARAMS_MAX_ENTRIES`). -/
def PARSE_PARAMS_MAX_ENTRIES : Nat := 256

/-- Size of the key buffer of a `ParseParamEntry`; `strncpy` with a forced
terminator keeps at most `PARSE_PARAMS_KEY_LEN - 1 = 127` characters. -/
def PARSE_PARAMS_KEY_LEN : Nat := 128

/-- Size of the value buffer of a `ParseParamEntry`; at most
`PARSE_PARAMS_VALUE_LEN - 1 = 255` characters are kept. -/
def PARSE_PARAMS_VALUE_LEN : Nat := 256

/-- One `ParseParamEntry`: a key and a value. -/
abbrev Entry := (List Char) × (List Char)

/-- The live prefix `_parse_params_entries[0 .. _parse_params_count)` of the
static table, in insertion order. -/
abbrev Store := List Entry

/-- Embeds `parse_params_find_key` composed with the value read: scan the
table in order and return the value of the first entry whose key equals
`key` (C `strcmp` equality), or `none` when the key is absent. -/
def storeLookup (st : Store) (key : List Char) : Option (List Char) :=
  match st with
  | [] => none
  | e :: rest => if e.1 = key then some e.2 else storeLookup rest key

/-- Value write of `parse_params_set_value` on the found index: replace the
value of the first entry whose key equals `key`, truncating the new value
as `strncpy` into the 256-byte buffer does. -/
def storeUpdate (st : Store) (key value : List Char) : Store :=
  match st with
  | [] => []
  | e :: rest =>
    if e.1 = key then (e.1, value.take (PARSE_PARAMS_VALUE_LEN - 1)) :: rest
    else e :: storeUpdate rest key value

/-- Embeds `parse_params_set_value`. Insert-or-update; a new key is
appended (with `strncpy` truncation of key and value) unless the table
already holds `PARSE_PARAMS_MAX_ENTRIES` entries, in which case the store
is left untouched and the returned flag records the warning printed to
`stderr`. -/
def parse_params_set_value (st : Store) (key value : List Char) :
    Store × Bool :=
  if (storeLookup st key).isSome then
    (storeUpdate st key value, false)
  else if PARSE_PARAMS_MAX_ENTRIES ≤ st.length then
    (st, true)
  else
    (st ++ [(key.take (PARSE_PARAMS_KEY_LEN - 1),
             value.take (PARSE_PARAMS_VALUE_LEN - 1))], false)

/-! ## Line parsing (the body of the `fgets` loop of `parse_params_load`) -/

/-- Embeds the body of the read loop of `parse_params_load` on one buffer
filled by `fgets`: truncate at the first `'#'` (`strchr` + NUL write),
require a `'='` in what is left, split at the first `'='`, trim both
sides, and drop the line when either side trims to empty. -/
def parse_params_line (line : List Char) : Option ((List Char) × (List Char)) :=
  let l := line.takeWhile (fun c => decide (c ≠ '#'))
  if '=' ∈ l then
    let key := parse_params_trim (l.takeWhile (fun c => decide (c ≠ '=')))
    let value := parse_params_trim ((l.dropWhile (fun c => decide (c ≠ '='))).tail)
    if key = [] ∨ value = [] then none else some (key, value)
  else none

/-- One iteration of the read loop: parse the buffer and store the pair
when the line survives. -/
def parse_params_apply (st : Store) (line : List Char) : Store :=
  match parse_params_line line with
  | none => st
  | some (k, v) => (parse_params_set_value st k v).1

/-- The whole read loop over the successive `fgets` buffers. -/
def parse_params_run (st : Store) (lines : List (List Char)) : Store :=
  lines.foldl parse_params_apply st

/-! ## The `fgets` buffering

`parse_params_load` reads into `char line[PARSE_PARAMS_KEY_LEN +
PARSE_PARAMS_VALUE_LEN + 64]`, a 448-byte buffer, so each `fgets` call
returns at most 447 characters and stops after a newline (kept in the
buffer).  A physical line longer than 447 characters is therefore
processed as several buffers. -/

/-- Size of the read buffer `line` in `parse_params_load`. -/
def PARSE_PARAMS_LINE_BUF : Nat :=
  PARSE_PARAMS_KEY_LEN + PARSE_PARAMS_VALUE_LEN + 64

/-- Take at most `n` characters, stopping after (and keeping) a newline —
the transfer loop of `fgets` after the first character. -/
def takeLine : Nat → List Char → List Char
  | 0, _ => []
  | _, [] => []
  | n + 1, c :: rest => if c = '\n' then [c] else c :: takeLine n rest

/-- Fuelled worker for `fgetsSplit`; the fuel (an upper bound on the
number of buffers, say the stream length) makes the recursion structural
so that the kernel can evaluate it. -/
def fgetsSplitF : Nat → List Char → List (List Char)
  | _, [] => []
  | 0, _ :: _ => []
  | fuel + 1, c :: rest =>
    if c = '\n' then ['\n'] :: fgetsSplitF fuel rest
    else
      (c :: takeLine (PARSE_PARAMS_LINE_BUF - 2) rest) ::
        fgetsSplitF fuel (rest.drop (takeLine (PARSE_PARAMS_LINE_BUF - 2) rest).length)

/-- Cut a stream into the successive buffers returned by
`fgets(line, 448, fp)`: each buffer holds at most 447 characters and ends
at the first newline (included) when one occurs that early. -/
def fgetsSplit (cs : List Char) : List (List Char) :=
  fgetsSplitF cs.length cs

theorem fgetsSplitF_fuel : ∀ (fuel : Nat) (cs : List Char),
    cs.length ≤ fuel → fgetsSplitF fuel cs = fgetsSplitF cs.length cs := by
  intro fuel
  induction fuel using Nat.strong_induction_on with
  | _ fuel ih =>
    intro cs hlen
    match fuel, cs, hlen with
    | fuel, [], _ => cases fuel <;> rfl
    | fuel + 1, c :: rest, hlen =>
      simp only [List.length_cons]
      have hr : rest.length ≤ fuel := by
        simp only [List.length_cons] at hlen
        omega
      have hunfold : ∀ m : Nat, fgetsSplitF (m + 1) (c :: rest) =
          if c = '\n' then ['\n'] :: fgetsSplitF m rest
          else (c :: takeLine (PARSE_PARAMS_LINE_BUF - 2) rest) ::
            fgetsSplitF m
              (rest.drop (takeLine (PARSE_PARAMS_LINE_BUF - 2) rest).length) :=
        fun m => rfl
      rw [hunfold fuel, hunfold rest.length]
      by_cases hc : c = '\n'
      · rw [if_pos hc, if_pos hc]
        by_cases hf : fuel = rest.length
        · rw [hf]
        · rw [ih fuel (by omega) rest hr,
            ih rest.length (by omega) rest (le_refl _)]
      · rw [if_neg hc, if_neg hc]
        have hd : (rest.drop (takeLine (PARSE_PARAMS_LINE_BUF - 2) rest).length).length
            ≤ rest.length := by
          rw [List.length_drop]
          omega
        by_cases hf : fuel = rest.length
        · rw [hf]
        · rw [ih fuel (by omega) _ (le_trans hd hr),
            ih rest.length (by omega) _ hd]

theorem fgetsSplit_nil : fgetsSplit [] = [] := rfl

theorem fgetsSplit_cons (c : Char) (rest : List Char) :
    fgetsSplit (c :: rest) =
      if c = '\n' then ['\n'] :: fgetsSplit rest
      else
        (c :: takeLine (PARSE_PARAMS_LINE_BUF - 2) rest) ::
          fgetsSplit (rest.drop (takeLine (PARSE_PARAMS_LINE_BUF - 2) rest).length) := by
  show (if c = '\n' then ['\n'] :: fgetsSplitF rest.length rest
        else (c :: takeLine (PARSE_PARAMS_LINE_BUF - 2) rest) ::
          fgetsSplitF rest.length
            (rest.drop (takeLine (PARSE_PARAMS_LINE_BUF - 2) rest).length)) = _
  by_cases hc : c = '\n'
  · rw [if_pos hc, if_pos hc]
    rfl
  · rw [if_neg hc, if_neg hc]
    unfold fgetsSplit
    rw [fgetsSplitF_fuel rest.length _ (by
      rw [List.length_drop]
      omega)]

/-! ## Process state and loading (parse_params.h statics) -/

/-- The static state of `parse_params.h`: the entry table, the
`_parse_params_loaded` and `_parse_params_warned_missing` flags, and the
configured file name `_parse_params_file`. -/
structure PState where
  entries : Store
  loaded : Bool
  warnedMissing : Bool
  file : List Char
deriving DecidableEq

/-- The state at program start: empty table, nothing loaded, no warning
issued, file name `"case.params"`. -/
def initialPState : PState :=
  ⟨[], false, false, "case.params".toList⟩

/-- A file system: maps a file name to its contents, `none` when `fopen`
fails. -/
abbrev FS := (List Char) → Option (List Char)

/-- Embeds `parse_params_load`: reset the count and set the loaded flag
first, then open; on open failure return `-1`, warning once across the
process lifetime (third component: this call printed the warning); on
success run the read loop and return `0`. -/
def parse_params_load (fs : FS) (filename : List Char) (st : PState) :
    PState × Int × Bool :=
  let st1 : PState := { st with entries := [], loaded := true }
  match fs filename with
  | none =>
    if st1.warnedMissing then (st1, -1, false)
    else ({ st1 with warnedMissing := true }, -1, true)
  | some content =>
    ({ st1 with entries := parse_params_run [] (fgetsSplit content) }, 0, false)

/-- Embeds `parse_params_ensure_loaded`; the flag records whether a load
was attempted by this call. -/
def parse_params_ensure_loaded (fs : FS) (st : PState) : PState × Bool :=
  if st.loaded then (st, false)
  else ((parse_params_load fs st.file st).1, true)

/-- Embeds `parse_param_string` with a NULL default (as the typed
accessors call it): ensure loaded, then look the key up.  The last
component records whether this lookup attempted a load. -/
def parse_param_string_opt (fs : FS) (key : List Char) (st : PState) :
    Option (List Char) × PState × Bool :=
  let p := parse_params_ensure_loaded fs st
  (storeLookup p.1.entries key, p.1, p.2)

/-- Embeds `parse_param_string`: the raw value for `key`, or
`default_value` when missing. -/
def parse_param_string (fs : FS) (key dflt : List Char) (st : PState) :
    (List Char) × PState × Bool :=
  let r := parse_param_string_opt fs key st
  (r.1.getD dflt, r.2.1, r.2.2)

/-! ## Typed accessors (params.h)

`param_int` calls `strtol(s, &end, 10)` and `param_double` calls
`strtod(s, &end)`; both then skip trailing `isspace` characters from `end`
and fall back to the default (with a warning) unless `errno` stayed `0`,
some input was consumed, and nothing but whitespace follows.  The C
library functions are modelled after ISO C: `strtol` on a 64-bit `long`
(clamping to `LONG_MIN`/`LONG_MAX` with `ERANGE`), `strtod` over the full
subject-sequence grammar (decimal, hexadecimal, `inf`/`infinity`,
`nan`/`nan(n-char-seq)`, all case-insensitive).  Parsed floating values
are kept as exact rationals (IEEE rounding is not modelled; it does not
affect which inputs are accepted); `errno` is set for a range error using
the exact binary64 overflow threshold `2^1024 - 2^970` and, as on the
platforms this repository targets, for underflow below the smallest
positive normal `2^-1022`.  The sign and payload of a NaN result are not
modelled. -/

/-- `LONG_MAX` for the 64-bit `long` of the target platform. -/
def LONG_MAX : Int := 2 ^ 63 - 1

/-- `LONG_MIN` for the 64-bit `long` of the target platform. -/
def LONG_MIN : Int := -(2 ^ 63)

/-- `INT_MAX`, the standard 32-bit bound checked by `param_int`. -/
def INT_MAX : Int := 2 ^ 31 - 1

/-- `INT_MIN`. -/
def INT_MIN : Int := -(2 ^ 31)

/-- Optional sign character: whether it is a minus, and how many
characters it occupies. -/
def parseSign : List Char → Bool × Nat
  | '-' :: _ => (true, 1)
  | '+' :: _ => (false, 1)
  | _ => (false, 0)

/-- Value of a decimal digit string. -/
def digitsVal (ds : List Char) : Nat :=
  ds.foldl (fun a c => 10 * a + (c.toNat - '0'.toNat)) 0

/-- Value of one hexadecimal digit. -/
def hexDigitVal (c : Char) : Nat :=
  if isDigit10 c then c.toNat - '0'.toNat
  else if 'a' ≤ c && c ≤ 'f' then c.toNat - 'a'.toNat + 10
  else c.toNat - 'A'.toNat + 10

/-- Value of a hexadecimal digit string. -/
def hexVal (ds : List Char) : Nat :=
  ds.foldl (fun a c => 16 * a + hexDigitVal c) 0

/-- Result of the `strtol` model: the returned `long`, how many
characters of the input the end pointer advanced over, and whether
`errno` was set to `ERANGE`. -/
structure StrtolOut where
  value : Int
  consumed : Nat
  errno : Bool
deriving DecidableEq

/-- Model of `strtol(s, &end, 10)`: skip leading whitespace, optional
sign, longest run of decimal digits; no digits means no conversion (the
end pointer stays at the start and `0` is returned); out-of-`long`-range
values are clamped with `ERANGE`. -/
def strtol (s : List Char) : StrtolOut :=
  let w := (s.takeWhile cIsSpace).length
  let s1 := s.drop w
  let sg := parseSign s1
  let ds := (s1.drop sg.2).takeWhile isDigit10
  if ds = [] then ⟨0, 0, false⟩
  else
    let n : Int := if sg.1 then -(digitsVal ds : Int) else (digitsVal ds : Int)
    let clamped := if n < LONG_MIN then LONG_MIN else if LONG_MAX < n then LONG_MAX else n
    ⟨clamped, w + sg.2 + ds.length, decide (n < LONG_MIN) || decide (LONG_MAX < n)⟩

/-- Embeds the post-lookup logic of `param_int`: the returned `int` and
whether the invalid-value warning was printed.  A missing key (`s =
none`, the NULL return of `param_string`) yields the default silently. -/
def param_int_core (s : Option (List Char)) (dflt : Int) : Int × Bool :=
  match s with
  | none => (dflt, false)
  | some s =>
    let r := strtol s
    let rest := (s.drop r.consumed).dropWhile cIsSpace
    if r.errno ∨ r.consumed = 0 ∨ rest ≠ [] ∨ r.value < INT_MIN ∨ INT_MAX < r.value
    then (dflt, true)
    else (r.value, false)

/-- Embeds `param_int` end to end: look the key up through
`parse_param_string` and convert. -/
def param_int (fs : FS) (key : List Char) (dflt : Int) (st : PState) :
    (Int × Bool) × PState :=
  let r := parse_param_string_opt fs key st
  (param_int_core r.1 dflt, r.2.1)

/-- A double as `strtod` produces it, with the finite values kept exact:
finite rational, signed infinity, or NaN. -/
inductive DVal where
  | fin (q : ℚ)
  | inf (neg : Bool)
  | nan
deriving DecidableEq

/-- Smallest magnitude that rounds to infinity in IEEE binary64
(`(2^53 - 1/2) * 2^971`). -/
def D_OVERFLOW : ℚ := 2 ^ 1024 - 2 ^ 970

/-- Smallest positive normal binary64 value. -/
def D_MIN_NORMAL : ℚ := 1 / 2 ^ 1022

/-- Whether `strtod` reports `ERANGE` for an ideal result `q`: overflow
past the binary64 rounding threshold, or (as glibc does) underflow of a
nonzero value below the smallest positive normal. -/
def dRangeErr (q : ℚ) : Bool :=
  decide (D_OVERFLOW ≤ |q|) || (decide (q ≠ 0) && decide (|q| < D_MIN_NORMAL))

/-- Apply the sign character to a parse result. -/
def applySign (neg : Bool) : DVal → DVal
  | .fin q => .fin (if neg then -q else q)
  | .inf _ => .inf neg
  | .nan => .nan

/-- Case-insensitive match of `pat` (given lowercase) at the front of
`l`. -/
def ciMatch (pat l : List Char) : Bool :=
  decide ((l.take pat.length).map Char.toLower = pat)

/-- Character allowed inside the parentheses of `nan(n-char-seq)`:
letters, digits, underscore. -/
def isNanChar (c : Char) : Bool :=
  isDigit10 c || ('a' ≤ c && c ≤ 'z') || ('A' ≤ c && c ≤ 'Z') || c = '_'

/-- Length consumed by an optional `(n-char-seq)` after `nan`; `0` when
the parenthesised form is absent or unclosed. -/
def nanParen (l : List Char) : Nat :=
  match l with
  | '(' :: rest =>
    let body := rest.takeWhile isNanChar
    if (rest.drop body.length).head? = some ')' then body.length + 2 else 0
  | _ => 0

/-- Optional exponent part introduced by `marker` (`'e'` or `'p'`,
case-insensitive): characters consumed and the exponent value; nothing is
consumed when the marker is absent or no digit follows it. -/
def expPart (marker : Char) (l : List Char) : Nat × Int :=
  match l with
  | [] => (0, 0)
  | c :: rest =>
    if c.toLower = marker then
      let sg := parseSign rest
      let ds := (rest.drop sg.2).takeWhile isDigit10
      if ds = [] then (0, 0)
      else (1 + sg.2 + ds.length,
            if sg.1 then -(digitsVal ds : Int) else (digitsVal ds : Int))
    else (0, 0)

/-- Decimal mantissa and exponent at the front of the after-sign input:
characters consumed, ideal value, range-error flag; `none` when no digit
occurs (no conversion). -/
def decTail (s2 : List Char) : Option (Nat × ℚ × Bool) :=
  let ip := s2.takeWhile isDigit10
  let a1 := s2.drop ip.length
  let hasDot := a1.head? = some '.'
  let fp := if hasDot then a1.tail.takeWhile isDigit10 else []
  if ip = [] ∧ fp = [] then none
  else
    let mantLen := ip.length + (if hasDot then 1 else 0) + fp.length
    let ep := expPart 'e' (s2.drop mantLen)
    let q : ℚ := (digitsVal (ip ++ fp) : ℚ) * (10 : ℚ) ^ (ep.2 - (fp.length : ℤ))
    some (mantLen + ep.1, q, dRangeErr q)

/-- Hexadecimal form `0x…` at the front of the after-sign input; `none`
when the input does not start `0x`/`0X` or no hex digit follows (in the
latter case `strtod` falls back to the decimal subject sequence `0`). -/
def hexTail (s2 : List Char) : Option (Nat × ℚ × Bool) :=
  match s2 with
  | c0 :: cx :: r =>
    if c0 = '0' ∧ (cx = 'x' ∨ cx = 'X') then
      let ih := r.takeWhile isHexDigit16
      let a1 := r.drop ih.length
      let hasDot := a1.head? = some '.'
      let fh := if hasDot then a1.tail.takeWhile isHexDigit16 else []
      if ih = [] ∧ fh = [] then none
      else
        let mantLen := 2 + ih.length + (if hasDot then 1 else 0) + fh.length
        let ep := expPart 'p' (s2.drop mantLen)
        let q : ℚ := (hexVal (ih ++ fh) : ℚ) * (2 : ℚ) ^ (ep.2 - 4 * (fh.length : ℤ))
        some (mantLen + ep.1, q, dRangeErr q)
    else none
  | _ => none

/-- The subject sequence after whitespace and sign: `infinity`, `inf`,
`nan`/`nan(…)`, hexadecimal, or decimal, in the longest-match discipline
of C `strtod`.  Returns consumed length, unsigned value, range flag;
`none` when no conversion can be performed. -/
def strtodAfterSign (s2 : List Char) : Option (Nat × DVal × Bool) :=
  if ciMatch "infinity".toList s2 then some (8, DVal.inf false, false)
  else if ciMatch "inf".toList s2 then some (3, DVal.inf false, false)
  else if ciMatch "nan".toList s2 then some (3 + nanParen (s2.drop 3), DVal.nan, false)
  else
    match hexTail s2 with
    | some (n, q, e) => some (n, DVal.fin q, e)
    | none =>
      match decTail s2 with
      | some (n, q, e) => some (n, DVal.fin q, e)
      | none => none

/-- Result of the `strtod` model (value, end-pointer advance, `ERANGE`). -/
structure StrtodOut where
  value : DVal
  consumed : Nat
  errno : Bool
deriving DecidableEq

/-- Model of `strtod(s, &end)`: skip leading whitespace, optional sign,
then the subject sequence; on no conversion the end pointer stays at the
very start and `0.0` is returned.  On overflow the code under
verification never reads the value (it checks `errno` first), so the
ideal unrounded value is kept here. -/
def strtod (s : List Char) : StrtodOut :=
  let w := (s.takeWhile cIsSpace).length
  let s1 := s.drop w
  let sg := parseSign s1
  match strtodAfterSign (s1.drop sg.2) with
  | none => ⟨DVal.fin 0, 0, false⟩
  | some (n, v, e) => ⟨applySign sg.1 v, w + sg.2 + n, e⟩

/-- Observable outcome of `param_double`: default returned because the
key is missing (no warning), default returned with the invalid-value
warning, or the parsed value returned. -/
inductive DRes where
  | missing
  | defaulted
  | value (v : DVal)
deriving DecidableEq

/-- Embeds the post-lookup logic of `param_double`. -/
def param_double_core (s : Option (List Char)) : DRes :=
  match s with
  | none => DRes.missing
  | some s =>
    let r := strtod s
    let rest := (s.drop r.consumed).dropWhile cIsSpace
    if r.errno ∨ r.consumed = 0 ∨ rest ≠ [] then DRes.defaulted
    else DRes.value r.value

/-- Embeds `param_double` end to end. -/
def param_double (fs : FS) (key : List Char) (st : PState) : DRes × PState :=
  let r := parse_param_string_opt fs key st
  (param_double_core r.1, r.2.1)

/-! ## The case driver (runSimulation.sh)

The driver is modelled as a function from an invocation (argument list)
and an environment (whether `qcc` is on `PATH`, the file system, whether
compilation succeeds, the engine's exit status) to an observable result:
exit code, directories created, files copied, whether the build step was
invoked, and which deprecation warnings were printed.  The model follows
the script line by line under `set -euo pipefail`; environments are
restricted to ones without a `.project_config` file and in which every
existing file is readable. -/

/-- Fuelled worker for `fileLines` (structural recursion for kernel
evaluation). -/
def fileLinesF : Nat → List Char → List (List Char)
  | _, [] => []
  | 0, _ :: _ => []
  | fuel + 1, c :: rest =>
    ((c :: rest).takeWhile (fun d => decide (d ≠ '\n'))) ::
      fileLinesF fuel (((c :: rest).dropWhile (fun d => decide (d ≠ '\n'))).tail)

/-- Physical lines of a text file as `awk` sees its records: split on
newline, with no empty trailing record for a file that ends in a
newline. -/
def fileLines (cs : List Char) : List (List Char) :=
  fileLinesF cs.length cs

theorem fileLinesF_fuel : ∀ (fuel : Nat) (cs : List Char),
    cs.length ≤ fuel → fileLinesF fuel cs = fileLinesF cs.length cs := by
  intro fuel
  induction fuel using Nat.strong_induction_on with
  | _ fuel ih =>
    intro cs hlen
    match fuel, cs, hlen with
    | fuel, [], _ => cases fuel <;> rfl
    | fuel + 1, c :: rest, hlen =>
      simp only [List.length_cons]
      have hr : rest.length ≤ fuel := by
        simp only [List.length_cons] at hlen
        omega
      have hunfold : ∀ m : Nat, fileLinesF (m + 1) (c :: rest) =
          ((c :: rest).takeWhile (fun d => decide (d ≠ '\n'))) ::
            fileLinesF m (((c :: rest).dropWhile (fun d => decide (d ≠ '\n'))).tail) :=
        fun m => rfl
      rw [hunfold fuel, hunfold rest.length]
      have hd : (((c :: rest).dropWhile (fun d => decide (d ≠ '\n'))).tail).length
          ≤ rest.length := by
        have hsub := (List.dropWhile_sublist (l := c :: rest)
          (fun d => decide (d ≠ '\n'))).length_le
        simp only [List.length_tail, List.length_cons] at hsub ⊢
        omega
      by_cases hf : fuel = rest.length
      · rw [hf]
      · rw [ih fuel (by omega) _ (le_trans hd hr),
          ih rest.length (by omega) _ hd]

theorem fileLines_nil : fileLines [] = [] := rfl

theorem fileLines_cons (c : Char) (rest : List Char) :
    fileLines (c :: rest) =
      ((c :: rest).takeWhile (fun d => decide (d ≠ '\n'))) ::
        fileLines (((c :: rest).dropWhile (fun d => decide (d ≠ '\n'))).tail) := by
  show _ :: fileLinesF rest.length (((c :: rest).dropWhile
      (fun d => decide (d ≠ '\n'))).tail) = _
  unfold fileLines
  rw [fileLinesF_fuel rest.length _ (by
    have hsub := (List.dropWhile_sublist (l := c :: rest)
      (fun d => decide (d ≠ '\n'))).length_le
    simp only [List.length_tail, List.length_cons] at hsub ⊢
    omega)]

/-- Whether `awk` skips the record as a comment line
(`/^[[:space:]]*#/`). -/
def awkLineIsComment (l : List Char) : Bool :=
  (l.dropWhile cIsSpace).head? = some '#'

/-- Field `$1` under `-F '='`: everything before the first `'='` (the
whole record when there is none). -/
def awkField1 (l : List Char) : List Char :=
  l.takeWhile (fun c => decide (c ≠ '='))

/-- Field `$2` under `-F '='`: between the first and the second `'='`
(empty when the record has no `'='`). -/
def awkField2 (l : List Char) : List Char :=
  ((l.dropWhile (fun c => decide (c ≠ '='))).tail).takeWhile
    (fun c => decide (c ≠ '='))

/-- The `gsub(/^[[:space:]]+|[[:space:]]+$/, "")` trim of
`get_param_value` (the `[[:space:]]` class of the C locale is exactly
`cIsSpace`). -/
def awkTrim (l : List Char) : List Char :=
  trimRightWs (l.dropWhile cIsSpace)

/-- The `sub(/[[:space:]]*#.*/, "", v)` of `get_param_value`: delete from
the whitespace run immediately preceding the first `'#'` through the end
of the field; without a `'#'` the field is unchanged. -/
def awkStripComment (v : List Char) : List Char :=
  if '#' ∈ v then trimRightWs (v.takeWhile (fun c => decide (c ≠ '#')))
  else v

/-- The key `awk` computes for a record: `none` for a comment line,
otherwise `$1` trimmed. -/
def awkKeyOf (l : List Char) : Option (List Char) :=
  if awkLineIsComment l then none else some (awkTrim (awkField1 l))

/-- Embeds `get_param_value` of runSimulation.sh: print the processed
`$2` of the first non-comment record whose trimmed `$1` equals `key`,
then `exit`; `none` when no record matches (the command substitution
then yields the empty string). -/
def get_param_value (key : List Char) (lines : List (List Char)) :
    Option (List Char) :=
  (lines.find? (fun l => decide (awkKeyOf l = some key))).map
    (fun l => awkTrim (awkStripComment (awkField2 l)))

/-- The option state accumulated by the `while`/`case` argument loop. -/
structure Opts where
  exec : List Char
  pf : List Char
  pfSet : Bool
  threads : List Char
  mpi : Bool
  cpus : Bool
deriving DecidableEq

/-- The defaults set before the loop: `LiquidOutThinning.c`,
`default.params`, 4 OpenMP threads. -/
def defaultOpts : Opts :=
  ⟨"LiquidOutThinning.c".toList, "default.params".toList, false,
   "4".toList, false, false⟩

/-- Outcome of the argument loop: `usage` + `exit 0` for help, `usage` +
`exit 1` for an argument error, or the accumulated options. -/
inductive ParseOut where
  | help
  | usageErr
  | ok (o : Opts)
deriving DecidableEq

/-- Whether `pat` is a prefix of `l` (bash `pat*` pattern). -/
def strStarts (pat l : List Char) : Bool :=
  decide (l.take pat.length = pat)

/-- Whether `pat` is a suffix of `l` (bash `*pat` pattern). -/
def strEnds (pat l : List Char) : Bool :=
  decide (l.drop (l.length - pat.length) = pat)

/-- Embeds the `while [[ $# -gt 0 ]] … case` argument loop of
runSimulation.sh, including the trailing-argument check after `--`. -/
def parseArgsGo (o : Opts) : List (List Char) → ParseOut
  | [] => .ok o
  | a :: rest =>
    if a = "-h".toList ∨ a = "--help".toList then .help
    else if a = "--exec".toList then
      match rest with
      | [] => .usageErr
      | v :: rest' =>
        if v = [] then .usageErr else parseArgsGo { o with exec := v } rest'
    else if strStarts "--exec=".toList a then
      parseArgsGo { o with exec := a.drop 7 } rest
    else if a = "--mpi".toList then
      parseArgsGo { o with mpi := true } rest
    else if a = "--threads".toList then
      match rest with
      | [] => .usageErr
      | v :: rest' =>
        if v = [] then .usageErr else parseArgsGo { o with threads := v } rest'
    else if strStarts "--threads=".toList a then
      parseArgsGo { o with threads := a.drop 10 } rest
    else if a = "--CPUs".toList ∨ a = "--cpus".toList then
      match rest with
      | [] => .usageErr
      | v :: rest' =>
        if v = [] then .usageErr
        else parseArgsGo { o with threads := v, cpus := true } rest'
    else if strStarts "--CPUs=".toList a || strStarts "--cpus=".toList a then
      parseArgsGo { o with threads := a.drop 7, cpus := true } rest
    else if a = "--".toList then
      if rest = [] then .ok o else .usageErr
    else if strStarts "-".toList a then .usageErr
    else if o.pfSet then .usageErr
    else parseArgsGo { o with pf := a, pfSet := true } rest

/-- The `^[1-9][0-9]*$` check applied to `OMP_THREADS`. -/
def isPosIntStr (s : List Char) : Bool :=
  match s with
  | [] => false
  | c :: rest => ('1' ≤ c && c ≤ '9') && rest.all isDigit10

/-- Octal digit. -/
def octDigit (c : Char) : Bool :=
  '0' ≤ c && c ≤ '7'

/-- Value of an octal digit string. -/
def octVal (ds : List Char) : Nat :=
  ds.foldl (fun a c => 8 * a + (c.toNat - '0'.toNat)) 0

/-- Wrap a natural number into bash's signed 64-bit arithmetic word. -/
def toInt64Wrap (n : Nat) : Int :=
  let m : Nat := n % 2 ^ 64
  if m < 2 ^ 63 then (m : Int) else (m : Int) - 2 ^ 64

/-- Bash arithmetic evaluation of an all-digit literal, as `[[ x -lt n ]]`
performs it: a leading `0` selects octal, in which a digit `8` or `9` is
an evaluation error (`none`; inside an `if` condition the error makes the
guard fail without terminating the script); values wrap into a signed
64-bit word. -/
def bashArithDigits (ds : List Char) : Option Int :=
  match ds with
  | '0' :: rest =>
    if rest.all octDigit then some (toInt64Wrap (octVal rest)) else none
  | _ => some (toInt64Wrap (digitsVal ds))

/-- The environment a driver invocation runs in. -/
structure DriverEnv where
  qcc : Bool
  file : FS
  srcExists : List Char → Bool
  compile : Option Nat
  engineExit : Nat

/-- How far the run got. -/
inductive DPhase where
  | help
  | usage
  | preflightFail
  | compileFail
  | ran
deriving DecidableEq

/-- Observable result of one driver invocation. -/
structure DriverResult where
  exit : Nat
  phase : DPhase
  mkdirs : List (List Char)
  copies : List ((List Char) × (List Char))
  compileInvoked : Bool
  warnMpi : Bool
  warnCpus : Bool
deriving DecidableEq

/-- A pre-flight failure after the deprecation warnings were printed:
`exit 1`, nothing staged. -/
def preflight1 (wM wC : Bool) : DriverResult :=
  ⟨1, .preflightFail, [], [], false, wM, wC⟩

/-- The engine source name after the `.c`-suffix normalisation
(line `EXEC_CODE="${EXEC_CODE}.c"`). -/
def execName (o : Opts) : List Char :=
  if strEnds ".c".toList o.exec then o.exec else o.exec ++ ".c".toList

/-- The parameter file path after resolution against the script
directory. -/
def paramPath (sd : List Char) (o : Opts) : List Char :=
  if o.pf.head? = some '/' then o.pf else sd ++ '/' :: o.pf

/-- The engine source path `${SCRIPT_DIR}/simulationCases/${EXEC_CODE}`. -/
def srcPath (sd : List Char) (o : Opts) : List Char :=
  sd ++ "/simulationCases/".toList ++ execName o

/-- `CASE_NO="$(get_param_value "CaseNo" "$PARAM_FILE")"` (the command
substitution turns a missing record into the empty string). -/
def caseNoOf (content : List Char) : List Char :=
  (get_param_value "CaseNo".toList (fileLines content)).getD []

/-- `CASE_DIR="${SCRIPT_DIR}/simulationCases/${CASE_NO}"`. -/
def caseDir (sd caseNo : List Char) : List Char :=
  sd ++ "/simulationCases/".toList ++ caseNo

/-- Embeds runSimulation.sh after the argument loop: deprecation
warnings, tool/file/CaseNo pre-flight checks (all `exit 1`), staging
(`mkdir -p`, two `cp`), compilation (on failure `set -e` exits with the
tool's status), execution, and `exit "$EXIT_CODE"`. -/
def runAfterParse (env : DriverEnv) (sd : List Char) (o : Opts) : DriverResult :=
  if ¬ isPosIntStr o.threads then ⟨1, .preflightFail, [], [], false, false, false⟩
  else if ¬ env.qcc then preflight1 o.mpi o.cpus
  else
    match env.file (paramPath sd o) with
    | none => preflight1 o.mpi o.cpus
    | some content =>
      if ¬ env.srcExists (srcPath sd o) then preflight1 o.mpi o.cpus
      else if caseNoOf content = [] then preflight1 o.mpi o.cpus
      else if ¬ (caseNoOf content).all isDigit10 then preflight1 o.mpi o.cpus
      else if (match bashArithDigits (caseNoOf content) with
               | none => false
               | some v => decide (v < 1000)) then preflight1 o.mpi o.cpus
      else
        match env.compile with
        | some c =>
          ⟨c, .compileFail, [caseDir sd (caseNoOf content)],
           [(paramPath sd o, caseDir sd (caseNoOf content) ++ "/case.params".toList),
            (srcPath sd o, caseDir sd (caseNoOf content) ++ '/' :: execName o)],
           true, o.mpi, o.cpus⟩
        | none =>
          ⟨env.engineExit, .ran, [caseDir sd (caseNoOf content)],
           [(paramPath sd o, caseDir sd (caseNoOf content) ++ "/case.params".toList),
            (srcPath sd o, caseDir sd (caseNoOf content) ++ '/' :: execName o)],
           true, o.mpi, o.cpus⟩

/-- Embeds runSimulation.sh end to end. -/
def runSimulation (env : DriverEnv) (scriptDir : List Char)
    (args : List (List Char)) : DriverResult :=
  match parseArgsGo defaultOpts args with
  | .help => ⟨0, .help, [], [], false, false, false⟩
  | .usageErr => ⟨1, .usage, [], [], false, false, false⟩
  | .ok o => runAfterParse env scriptDir o

/-! ## Specification-side characterizations

The following definitions state acceptance conditions the way the
specification words them (total match over the trimmed string), to be
proved equivalent to the consume-then-check-the-leftover discipline of
the embedded code.  They are used only to state claims. -/

/-- Spec-side reading of the `param_int` contract: the entire trimmed
string is a base-10 signed integer literal that fits the 32-bit signed
range; `some` of its value exactly in that case. -/
def specInt32 (s : List Char) : Option Int :=
  let t := parse_params_trim s
  let sg := parseSign t
  let ds := t.drop sg.2
  if ds ≠ [] ∧ ds.all isDigit10 then
    let n : Int := if sg.1 then -(digitsVal ds : Int) else (digitsVal ds : Int)
    if INT_MIN ≤ n ∧ n ≤ INT_MAX then some n else none
  else none

/-- Spec-side total-match exponent: `some e` when `l` is empty (no
exponent part) or is exactly a marker, an optional sign and a nonempty
digit string. -/
def specExpTot (marker : Char) (l : List Char) : Option Int :=
  match l with
  | [] => some 0
  | c :: rest =>
    if c.toLower = marker then
      let sg := parseSign rest
      let ds := rest.drop sg.2
      if ds ≠ [] ∧ ds.all isDigit10 then
        some (if sg.1 then -(digitsVal ds : Int) else (digitsVal ds : Int))
      else none
    else none

/-- Spec-side total match of a decimal mantissa with optional exponent
covering all of `m`. -/
def specDecTot (m : List Char) : Option (ℚ × Bool) :=
  let ip := m.takeWhile isDigit10
  let a1 := m.drop ip.length
  let hasDot := a1.head? = some '.'
  let fp := if hasDot then a1.tail.takeWhile isDigit10 else []
  if ip = [] ∧ fp = [] then none
  else
    let rest := if hasDot then a1.tail.drop fp.length else a1
    match specExpTot 'e' rest with
    | none => none
    | some e =>
      let q : ℚ := (digitsVal (ip ++ fp) : ℚ) * (10 : ℚ) ^ (e - (fp.length : ℤ))
      some (q, dRangeErr q)

/-- Spec-side total match of a hexadecimal mantissa (after `0x`) with
optional binary exponent covering all of `r`. -/
def specHexTot (r : List Char) : Option (ℚ × Bool) :=
  let ih := r.takeWhile isHexDigit16
  let a1 := r.drop ih.length
  let hasDot := a1.head? = some '.'
  let fh := if hasDot then a1.tail.takeWhile isHexDigit16 else []
  if ih = [] ∧ fh = [] then none
  else
    let rest := if hasDot then a1.tail.drop fh.length else a1
    match specExpTot 'p' rest with
    | none => none
    | some e =>
      let q : ℚ := (hexVal (ih ++ fh) : ℚ) * (2 : ℚ) ^ (e - 4 * (fh.length : ℤ))
      some (q, dRangeErr q)

/-- Spec-side total match of the optional `(n-char-seq)` after `nan`. -/
def specNanTot (l : List Char) : Bool :=
  match l with
  | [] => true
  | '(' :: r => decide (r ≠ []) && decide (r.getLast? = some ')') && r.dropLast.all isNanChar
  | _ => false

/-- Spec-side reading of the `param_double` acceptance: the entire
trimmed string is one floating-point literal (decimal or hexadecimal
notation, `inf`/`infinity`, `nan`/`nan(…)`, case-insensitive, optional
sign); `some` of the parsed value and range flag exactly in that case. -/
def specDoubleLit (s : List Char) : Option (DVal × Bool) :=
  let t := parse_params_trim s
  let sg := parseSign t
  let m := t.drop sg.2
  let core : Option (DVal × Bool) :=
    if m.map Char.toLower = "inf".toList ∨ m.map Char.toLower = "infinity".toList then
      some (DVal.inf false, false)
    else if (m.take 3).map Char.toLower = "nan".toList ∧ specNanTot (m.drop 3) then
      some (DVal.nan, false)
    else if (match m with
             | '0' :: x :: _ => decide (x = 'x' ∨ x = 'X')
             | _ => false) then
      (specHexTot (m.drop 2)).map (fun p => (DVal.fin p.1, p.2))
    else
      (specDecTot m).map (fun p => (DVal.fin p.1, p.2))
  core.map (fun p => (applySign sg.1 p.1, p.2))

/-- The value of the last line of `lines` that assigns key `k`, per the
spec's description of the parsing rule (which is `parse_params_line`). -/
def lastAssignedValue (lines : List (List Char)) (k : List Char) :
    Option (List Char) :=
  ((lines.filterMap parse_params_line).reverse.find?
    (fun e => decide (e.1 = k))).map (fun e => e.2)

/-- Number of distinct keys among the parsed assignments of `lines`. -/
def distinctKeyCount (lines : List (List Char)) : Nat :=
  ((lines.filterMap parse_params_line).map (fun e => e.1)).dedup.length

/-! ## Store lemmas -/

theorem storeLookup_eq_none_iff (st : Store) (k : List Char) :
    storeLookup st k = none ↔ ∀ e ∈ st, e.1 ≠ k := by
  induction st with
  | nil => simp [storeLookup]
  | cons e rest ih =>
    by_cases h : e.1 = k
    · simp [storeLookup, h]
    · simp [storeLookup, h, ih]

theorem storeLookup_isSome_iff (st : Store) (k : List Char) :
    (storeLookup st k).isSome = true ↔ ∃ e ∈ st, e.1 = k := by
  rcases h : storeLookup st k with _ | v
  · rw [storeLookup_eq_none_iff] at h
    simp only [Option.isSome_none, Bool.false_eq_true, false_iff]
    push_neg
    exact h
  · simp only [Option.isSome_some, true_iff]
    induction st with
    | nil => simp [storeLookup] at h
    | cons e rest ih =>
      by_cases he : e.1 = k
      · exact ⟨e, List.mem_cons_self .., he⟩
      · rw [storeLookup, if_neg he] at h
        obtain ⟨f, hf, hfk⟩ := ih h
        exact ⟨f, List.mem_cons_of_mem _ hf, hfk⟩

theorem mem_storeUpdate (st : Store) (k v : List Char) (e : Entry)
    (he : e ∈ storeUpdate st k v) :
    e ∈ st ∨ e.2 = v.take (PARSE_PARAMS_VALUE_LEN - 1) := by
  induction st with
  | nil => simp [storeUpdate] at he
  | cons f rest ih =>
    by_cases h : f.1 = k
    · rw [storeUpdate, if_pos h] at he
      rcases List.mem_cons.1 he with h1 | h1
      · right
        rw [h1]
      · left
        exact List.mem_cons_of_mem _ h1
    · rw [storeUpdate, if_neg h] at he
      rcases List.mem_cons.1 he with h1 | h1
      · left
        rw [h1]
        exact List.mem_cons_self ..
      · rcases ih h1 with h2 | h2
        · exact Or.inl (List.mem_cons_of_mem _ h2)
        · exact Or.inr h2

/-- Claim C9 — parse_params truncation.  Keys longer than 127 characters
and values longer than 255 characters are silently truncated by
`parse_params_set_value`: (a) every entry that a `set` adds or rewrites
carries exactly the first 255 characters of the supplied value; (b) in a
store whose keys respect the 127-character bound (as every store built by
this code does), after `set` with a key longer than 127 characters a
lookup with the full key finds nothing and hence surrenders the
caller-supplied default; (c) below capacity the operation is silent (no
warning flag). -/
theorem claim_C9 :
    (∀ (st : Store) (k v : List Char) (e : Entry),
      e ∈ (parse_params_set_value st k v).1 →
      e ∈ st ∨ e.2 = v.take (PARSE_PARAMS_VALUE_LEN - 1)) ∧
    (∀ (st : Store) (k v d : List Char),
      PARSE_PARAMS_KEY_LEN - 1 < k.length →
      (∀ e ∈ st, e.1.length ≤ PARSE_PARAMS_KEY_LEN - 1) →
      (storeLookup ((parse_params_set_value st k v).1) k).getD d = d) ∧
    (∀ (st : Store) (k v : List Char),
      st.length < PARSE_PARAMS_MAX_ENTRIES →
      (parse_params_set_value st k v).2 = false) := by
  refine ⟨?_, ?_, ?_⟩
  · intro st k v e he
    unfold parse_params_set_value at he
    by_cases h1 : (storeLookup st k).isSome
    · rw [if_pos h1] at he
      exact mem_storeUpdate st k v e he
    · rw [if_neg h1] at he
      by_cases h2 : PARSE_PARAMS_MAX_ENTRIES ≤ st.length
      · rw [if_pos h2] at he
        exact Or.inl he
      · rw [if_neg h2] at he
        rcases List.mem_append.1 he with h3 | h3
        · exact Or.inl h3
        · right
          simp only [List.mem_singleton] at h3
          rw [h3]
  · intro st k v d hk hst
    have hne : ∀ e ∈ st, e.1 ≠ k := by
      intro e he hek
      have h1 := hst e he
      rw [hek] at h1
      omega
    have hnone : storeLookup st k = none := (storeLookup_eq_none_iff st k).2 hne
    unfold parse_params_set_value
    rw [hnone]
    simp only [Option.isSome_none, Bool.false_eq_true, if_false]
    by_cases h2 : PARSE_PARAMS_MAX_ENTRIES ≤ st.length
    · rw [if_pos h2, hnone]
      rfl
    · rw [if_neg h2]
      have hatail : storeLookup
          (st ++ [(k.take (PARSE_PARAMS_KEY_LEN - 1),
                   v.take (PARSE_PARAMS_VALUE_LEN - 1))]) k = none := by
        rw [storeLookup_eq_none_iff]
        intro e he
        rcases List.mem_append.1 he with h3 | h3
        · exact hne e h3
        · simp only [List.mem_singleton] at h3
          rw [h3]
          intro hek
          have hek' : List.take (PARSE_PARAMS_KEY_LEN - 1) k = k := hek
          have hlen := congrArg List.length hek'
          rw [List.length_take] at hlen
          simp only [PARSE_PARAMS_KEY_LEN] at hlen hk
          omega
      rw [hatail]
      rfl
  · intro st k v hlt
    unfold parse_params_set_value
    by_cases h1 : (storeLookup st k).isSome
    · rw [if_pos h1]
    · rw [if_neg h1, if_neg (by omega)]

/-- Witness for claim C9 at concrete inputs: a 128-character key with a
300-character value on a one-entry store. -/
theorem claim_C9_witness :
    ((['x'], ['1']) ∈ [((['x'], ['1']) : Entry)] ∨
      (['x'], ['1']).2 = (List.replicate 300 'b').take (PARSE_PARAMS_VALUE_LEN - 1)) ∧
    (storeLookup ((parse_params_set_value [(['x'], ['1'])]
      (List.replicate 128 'a') (List.replicate 300 'b')).1)
      (List.replicate 128 'a')).getD ['d'] = ['d'] ∧
    (parse_params_set_value [(['x'], ['1'])] (List.replicate 128 'a')
      (List.replicate 300 'b')).2 = false :=
  ⟨claim_C9.1 [(['x'], ['1'])] (List.replicate 128 'a')
     (List.replicate 300 'b') (['x'], ['1']) (by decide),
   claim_C9.2.1 [(['x'], ['1'])] (List.replicate 128 'a')
     (List.replicate 300 'b') ['d'] (by decide) (by decide),
   claim_C9.2.2 [(['x'], ['1'])] (List.replicate 128 'a')
     (List.replicate 300 'b') (by decide)⟩

/-- Claim C5 — capacity is a soft limit.  On a store already holding
`PARSE_PARAMS_MAX_ENTRIES` entries, `parse_params_set_value` with a key
not present leaves the store exactly as it was (every existing entry's
key and value unchanged), signals only the warning, and (being a total
function) never fails fatally. -/
theorem claim_C5 (st : Store) (k v : List Char)
    (hfull : st.length = PARSE_PARAMS_MAX_ENTRIES)
    (hnew : storeLookup st k = none) :
    parse_params_set_value st k v = (st, true) := by
  unfold parse_params_set_value
  rw [hnew]
  simp only [Option.isSome_none, Bool.false_eq_true, if_false]
  rw [if_pos (by omega)]

/-- Witness for claim C5: a concrete full store of 256 entries. -/
theorem claim_C5_witness :
    parse_params_set_value
      ((List.range 256).map (fun i => (List.replicate i 'a', ['v'])))
      ['b'] ['w']
      = ((List.range 256).map (fun i => (List.replicate i 'a', ['v'])), true) :=
  claim_C5 _ ['b'] ['w'] (by simp [PARSE_PARAMS_MAX_ENTRIES]) (by decide)

/-- Claim C6 — load failure degrades to an empty loaded store.  When the
path cannot be opened, `parse_params_load` leaves the entry table empty
(clearing whatever was there), marks the store loaded, returns `-1`, and
warns exactly when no earlier load failure had warned (so at most one
warning); afterwards every lookup — under any file system — returns the
caller's default, does not attempt another load, and leaves the state
unchanged. -/
theorem claim_C6 (fs : FS) (path : List Char) (st : PState)
    (hfail : fs path = none) :
    (parse_params_load fs path st).1.entries = [] ∧
    (parse_params_load fs path st).1.loaded = true ∧
    (parse_params_load fs path st).2.1 = -1 ∧
    (parse_params_load fs path st).2.2 = !st.warnedMissing ∧
    (∀ (fs' : FS) (key dflt : List Char),
      parse_param_string fs' key dflt (parse_params_load fs path st).1 =
        (dflt, (parse_params_load fs path st).1, false)) := by
  have hload : (parse_params_load fs path st).1.entries = [] ∧
      (parse_params_load fs path st).1.loaded = true ∧
      (parse_params_load fs path st).2.1 = -1 ∧
      (parse_params_load fs path st).2.2 = !st.warnedMissing := by
    unfold parse_params_load
    rw [hfail]
    by_cases hw : st.warnedMissing
    · simp [hw]
    · simp [hw]
  refine ⟨hload.1, hload.2.1, hload.2.2.1, hload.2.2.2, ?_⟩
  intro fs' key dflt
  unfold parse_param_string parse_param_string_opt parse_params_ensure_loaded
  rw [if_pos hload.2.1]
  simp [hload.1, storeLookup]

/-- Witness for claim C6: the everywhere-failing file system from the
initial state. -/
theorem claim_C6_witness :
    (parse_params_load (fun _ => none) "missing.params".toList initialPState).1.entries = [] ∧
    (parse_params_load (fun _ => none) "missing.params".toList initialPState).1.loaded = true ∧
    (parse_params_load (fun _ => none) "missing.params".toList initialPState).2.1 = -1 ∧
    (parse_params_load (fun _ => none) "missing.params".toList initialPState).2.2 =
      !initialPState.warnedMissing ∧
    (∀ (fs' : FS) (key dflt : List Char),
      parse_param_string fs' key dflt
        (parse_params_load (fun _ => none) "missing.params".toList initialPState).1 =
        (dflt, (parse_params_load (fun _ => none) "missing.params".toList initialPState).1,
          false)) :=
  claim_C6 (fun _ => none) "missing.params".toList initialPState rfl

/-! ## List scanning lemmas -/

theorem takeWhile_all {p : Char → Bool} {l : List Char} (h : ∀ c ∈ l, p c) :
    l.takeWhile p = l := by
  induction l with
  | nil => rfl
  | cons c rest ih =>
    rw [List.takeWhile_cons, if_pos (h c (List.mem_cons_self ..))]
    rw [ih (fun d hd => h d (List.mem_cons_of_mem _ hd))]

theorem dropWhile_all {p : Char → Bool} {l : List Char} (h : ∀ c ∈ l, p c) :
    l.dropWhile p = [] := by
  induction l with
  | nil => rfl
  | cons c rest ih =>
    rw [List.dropWhile_cons, if_pos (h c (List.mem_cons_self ..))]
    exact ih fun d hd => h d (List.mem_cons_of_mem _ hd)

theorem takeWhile_append_stop {p : Char → Bool} {l : List Char}
    (h : ∃ c ∈ l, ¬ p c) (ys : List Char) :
    (l ++ ys).takeWhile p = l.takeWhile p := by
  induction l with
  | nil => simp at h
  | cons c rest ih =>
    by_cases hc : p c
    · simp only [List.cons_append, List.takeWhile_cons, hc, if_true]
      obtain ⟨d, hd, hdp⟩ := h
      rcases List.mem_cons.1 hd with rfl | hd'
      · exact absurd hc hdp
      · rw [ih ⟨d, hd', hdp⟩]
    · simp [List.takeWhile_cons, hc]

theorem dropWhile_append_stop {p : Char → Bool} {l : List Char}
    (h : ∃ c ∈ l, ¬ p c) (ys : List Char) :
    (l ++ ys).dropWhile p = l.dropWhile p ++ ys := by
  induction l with
  | nil => simp at h
  | cons c rest ih =>
    by_cases hc : p c
    · simp only [List.cons_append, List.dropWhile_cons, hc, if_true]
      obtain ⟨d, hd, hdp⟩ := h
      rcases List.mem_cons.1 hd with rfl | hd'
      · exact absurd hc hdp
      · rw [ih ⟨d, hd', hdp⟩]
    · simp [List.dropWhile_cons, hc]

theorem dropWhile_ne_nil_of_stop {p : Char → Bool} {l : List Char}
    (h : ∃ c ∈ l, ¬ p c) : l.dropWhile p ≠ [] := by
  intro hnil
  obtain ⟨c, hc, hcp⟩ := h
  have hall : l.takeWhile p = l := by
    have := List.takeWhile_append_dropWhile p l
    rw [hnil, List.append_nil] at this
    exact this
  apply hcp
  rw [← hall] at hc
  exact List.mem_takeWhile_imp hc

theorem trimRightWs_append_ws {xs : List Char} {c : Char} (h : cIsSpace c) :
    trimRightWs (xs ++ [c]) = trimRightWs xs := by
  unfold trimRightWs
  rw [List.reverse_append]
  simp only [List.reverse_cons, List.reverse_nil, List.nil_append,
    List.singleton_append, List.dropWhile_cons, h, if_true]

theorem trim_append_ws {xs : List Char} {c : Char} (h : cIsSpace c) :
    parse_params_trim (xs ++ [c]) = parse_params_trim xs := by
  unfold parse_params_trim
  by_cases he : (xs.dropWhile cIsSpace).isEmpty
  · rw [List.dropWhile_append, if_pos he]
    have h0 : xs.dropWhile cIsSpace = [] := List.isEmpty_iff.1 he
    rw [h0]
    simp [List.dropWhile_cons, h]
  · rw [List.dropWhile_append, if_neg he]
    exact trimRightWs_append_ws h

/-- Appending the newline that `fgets` keeps in the buffer does not change
how a line parses. -/
theorem parse_params_line_newline {l : List Char} (h : '\n' ∉ l) :
    parse_params_line (l ++ ['\n']) = parse_params_line l := by
  by_cases hH : '#' ∈ l
  · have : (l ++ ['\n']).takeWhile (fun c => decide (c ≠ '#')) =
        l.takeWhile (fun c => decide (c ≠ '#')) :=
      takeWhile_append_stop ⟨'#', hH, by simp⟩ _
    unfold parse_params_line
    rw [this]
  · have hall : ∀ c ∈ l, (fun c => decide (c ≠ '#')) c = true := by
      intro c hc
      simp only [decide_eq_true_eq]
      intro hcc
      exact hH (hcc ▸ hc)
    have h1 : (l ++ ['\n']).takeWhile (fun c => decide (c ≠ '#')) = l ++ ['\n'] := by
      apply takeWhile_all
      intro c hc
      rcases List.mem_append.1 hc with hc1 | hc1
      · exact hall c hc1
      · simp only [List.mem_singleton] at hc1
        simp [hc1]
    have h2 : l.takeWhile (fun c => decide (c ≠ '#')) = l := takeWhile_all hall
    unfold parse_params_line
    rw [h1, h2]
    by_cases hE : '=' ∈ l
    · have hmem : '=' ∈ l ++ ['\n'] := List.mem_append.2 (Or.inl hE)
      rw [if_pos hmem, if_pos hE]
      have hkey : (l ++ ['\n']).takeWhile (fun c => decide (c ≠ '=')) =
          l.takeWhile (fun c => decide (c ≠ '=')) :=
        takeWhile_append_stop ⟨'=', hE, by simp⟩ _
      have hdrop : (l ++ ['\n']).dropWhile (fun c => decide (c ≠ '=')) =
          l.dropWhile (fun c => decide (c ≠ '=')) ++ ['\n'] :=
        dropWhile_append_stop ⟨'=', hE, by simp⟩ _
      have hne : l.dropWhile (fun c => decide (c ≠ '=')) ≠ [] :=
        dropWhile_ne_nil_of_stop ⟨'=', hE, by simp⟩
      obtain ⟨z, zs, hzs⟩ : ∃ z zs, l.dropWhile (fun c => decide (c ≠ '=')) = z :: zs := by
        rcases hd : l.dropWhile (fun c => decide (c ≠ '=')) with _ | ⟨z, zs⟩
        · exact absurd hd hne
        · exact ⟨z, zs, rfl⟩
      have htail : ((l ++ ['\n']).dropWhile (fun c => decide (c ≠ '='))).tail =
          (l.dropWhile (fun c => decide (c ≠ '='))).tail ++ ['\n'] := by
        rw [hdrop, hzs]
        rfl
      rw [hkey, htail, trim_append_ws (by decide)]
    · have hmem : '=' ∉ l ++ ['\n'] := by
        intro hc
        rcases List.mem_append.1 hc with hc1 | hc1
        · exact hE hc1
        · simp at hc1
      rw [if_neg hmem, if_neg hE]

theorem dropWhile_head_not {p : Char → Bool} :
    ∀ {l : List Char} {d : Char} {tl : List Char},
      l.dropWhile p = d :: tl → p d = false := by
  intro l
  induction l with
  | nil => intro d tl h; simp [List.dropWhile_nil] at h
  | cons c rest ih =>
    intro d tl h
    rw [List.dropWhile_cons] at h
    by_cases hc : p c
    · rw [if_pos hc] at h
      exact ih h
    · rw [if_neg hc] at h
      cases h
      simpa using hc

theorem takeLine_no_newline {cs : List Char} (h : '\n' ∉ cs) :
    ∀ {n : Nat}, cs.length ≤ n → takeLine n cs = cs := by
  induction cs with
  | nil => intro n _; cases n <;> rfl
  | cons c rest ih =>
    intro n hn
    match n, hn with
    | n + 1, hn =>
      have hc : ¬ (c = '\n') := by
        intro hcc
        exact h (hcc ▸ List.mem_cons_self ..)
      simp only [takeLine, if_neg hc]
      rw [ih (fun hm => h (List.mem_cons_of_mem _ hm)) (by
        simp only [List.length_cons] at hn
        omega)]

theorem takeLine_first_newline {pre : List Char} (h : '\n' ∉ pre) :
    ∀ {n : Nat} (tl : List Char), pre.length < n →
      takeLine n (pre ++ '\n' :: tl) = pre ++ ['\n'] := by
  induction pre with
  | nil =>
    intro n tl hn
    match n, hn with
    | n + 1, _ => rfl
  | cons c p' ih =>
    intro n tl hn
    match n, hn with
    | n + 1, hn =>
      have hc : ¬ (c = '\n') := by
        intro hcc
        exact h (hcc ▸ List.mem_cons_self ..)
      simp only [List.cons_append, takeLine, if_neg hc]
      show c :: takeLine n (p' ++ '\n' :: tl) = c :: (p' ++ ['\n'])
      rw [ih (fun hm => h (List.mem_cons_of_mem _ hm)) tl (by
        simp only [List.length_cons] at hn
        omega)]

theorem fileLines_no_newline (cs : List Char) :
    ∀ l ∈ fileLines cs, '\n' ∉ l := by
  suffices hmain : ∀ (fuel : Nat) (cs : List Char), ∀ l ∈ fileLinesF fuel cs, '\n' ∉ l from
    hmain cs.length cs
  intro fuel
  induction fuel with
  | zero =>
    intro cs l hl
    cases cs <;> simp [fileLinesF] at hl
  | succ fuel ih =>
    intro cs l hl
    match cs with
    | [] => simp [fileLinesF] at hl
    | c :: rest =>
      rcases List.mem_cons.1 hl with rfl | hl'
      · intro hmem
        have := List.mem_takeWhile_imp hmem
        simp at this
      · exact ih _ l hl'

/-- Under the physical-line length bound, running the read loop over the
`fgets` buffers is running it over the physical lines. -/
theorem run_fgets_eq (content : List Char)
    (h : ∀ l ∈ fileLines content, l.length ≤ PARSE_PARAMS_LINE_BUF - 2) :
    ∀ st : Store,
      parse_params_run st (fgetsSplit content) =
        parse_params_run st (fileLines content) := by
  suffices hmain : ∀ (n : Nat) (content : List Char), content.length ≤ n →
      (∀ l ∈ fileLines content, l.length ≤ PARSE_PARAMS_LINE_BUF - 2) →
      ∀ st : Store,
        parse_params_run st (fgetsSplit content) =
          parse_params_run st (fileLines content) from
    fun st => hmain content.length content (le_refl _) h st
  intro n
  induction n with
  | zero =>
    intro content hlen h st
    have hnil : content = [] := List.length_eq_zero.1 (Nat.le_zero.1 hlen)
    subst hnil
    rw [fgetsSplit_nil, fileLines_nil]
  | succ n ih =>
    intro content hlen h st
    match content, hlen, h with
    | [], _, _ => rw [fgetsSplit_nil, fileLines_nil]
    | c :: rest, hlen, h =>
      have hrlen : rest.length ≤ n := by
        simp only [List.length_cons] at hlen
        omega
      by_cases hcd : c = '\n'
      · subst hcd
        rw [fgetsSplit_cons, if_pos rfl, fileLines_cons]
        have hline2 : List.takeWhile (fun d => decide (d ≠ '\n')) ('\n' :: rest) = [] := by
          simp [List.takeWhile_cons]
        have hline3 : (List.dropWhile (fun d => decide (d ≠ '\n')) ('\n' :: rest)).tail = rest := by
          simp [List.dropWhile_cons]
        rw [hline2, hline3]
        show parse_params_run (parse_params_apply st ['\n']) (fgetsSplit rest) =
          parse_params_run (parse_params_apply st []) (fileLines rest)
        have happ1 : parse_params_apply st ['\n'] = st := rfl
        have happ2 : parse_params_apply st [] = st := rfl
        rw [happ1, happ2]
        apply ih rest hrlen
        intro l hl
        apply h
        rw [fileLines_cons, hline2, hline3]
        exact List.mem_cons_of_mem _ hl
      · have hL : fileLines (c :: rest) =
            (c :: List.takeWhile (fun d => decide (d ≠ '\n')) rest) ::
              fileLines ((List.dropWhile (fun d => decide (d ≠ '\n')) rest).tail) := by
          rw [fileLines_cons]
          simp [List.takeWhile_cons, List.dropWhile_cons, hcd]
        set pre := List.takeWhile (fun d => decide (d ≠ '\n')) rest with hpre
        have hpre_nl : '\n' ∉ pre := by
          intro hmem
          have := List.mem_takeWhile_imp hmem
          simp at this
        have hplen : (c :: pre).length ≤ PARSE_PARAMS_LINE_BUF - 2 := by
          apply h
          rw [hL]
          exact List.mem_cons_self ..
        have hlen' : pre.length < PARSE_PARAMS_LINE_BUF - 2 := by
          simp only [List.length_cons] at hplen
          omega
        by_cases hnl : '\n' ∈ rest
        · obtain ⟨d, tl, hdtl⟩ : ∃ d tl,
              List.dropWhile (fun d => decide (d ≠ '\n')) rest = d :: tl := by
            rcases hdw : List.dropWhile (fun d => decide (d ≠ '\n')) rest with _ | ⟨d, tl⟩
            · exact absurd hdw (dropWhile_ne_nil_of_stop ⟨'\n', hnl, by simp⟩)
            · exact ⟨d, tl, rfl⟩
          have hdn : d = '\n' := by
            have := dropWhile_head_not hdtl
            simpa using this
          subst hdn
          have hrest : rest = pre ++ '\n' :: tl := by
            conv_lhs => rw [← List.takeWhile_append_dropWhile
              (fun d => decide (d ≠ '\n')) rest]
            rw [hdtl]
          have htake : takeLine (PARSE_PARAMS_LINE_BUF - 2) rest = pre ++ ['\n'] := by
            rw [hrest]
            exact takeLine_first_newline hpre_nl tl hlen'
          have hdrop : rest.drop (takeLine (PARSE_PARAMS_LINE_BUF - 2) rest).length = tl := by
            rw [htake, hrest]
            have hsplit : pre ++ '\n' :: tl = (pre ++ ['\n']) ++ tl := by simp
            rw [hsplit]
            exact List.drop_left ..
          have htail : (List.dropWhile (fun d => decide (d ≠ '\n')) rest).tail = tl := by
            rw [hdtl]
            rfl
          rw [fgetsSplit_cons, if_neg hcd, hL, htail]
          show parse_params_run
              (parse_params_apply st (c :: takeLine (PARSE_PARAMS_LINE_BUF - 2) rest))
              (fgetsSplit (rest.drop (takeLine (PARSE_PARAMS_LINE_BUF - 2) rest).length)) =
            parse_params_run (parse_params_apply st (c :: pre)) (fileLines tl)
          rw [hdrop, htake]
          have hchunk : c :: (pre ++ ['\n']) = (c :: pre) ++ ['\n'] := rfl
          have happly : parse_params_apply st ((c :: pre) ++ ['\n']) =
              parse_params_apply st (c :: pre) := by
            unfold parse_params_apply
            rw [parse_params_line_newline (by
              intro hmem
              rcases List.mem_cons.1 hmem with hcc | hmm
              · exact hcd hcc.symm
              · exact hpre_nl hmm)]
          rw [hchunk, happly]
          have htllen : tl.length ≤ n := by
            have := congrArg List.length hrest
            simp only [List.length_append, List.length_cons] at this
            omega
          exact ih tl htllen (by
            intro l hl
            apply h
            rw [hL, htail]
            exact List.mem_cons_of_mem _ hl) (parse_params_apply st (c :: pre))
        · have hall : pre = rest := by
            apply takeWhile_all
            intro d hd
            simp only [decide_eq_true_eq]
            intro hdd
            exact hnl (hdd ▸ hd)
          have htake : takeLine (PARSE_PARAMS_LINE_BUF - 2) rest = rest :=
            takeLine_no_newline hnl (by
              rw [hall] at hlen'
              omega)
          have hdrop : rest.drop (takeLine (PARSE_PARAMS_LINE_BUF - 2) rest).length = [] := by
            rw [htake, List.drop_length]
          have hdw : List.dropWhile (fun d => decide (d ≠ '\n')) rest = [] := by
            apply dropWhile_all
            intro d hd
            simp only [decide_eq_true_eq]
            intro hdd
            exact hnl (hdd ▸ hd)
          rw [fgetsSplit_cons, if_neg hcd, hL, hdw]
          show parse_params_run
              (parse_params_apply st (c :: takeLine (PARSE_PARAMS_LINE_BUF - 2) rest))
              (fgetsSplit (rest.drop (takeLine (PARSE_PARAMS_LINE_BUF - 2) rest).length)) =
            parse_params_run (parse_params_apply st (c :: pre)) (fileLines ([].tail))
          rw [hdrop, htake, hall]
          rw [fgetsSplit_nil]
          show parse_params_run (parse_params_apply st (c :: rest)) [] =
            parse_params_run (parse_params_apply st (c :: rest)) (fileLines [])
          rw [fileLines_nil]

/-! ## Last-write-wins for the entry table -/

/-- Folding `parse_params_set_value` over a list of parsed assignments —
what `parse_params_run` does on the lines that survive parsing. -/
def setFold (st : Store) (ps : List Entry) : Store :=
  ps.foldl (fun st e => (parse_params_set_value st e.1 e.2).1) st

/-- The value of the last pair in `ps` whose key is `key`. -/
def entriesLast (ps : List Entry) (key : List Char) : Option (List Char) :=
  (ps.reverse.find? (fun e => decide (e.1 = key))).map (fun e => e.2)

theorem lastAssignedValue_eq (lines : List (List Char)) (key : List Char) :
    lastAssignedValue lines key = entriesLast (lines.filterMap parse_params_line) key :=
  rfl

theorem run_eq_setFold (lines : List (List Char)) : ∀ st : Store,
    parse_params_run st lines = setFold st (lines.filterMap parse_params_line) := by
  induction lines with
  | nil => intro st; rfl
  | cons l rest ih =>
    intro st
    show parse_params_run (parse_params_apply st l) rest = _
    rcases hp : parse_params_line l with _ | ⟨k, v⟩
    · rw [show parse_params_apply st l = st from by unfold parse_params_apply; rw [hp]]
      rw [ih st, List.filterMap_cons, hp]
    · rw [show parse_params_apply st l = (parse_params_set_value st k v).1 from by
        unfold parse_params_apply; rw [hp]]
      rw [ih _, List.filterMap_cons, hp]
      rfl

theorem storeLookup_append (st1 st2 : Store) (key : List Char) :
    storeLookup (st1 ++ st2) key = (storeLookup st1 key).or (storeLookup st2 key) := by
  induction st1 with
  | nil => simp [storeLookup]
  | cons e rest ih =>
    by_cases h : e.1 = key
    · simp [storeLookup, h]
    · simp [storeLookup, h, ih]

theorem storeUpdate_keys (st : Store) (k v : List Char) :
    (storeUpdate st k v).map Prod.fst = st.map Prod.fst := by
  induction st with
  | nil => rfl
  | cons e rest ih =>
    by_cases h : e.1 = k
    · simp [storeUpdate, h]
    · simp [storeUpdate, h, ih]

theorem storeLookup_storeUpdate (st : Store) (k v key : List Char)
    (hs : (storeLookup st k).isSome) :
    storeLookup (storeUpdate st k v) key =
      if key = k then some (v.take (PARSE_PARAMS_VALUE_LEN - 1))
      else storeLookup st key := by
  induction st with
  | nil => simp [storeLookup] at hs
  | cons e rest ih =>
    by_cases h : e.1 = k
    · rw [storeUpdate, if_pos h]
      by_cases hk : key = k
      · rw [if_pos hk, storeLookup, if_pos (by rw [h, hk])]
      · rw [if_neg hk, storeLookup, if_neg (by rw [h]; exact fun hc => hk hc.symm),
          storeLookup, if_neg (by rw [h]; exact fun hc => hk hc.symm)]
    · rw [storeUpdate, if_neg h]
      rw [storeLookup, if_neg h] at hs
      by_cases he : e.1 = key
      · rw [storeLookup, if_pos he]
        by_cases hk : key = k
        · exact absurd (he.trans hk) h
        · rw [if_neg hk, storeLookup, if_pos he]
      · rw [storeLookup, if_neg he, ih hs]
        by_cases hk : key = k
        · rw [if_pos hk, if_pos hk]
        · rw [if_neg hk, if_neg hk, storeLookup, if_neg he]

/-- The lookup after one `set`, when the key is short enough not to be
truncated and the table either knows the key or has room. -/
theorem storeLookup_set (st : Store) (k v key : List Char)
    (hklen : k.length ≤ PARSE_PARAMS_KEY_LEN - 1)
    (hok : (storeLookup st k).isSome ∨ st.length < PARSE_PARAMS_MAX_ENTRIES) :
    storeLookup ((parse_params_set_value st k v).1) key =
      if key = k then some (v.take (PARSE_PARAMS_VALUE_LEN - 1))
      else storeLookup st key := by
  unfold parse_params_set_value
  by_cases hs : (storeLookup st k).isSome
  · rw [if_pos hs]
    exact storeLookup_storeUpdate st k v key hs
  · rw [if_neg hs, if_neg (by
      rcases hok with hok | hok
      · exact absurd hok hs
      · omega)]
    show storeLookup (st ++ [(k.take (PARSE_PARAMS_KEY_LEN - 1), _)]) key = _
    rw [storeLookup_append, List.take_of_length_le hklen]
    have hnone : storeLookup st k = none := by
      rcases hh : storeLookup st k with _ | w
      · rfl
      · rw [hh] at hs; simp at hs
    by_cases hk : key = k
    · rw [if_pos hk, hk, hnone]
      rw [show storeLookup [(k, v.take (PARSE_PARAMS_VALUE_LEN - 1))] k =
        some (v.take (PARSE_PARAMS_VALUE_LEN - 1)) from by
          rw [storeLookup, if_pos rfl]]
      rfl
    · rw [if_neg hk]
      rw [show storeLookup [(k, v.take (PARSE_PARAMS_VALUE_LEN - 1))] key =
        none from by
          rw [storeLookup, if_neg (fun hc => hk hc.symm)]
          rfl]
      rw [Option.or_none]

/-- The keys of the table after one `set`: unchanged on update or when
capacity drops the pair, extended by the truncated key on insert. -/
theorem set_keys (st : Store) (k v : List Char) :
    ((parse_params_set_value st k v).1.map Prod.fst = st.map Prod.fst) ∨
    ((storeLookup st k) = none ∧ st.length < PARSE_PARAMS_MAX_ENTRIES ∧
      (parse_params_set_value st k v).1.map Prod.fst =
        st.map Prod.fst ++ [k.take (PARSE_PARAMS_KEY_LEN - 1)]) := by
  unfold parse_params_set_value
  by_cases hs : (storeLookup st k).isSome
  · rw [if_pos hs]
    exact Or.inl (storeUpdate_keys st k v)
  · rw [if_neg hs]
    by_cases hc : PARSE_PARAMS_MAX_ENTRIES ≤ st.length
    · rw [if_pos hc]
      exact Or.inl rfl
    · rw [if_neg hc]
      refine Or.inr ⟨?_, by omega, by simp⟩
      rcases hh : storeLookup st k with _ | w
      · rfl
      · rw [hh] at hs; simp at hs

/-- Last write wins: folding the parsed assignments over a table whose
keys are distinct, when keys and values are short enough to escape
truncation and the distinct keys fit the capacity, makes lookup return
the last assigned value (falling back to the prior table). -/
theorem setFold_lookup : ∀ (ps : List Entry) (st : Store) (key : List Char),
    (∀ e ∈ ps, e.1.length ≤ PARSE_PARAMS_KEY_LEN - 1 ∧
               e.2.length ≤ PARSE_PARAMS_VALUE_LEN - 1) →
    (st.map Prod.fst).Nodup →
    ((st.map Prod.fst).toFinset ∪ (ps.map Prod.fst).toFinset).card ≤
      PARSE_PARAMS_MAX_ENTRIES →
    storeLookup (setFold st ps) key =
      (entriesLast ps key).or (storeLookup st key) := by
  intro ps
  induction ps with
  | nil =>
    intro st key _ _ _
    simp [setFold, entriesLast]
  | cons e ps' ih =>
    intro st key hps hnd hcard
    obtain ⟨k, v⟩ := e
    have hk : k.length ≤ PARSE_PARAMS_KEY_LEN - 1 :=
      (hps (k, v) (List.mem_cons_self ..)).1
    have hv : v.length ≤ PARSE_PARAMS_VALUE_LEN - 1 :=
      (hps (k, v) (List.mem_cons_self ..)).2
    have hok : (storeLookup st k).isSome ∨
        st.length < PARSE_PARAMS_MAX_ENTRIES := by
      by_cases hsk : (storeLookup st k).isSome
      · exact Or.inl hsk
      · right
        have hnone : storeLookup st k = none :=
          Option.not_isSome_iff_eq_none.1 hsk
        have hkmem : k ∉ st.map Prod.fst := by
          rw [storeLookup_eq_none_iff] at hnone
          intro hm
          obtain ⟨e', he', hfst⟩ := List.mem_map.1 hm
          exact hnone e' he' hfst
        have hlen : st.length = (st.map Prod.fst).toFinset.card := by
          rw [List.toFinset_card_of_nodup hnd, List.length_map]
        have hins : insert k ((st.map Prod.fst).toFinset) ⊆
            (st.map Prod.fst).toFinset ∪
              (((k, v) :: ps').map Prod.fst).toFinset := by
          intro x hx
          rcases Finset.mem_insert.1 hx with rfl | hx
          · refine Finset.mem_union.2 (Or.inr ?_)
            simp
          · exact Finset.mem_union.2 (Or.inl hx)
        have hcard2 := Finset.card_le_card hins
        rw [Finset.card_insert_of_not_mem (by
          rw [List.mem_toFinset]; exact hkmem)] at hcard2
        omega
    have hstep := storeLookup_set st k v key hk hok
    rw [List.take_of_length_le hv] at hstep
    have hsubps : ∀ e ∈ ps', e.1.length ≤ PARSE_PARAMS_KEY_LEN - 1 ∧
        e.2.length ≤ PARSE_PARAMS_VALUE_LEN - 1 :=
      fun e he => hps e (List.mem_cons_of_mem _ he)
    have hmain : storeLookup (setFold ((parse_params_set_value st k v).1) ps') key =
        (entriesLast ps' key).or
          (storeLookup ((parse_params_set_value st k v).1) key) := by
      rcases set_keys st k v with hkeys | ⟨hnone, hroom, hkeys⟩
      · apply ih _ key hsubps (by rw [hkeys]; exact hnd)
        refine le_trans (Finset.card_le_card ?_) hcard
        rw [hkeys]
        intro x hx
        rcases Finset.mem_union.1 hx with hx | hx
        · exact Finset.mem_union.2 (Or.inl hx)
        · refine Finset.mem_union.2 (Or.inr ?_)
          simp only [List.map_cons, List.toFinset_cons]
          exact Finset.mem_insert_of_mem hx
      · rw [List.take_of_length_le hk] at hkeys
        have hkmem : k ∉ st.map Prod.fst := by
          rw [storeLookup_eq_none_iff] at hnone
          intro hm
          obtain ⟨e', he', hfst⟩ := List.mem_map.1 hm
          exact hnone e' he' hfst
        apply ih _ key hsubps (by
          rw [hkeys]
          rw [List.nodup_append]
          refine ⟨hnd, List.nodup_singleton _, ?_⟩
          intro a ha hb
          simp only [List.mem_singleton] at hb
          subst hb
          exact hkmem ha)
        have hsetEq : ((st.map Prod.fst ++ [k]).toFinset ∪ (ps'.map Prod.fst).toFinset)
            = ((st.map Prod.fst).toFinset ∪ (((k, v) :: ps').map Prod.fst).toFinset) := by
          ext x
          simp only [List.toFinset_append, Finset.mem_union, List.mem_toFinset,
            List.mem_singleton, List.map_cons, List.mem_cons]
          tauto
        rw [hkeys, hsetEq]
        exact hcard
    show storeLookup (setFold ((parse_params_set_value st k v).1) ps') key = _
    rw [hmain, hstep]
    unfold entriesLast
    rw [List.reverse_cons, List.find?_append, Option.map_or']
    by_cases hkk : key = k
    · subst hkk
      have hfind : List.find? (fun e => decide (e.1 = key)) [((key, v) : Entry)] =
          some (key, v) := by simp
      rw [hfind, if_pos rfl]
      simp [Option.or_assoc]
    · have hfind : List.find? (fun e => decide (e.1 = key)) [((k, v) : Entry)] =
          none := by
        rw [List.find?_singleton, if_neg (by
          simp only [decide_eq_true_eq]
          exact fun hc => hkk hc.symm)]
      rw [hfind, if_neg hkk]
      simp

/-- Loading a readable file whose lines fit the read buffer, whose
assignments fit the entry buffers, and whose distinct keys fit the table
makes every lookup return the last assigned value (or the default). -/
theorem load_get_lastAssigned (fs : FS) (path content : List Char) (st : PState)
    (hread : fs path = some content)
    (hlines : ∀ l ∈ fileLines content, l.length ≤ PARSE_PARAMS_LINE_BUF - 2)
    (hsizes : ∀ e ∈ (fileLines content).filterMap parse_params_line,
      e.1.length ≤ PARSE_PARAMS_KEY_LEN - 1 ∧
      e.2.length ≤ PARSE_PARAMS_VALUE_LEN - 1)
    (hcount : distinctKeyCount (fileLines content) ≤ PARSE_PARAMS_MAX_ENTRIES) :
    ∀ (key dflt : List Char) (fs' : FS),
      (parse_param_string fs' key dflt (parse_params_load fs path st).1).1 =
        (lastAssignedValue (fileLines content) key).getD dflt := by
  intro key dflt fs'
  have hentries : (parse_params_load fs path st).1.entries =
      parse_params_run [] (fgetsSplit content) := by
    unfold parse_params_load
    rw [hread]
  have hloaded : (parse_params_load fs path st).1.loaded = true := by
    unfold parse_params_load
    rw [hread]
  unfold parse_param_string parse_param_string_opt parse_params_ensure_loaded
  rw [if_pos hloaded]
  show ((storeLookup (parse_params_load fs path st).1.entries key).getD dflt, _, _).1 = _
  rw [hentries, run_fgets_eq content hlines, run_eq_setFold]
  rw [setFold_lookup _ [] key hsizes (by simp) (by
    simp only [List.map_nil, List.toFinset_nil, Finset.empty_union]
    rw [List.card_toFinset]
    exact hcount)]
  rw [lastAssignedValue_eq]
  rw [show storeLookup [] key = none from rfl, Option.or_none]

/-- Claim C1, amended.  For every readable configuration file in which
every physical line fits the 448-byte read buffer (at most 446
characters), every surviving assignment has a key of at most 127 and a
value of at most 255 characters, and at most 256 distinct keys are
assigned, `parse_params_load` followed by any lookup returns, for each
key, exactly the trimmed value of the last line that assigns it — lines
parsed by stripping from the first `'#'`, skipping lines without `'='`,
splitting at the first `'='` and trimming both sides, skipping empty key
or value — and the caller-supplied default for every key no surviving
line assigns. -/
theorem claim_C1 (fs : FS) (path content : List Char) (st : PState)
    (hread : fs path = some content)
    (hlines : ∀ l ∈ fileLines content, l.length ≤ PARSE_PARAMS_LINE_BUF - 2)
    (hsizes : ∀ e ∈ (fileLines content).filterMap parse_params_line,
      e.1.length ≤ PARSE_PARAMS_KEY_LEN - 1 ∧
      e.2.length ≤ PARSE_PARAMS_VALUE_LEN - 1)
    (hcount : distinctKeyCount (fileLines content) ≤ PARSE_PARAMS_MAX_ENTRIES) :
    ∀ (key dflt : List Char) (fs' : FS),
      (parse_param_string fs' key dflt (parse_params_load fs path st).1).1 =
        (lastAssignedValue (fileLines content) key).getD dflt :=
  load_get_lastAssigned fs path content st hread hlines hsizes hcount

/-- The readable file used by the counterexample to claim C1 as stated: a
single line assigning a 256-character value. -/
def c1CxContent : List Char :=
  "k=".toList ++ List.replicate 256 'a'

/-- A one-file file system serving `c1CxContent` under the name `f`. -/
def c1CxFs : FS :=
  fun p => if p = "f".toList then some c1CxContent else none

/-- Counterexample to claim C1 as stated: in the file `c1CxContent` the
last (only) line assigning `k` carries the trimmed value of 256 `a`s, yet
after loading, the lookup returns only the first 255 of them — not
"exactly that trimmed value". -/
theorem claim_C1_cx :
    parse_params_line c1CxContent = some ("k".toList, List.replicate 256 'a') ∧
    (parse_param_string (fun _ => none) "k".toList ['d']
      (parse_params_load c1CxFs "f".toList initialPState).1).1 =
      List.replicate 255 'a' ∧
    List.replicate 255 'a' ≠ List.replicate 256 'a' :=
  ⟨by decide, by decide, by decide⟩

/-- The readable file used by the witness of claim C1. -/
def c1WitContent : List Char :=
  "a=1\nb = 2 # c\na=3\nx\n".toList

/-- A one-file file system serving `c1WitContent` under the name `f`. -/
def c1WitFs : FS :=
  fun p => if p = "f".toList then some c1WitContent else none

/-- Witness for claim C1 at a concrete file: duplicate keys, an inline
comment, and a line without `'='`. -/
theorem claim_C1_witness :
    (parse_param_string (fun _ => none) "a".toList ['d']
      (parse_params_load c1WitFs "f".toList initialPState).1).1 =
      (lastAssignedValue (fileLines c1WitContent) "a".toList).getD ['d'] :=
  claim_C1 c1WitFs "f".toList c1WitContent initialPState (by decide)
    (by decide) (by decide) (by decide) "a".toList ['d'] (fun _ => none)

/-! ## Case driver lemmas -/

/-- Generic unfolding of one step of the argument loop. -/
theorem parseArgsGo_cons (o : Opts) (a : List Char) (rest : List (List Char)) :
    parseArgsGo o (a :: rest) =
      (if a = "-h".toList ∨ a = "--help".toList then .help
       else if a = "--exec".toList then
         match rest with
         | [] => .usageErr
         | v :: rest' =>
           if v = [] then .usageErr else parseArgsGo { o with exec := v } rest'
       else if strStarts "--exec=".toList a then
         parseArgsGo { o with exec := a.drop 7 } rest
       else if a = "--mpi".toList then
         parseArgsGo { o with mpi := true } rest
       else if a = "--threads".toList then
         match rest with
         | [] => .usageErr
         | v :: rest' =>
           if v = [] then .usageErr else parseArgsGo { o with threads := v } rest'
       else if strStarts "--threads=".toList a then
         parseArgsGo { o with threads := a.drop 10 } rest
       else if a = "--CPUs".toList ∨ a = "--cpus".toList then
         match rest with
         | [] => .usageErr
         | v :: rest' =>
           if v = [] then .usageErr
           else parseArgsGo { o with threads := v, cpus := true } rest'
       else if strStarts "--CPUs=".toList a || strStarts "--cpus=".toList a then
         parseArgsGo { o with threads := a.drop 7, cpus := true } rest
       else if a = "--".toList then
         if rest = [] then .ok o else .usageErr
       else if strStarts "-".toList a then .usageErr
       else if o.pfSet then .usageErr
       else parseArgsGo { o with pf := a, pfSet := true } rest) := by
  cases rest <;> rfl

/-- Force the deprecated-CPUs flag on an argument-loop outcome. -/
def markCpus : ParseOut → ParseOut
  | .ok o => .ok { o with cpus := true }
  | .help => .help
  | .usageErr => .usageErr

/-- The `cpus` flag never influences the control flow of the argument
loop: parsing with the flag pre-set parses the same and merely forces the
flag in the result. -/
theorem parseArgsGo_cpus : ∀ (args : List (List Char)) (o : Opts),
    parseArgsGo { o with cpus := true } args = markCpus (parseArgsGo o args) := by
  suffices hmain : ∀ (n : Nat) (args : List (List Char)), args.length ≤ n → ∀ o : Opts,
      parseArgsGo { o with cpus := true } args = markCpus (parseArgsGo o args) from
    fun args o => hmain args.length args (le_refl _) o
  intro n
  induction n with
  | zero =>
    intro args hlen o
    have hnil : args = [] := List.length_eq_zero.1 (Nat.le_zero.1 hlen)
    subst hnil
    rfl
  | succ n ih =>
    intro args hlen o
    match args, hlen with
    | [], _ => rfl
    | a :: rest, hlen =>
      have hrlen : rest.length ≤ n := by
        simp only [List.length_cons] at hlen
        omega
      rw [parseArgsGo_cons, parseArgsGo_cons]
      by_cases h1 : a = "-h".toList ∨ a = "--help".toList
      · rw [if_pos h1, if_pos h1]
        rfl
      · rw [if_neg h1, if_neg h1]
        by_cases h2 : a = "--exec".toList
        · rw [if_pos h2, if_pos h2]
          match rest, hlen with
          | [], _ => rfl
          | v :: rest', hlen =>
            dsimp only
            have hvlen : rest'.length ≤ n := by
              simp only [List.length_cons] at hlen
              omega
            by_cases hv : v = []
            · rw [if_pos hv, if_pos hv]
              rfl
            · rw [if_neg hv, if_neg hv]
              exact ih rest' hvlen { o with exec := v }
        · rw [if_neg h2, if_neg h2]
          by_cases h3 : strStarts "--exec=".toList a = true
          · rw [if_pos h3, if_pos h3]
            exact ih rest hrlen { o with exec := a.drop 7 }
          · rw [if_neg h3, if_neg h3]
            by_cases h4 : a = "--mpi".toList
            · rw [if_pos h4, if_pos h4]
              exact ih rest hrlen { o with mpi := true }
            · rw [if_neg h4, if_neg h4]
              by_cases h5 : a = "--threads".toList
              · rw [if_pos h5, if_pos h5]
                match rest, hlen with
                | [], _ => rfl
                | v :: rest', hlen =>
                  dsimp only
                  have hvlen : rest'.length ≤ n := by
                    simp only [List.length_cons] at hlen
                    omega
                  by_cases hv : v = []
                  · rw [if_pos hv, if_pos hv]
                    rfl
                  · rw [if_neg hv, if_neg hv]
                    exact ih rest' hvlen { o with threads := v }
              · rw [if_neg h5, if_neg h5]
                by_cases h6 : strStarts "--threads=".toList a = true
                · rw [if_pos h6, if_pos h6]
                  exact ih rest hrlen { o with threads := a.drop 10 }
                · rw [if_neg h6, if_neg h6]
                  by_cases h7 : a = "--CPUs".toList ∨ a = "--cpus".toList
                  · rw [if_pos h7, if_pos h7]
                    match rest, hlen with
                    | [], _ => rfl
                    | v :: rest', hlen =>
                      dsimp only
                      have hvlen : rest'.length ≤ n := by
                        simp only [List.length_cons] at hlen
                        omega
                      by_cases hv : v = []
                      · rw [if_pos hv]
                        try rw [if_pos hv]
                        rfl
                      · rw [if_neg hv]
                        try rw [if_neg hv]
                        exact ih rest' hvlen { o with threads := v, cpus := true }
                  · rw [if_neg h7, if_neg h7]
                    by_cases h8 : (strStarts "--CPUs=".toList a ||
                        strStarts "--cpus=".toList a) = true
                    · rw [if_pos h8, if_pos h8]
                      exact ih rest hrlen { o with threads := a.drop 7, cpus := true }
                    · rw [if_neg h8, if_neg h8]
                      by_cases h9 : a = "--".toList
                      · rw [if_pos h9, if_pos h9]
                        by_cases hr : rest = []
                        · rw [if_pos hr, if_pos hr]
                          rfl
                        · rw [if_neg hr, if_neg hr]
                          rfl
                      · rw [if_neg h9, if_neg h9]
                        by_cases h10 : strStarts "-".toList a = true
                        · rw [if_pos h10, if_pos h10]
                          rfl
                        · rw [if_neg h10, if_neg h10]
                          by_cases h11 : ({ o with cpus := true } : Opts).pfSet = true
                          · rw [if_pos h11, if_pos (by exact h11)]
                            rfl
                          · rw [if_neg h11, if_neg (by exact h11)]
                            exact ih rest hrlen { o with pf := a, pfSet := true }

/-- One step of the loop on `--threads N` (with a nonempty `N`). -/
theorem parseArgsGo_threads_step (o : Opts) (nv : List Char)
    (rest : List (List Char)) (hn : nv ≠ []) :
    parseArgsGo o ("--threads".toList :: nv :: rest) =
      parseArgsGo { o with threads := nv } rest := by
  rw [parseArgsGo_cons]
  simp [strStarts, hn]

/-- One step of the loop on `--CPUs N` (with a nonempty `N`). -/
theorem parseArgsGo_cpus_step (o : Opts) (nv : List Char)
    (rest : List (List Char)) (hn : nv ≠ []) :
    parseArgsGo o ("--CPUs".toList :: nv :: rest) =
      parseArgsGo { o with threads := nv, cpus := true } rest := by
  rw [parseArgsGo_cons]
  simp [strStarts, hn]

/-- Every outcome of the post-parse stage: the thread-count rejection,
a pre-flight failure (exit 1, nothing staged), a compilation failure
propagating the tool's status, or a run propagating the engine's
status. -/
theorem runAfterParse_shape (env : DriverEnv) (sd : List Char) (o : Opts) :
    runAfterParse env sd o = ⟨1, .preflightFail, [], [], false, false, false⟩ ∨
    runAfterParse env sd o = preflight1 o.mpi o.cpus ∨
    (∃ c, env.compile = some c ∧ (runAfterParse env sd o).phase = .compileFail ∧
      (runAfterParse env sd o).exit = c) ∨
    (env.compile = none ∧ (runAfterParse env sd o).phase = .ran ∧
      (runAfterParse env sd o).exit = env.engineExit) := by
  unfold runAfterParse
  split
  · exact Or.inl rfl
  · split
    · exact Or.inr (Or.inl rfl)
    · split
      · exact Or.inr (Or.inl rfl)
      · split
        · exact Or.inr (Or.inl rfl)
        · split
          · exact Or.inr (Or.inl rfl)
          · split
            · exact Or.inr (Or.inl rfl)
            · split
              · exact Or.inr (Or.inl rfl)
              · split
                · rename_i c hc
                  exact Or.inr (Or.inr (Or.inl ⟨c, hc, rfl, rfl⟩))
                · rename_i hc
                  exact Or.inr (Or.inr (Or.inr ⟨hc, rfl, rfl⟩))

/-- Claim C3 — exit-code propagation.  Whenever the driver reaches the
execution step its exit code is exactly the engine's exit code (zero
included); whenever it stops at a usage error or a failed pre-flight
check its exit code is 1. -/
theorem claim_C3 (env : DriverEnv) (sd : List Char) (args : List (List Char)) :
    ((runSimulation env sd args).phase = DPhase.ran →
      (runSimulation env sd args).exit = env.engineExit) ∧
    (((runSimulation env sd args).phase = DPhase.usage ∨
      (runSimulation env sd args).phase = DPhase.preflightFail) →
      (runSimulation env sd args).exit = 1) := by
  unfold runSimulation
  rcases hp : parseArgsGo defaultOpts args with _ | _ | o
  · dsimp only
    exact ⟨fun h => (nomatch h), fun h => by rcases h with h | h <;> exact (nomatch h)⟩
  · dsimp only
    exact ⟨fun h => (nomatch h), fun _ => rfl⟩
  · dsimp only
    rcases runAfterParse_shape env sd o with h | h | ⟨c, _, hph, hex⟩ | ⟨_, hph, hex⟩
    · rw [h]
      exact ⟨fun hh => (nomatch hh), fun _ => rfl⟩
    · rw [h]
      exact ⟨fun hh => (nomatch hh), fun _ => rfl⟩
    · refine ⟨fun hh => ?_, fun hh => ?_⟩
      · rw [hph] at hh
        exact (nomatch hh)
      · rcases hh with hh | hh <;> rw [hph] at hh <;> exact nomatch hh
    · refine ⟨fun _ => hex, fun hh => ?_⟩
      rcases hh with hh | hh <;> rw [hph] at hh <;> exact (nomatch hh)

/-- The concrete environment of the CaseNo=0999 run: `qcc` on PATH, a
readable parameter file assigning `CaseNo=0999`, the engine source
present, compilation succeeding, the engine exiting with status 7. -/
def env0999 : DriverEnv :=
  ⟨true,
   fun p => if p = "SD/p.par".toList then some "CaseNo=0999\n".toList else none,
   fun _ => true, none, 7⟩

/-- Witness for claim C3: the CaseNo=0999 run reaches execution and
returns the engine's status; an unknown option exits 1. -/
theorem claim_C3_witness :
    (runSimulation env0999 "SD".toList ["p.par".toList]).exit = env0999.engineExit ∧
    (runSimulation env0999 "SD".toList ["--bogus".toList]).exit = 1 :=
  ⟨(claim_C3 env0999 "SD".toList ["p.par".toList]).1 (by decide),
   (claim_C3 env0999 "SD".toList ["--bogus".toList]).2 (Or.inl (by decide))⟩

/-- Claim C2 — the code violates it.  With every other pre-flight
condition satisfied and `CaseNo=0999` (value 999, below the 1000 floor),
the driver does not exit 1 before staging: the bash test
`[[ "$CASE_NO" -lt 1000 ]]` sees an invalid octal constant, the
arithmetic error makes the guard fail without terminating the script
(`set -e` does not fire in an `if` condition), and the run stages
`simulationCases/0999/`, compiles, executes, and exits with the engine's
status. -/
theorem claim_C2 :
    (runSimulation env0999 "SD".toList ["p.par".toList]).phase = DPhase.ran ∧
    (runSimulation env0999 "SD".toList ["p.par".toList]).exit = 7 ∧
    (runSimulation env0999 "SD".toList ["p.par".toList]).mkdirs =
      ["SD/simulationCases/0999".toList] ∧
    (runSimulation env0999 "SD".toList ["p.par".toList]).copies ≠ [] := by
  decide

/-- The post-parse stage ignores the deprecated-CPUs flag in everything
but the deprecation warning. -/
theorem runAfterParse_cpus (env : DriverEnv) (sd : List Char) (o : Opts) :
    (runAfterParse env sd { o with cpus := true }).exit =
      (runAfterParse env sd o).exit ∧
    (runAfterParse env sd { o with cpus := true }).phase =
      (runAfterParse env sd o).phase ∧
    (runAfterParse env sd { o with cpus := true }).mkdirs =
      (runAfterParse env sd o).mkdirs ∧
    (runAfterParse env sd { o with cpus := true }).copies =
      (runAfterParse env sd o).copies ∧
    (runAfterParse env sd { o with cpus := true }).compileInvoked =
      (runAfterParse env sd o).compileInvoked ∧
    (runAfterParse env sd { o with cpus := true }).warnMpi =
      (runAfterParse env sd o).warnMpi := by
  obtain ⟨e, pf0, ps, th, mp, cp⟩ := o
  unfold runAfterParse
  dsimp only
  rw [show paramPath sd ⟨e, pf0, ps, th, mp, true⟩ =
        paramPath sd ⟨e, pf0, ps, th, mp, cp⟩ from rfl,
      show srcPath sd ⟨e, pf0, ps, th, mp, true⟩ =
        srcPath sd ⟨e, pf0, ps, th, mp, cp⟩ from rfl,
      show execName ⟨e, pf0, ps, th, mp, true⟩ =
        execName ⟨e, pf0, ps, th, mp, cp⟩ from rfl]
  repeat' split
  all_goals exact ⟨rfl, rfl, rfl, rfl, rfl, rfl⟩

/-- Claim C8 — thread-count validation and the deprecated alias.
(1) Whenever the argument loop leaves a thread count that fails the
`^[1-9][0-9]*$` check (0, negative, or any non-numeral), the driver exits
1 before any staging and before any warning.  (2) For every positive
integer `N`, `--CPUs N …` behaves exactly as `--threads N …` in exit
code, phase, directories created, copies, build invocation, and the
`--mpi` warning.  (3) On the plain invocations, `--CPUs N` additionally
prints the deprecation warning and `--threads N` does not. -/
theorem claim_C8 :
    (∀ (env : DriverEnv) (sd : List Char) (args : List (List Char)) (o : Opts),
      parseArgsGo defaultOpts args = ParseOut.ok o →
      isPosIntStr o.threads = false →
      runSimulation env sd args =
        ⟨1, DPhase.preflightFail, [], [], false, false, false⟩) ∧
    (∀ (env : DriverEnv) (sd nv : List Char) (rest : List (List Char)),
      isPosIntStr nv = true →
      (runSimulation env sd ("--CPUs".toList :: nv :: rest)).exit =
        (runSimulation env sd ("--threads".toList :: nv :: rest)).exit ∧
      (runSimulation env sd ("--CPUs".toList :: nv :: rest)).phase =
        (runSimulation env sd ("--threads".toList :: nv :: rest)).phase ∧
      (runSimulation env sd ("--CPUs".toList :: nv :: rest)).mkdirs =
        (runSimulation env sd ("--threads".toList :: nv :: rest)).mkdirs ∧
      (runSimulation env sd ("--CPUs".toList :: nv :: rest)).copies =
        (runSimulation env sd ("--threads".toList :: nv :: rest)).copies ∧
      (runSimulation env sd ("--CPUs".toList :: nv :: rest)).compileInvoked =
        (runSimulation env sd ("--threads".toList :: nv :: rest)).compileInvoked ∧
      (runSimulation env sd ("--CPUs".toList :: nv :: rest)).warnMpi =
        (runSimulation env sd ("--threads".toList :: nv :: rest)).warnMpi) ∧
    (∀ (env : DriverEnv) (sd nv : List Char),
      isPosIntStr nv = true →
      (runSimulation env sd ["--CPUs".toList, nv]).warnCpus = true ∧
      (runSimulation env sd ["--threads".toList, nv]).warnCpus = false) := by
  have hne : ∀ nv : List Char, isPosIntStr nv = true → nv ≠ [] := by
    intro nv h hnil
    rw [hnil] at h
    simp [isPosIntStr] at h
  refine ⟨?_, ?_, ?_⟩
  · intro env sd args o hp hbad
    unfold runSimulation
    rw [hp]
    show runAfterParse env sd o = _
    unfold runAfterParse
    rw [if_pos (by
      rw [hbad]
      simp)]
  · intro env sd nv rest hpos
    unfold runSimulation
    rw [parseArgsGo_threads_step defaultOpts nv rest (hne nv hpos),
      parseArgsGo_cpus_step defaultOpts nv rest (hne nv hpos)]
    rw [show ({ defaultOpts with threads := nv, cpus := true } : Opts) =
      { ({ defaultOpts with threads := nv } : Opts) with cpus := true } from rfl]
    rw [parseArgsGo_cpus rest { defaultOpts with threads := nv }]
    rcases parseArgsGo { defaultOpts with threads := nv } rest with _ | _ | o'
    · exact ⟨rfl, rfl, rfl, rfl, rfl, rfl⟩
    · exact ⟨rfl, rfl, rfl, rfl, rfl, rfl⟩
    · exact runAfterParse_cpus env sd o'
  · intro env sd nv hpos
    unfold runSimulation
    rw [parseArgsGo_cpus_step defaultOpts nv [] (hne nv hpos),
      parseArgsGo_threads_step defaultOpts nv [] (hne nv hpos)]
    constructor
    · show (runAfterParse env sd { defaultOpts with threads := nv, cpus := true }).warnCpus = true
      unfold runAfterParse
      rw [if_neg (by
        simp only [not_not]
        exact hpos)]
      repeat' split
      all_goals rfl
    · show (runAfterParse env sd { defaultOpts with threads := nv }).warnCpus = false
      unfold runAfterParse
      rw [if_neg (by
        simp only [not_not]
        exact hpos)]
      repeat' split
      all_goals rfl

/-- Witness for claim C8: `--threads 0` is rejected with exit 1 and
nothing staged; `--CPUs 4` matches `--threads 4` in effect and adds the
deprecation warning. -/
theorem claim_C8_witness :
    runSimulation env0999 "SD".toList ["--threads".toList, "0".toList] =
      ⟨1, DPhase.preflightFail, [], [], false, false, false⟩ ∧
    ((runSimulation env0999 "SD".toList ["--CPUs".toList, "4".toList]).exit =
      (runSimulation env0999 "SD".toList ["--threads".toList, "4".toList]).exit) ∧
    (runSimulation env0999 "SD".toList ["--CPUs".toList, "4".toList]).warnCpus = true :=
  ⟨claim_C8.1 env0999 "SD".toList ["--threads".toList, "0".toList]
      { defaultOpts with threads := "0".toList } (by decide) (by decide),
   (claim_C8.2.1 env0999 "SD".toList "4".toList [] (by decide)).1,
   (claim_C8.2.2 env0999 "SD".toList "4".toList (by decide)).1⟩

/-! ## awk versus store: line-level agreement (claim C10) -/

theorem ws_ne_hash {c : Char} (h : cIsSpace c = true) : c ≠ '#' := by
  simp only [cIsSpace, Bool.or_eq_true, decide_eq_true_eq] at h
  rcases h with ((((h | h) | h) | h) | h) | h <;> subst h <;> decide

theorem mem_dropWhile_of_mem {a : Char} {l : List Char} (h : a ∈ l)
    (ha : cIsSpace a = false) : a ∈ l.dropWhile cIsSpace := by
  induction l with
  | nil => cases h
  | cons c rest ih =>
    rw [List.dropWhile_cons]
    by_cases hc : cIsSpace c = true
    · rw [if_pos hc]
      rcases List.mem_cons.1 h with rfl | h'
      · rw [ha] at hc; cases hc
      · exact ih h'
    · rw [if_neg hc]; exact h

theorem mem_trimRightWs_of_mem {a : Char} {l : List Char} (h : a ∈ l)
    (ha : cIsSpace a = false) : a ∈ trimRightWs l := by
  unfold trimRightWs
  rw [List.mem_reverse]
  exact mem_dropWhile_of_mem (List.mem_reverse.2 h) ha

theorem mem_trim_of_mem {a : Char} {l : List Char} (h : a ∈ l)
    (ha : cIsSpace a = false) : a ∈ parse_params_trim l :=
  mem_trimRightWs_of_mem (mem_dropWhile_of_mem h ha) ha

theorem trimRightWs_cons (c : Char) (r : List Char) :
    trimRightWs (c :: r) =
      if trimRightWs r = [] then (if cIsSpace c then [] else [c])
      else c :: trimRightWs r := by
  show (((c :: r).reverse).dropWhile cIsSpace).reverse = _
  rw [List.reverse_cons, List.dropWhile_append]
  by_cases hr : (r.reverse.dropWhile cIsSpace) = []
  · rw [if_pos (by rw [hr]; rfl)]
    rw [if_pos (show trimRightWs r = [] by unfold trimRightWs; rw [hr]; rfl)]
    by_cases hc : cIsSpace c = true
    · rw [List.dropWhile_cons, if_pos hc]; simp [hc]
    · rw [List.dropWhile_cons, if_neg hc]; simp [hc]
  · rw [if_neg (by simpa [List.isEmpty_iff] using hr)]
    rw [if_neg (show ¬ trimRightWs r = [] by unfold trimRightWs; simpa using hr)]
    rw [List.reverse_append]
    rfl

theorem dropWhile_idem (p : Char → Bool) (l : List Char) :
    (l.dropWhile p).dropWhile p = l.dropWhile p := by
  induction l with
  | nil => rfl
  | cons c r ih =>
    rw [List.dropWhile_cons]
    by_cases hc : p c = true
    · rw [if_pos hc]; exact ih
    · rw [if_neg hc, List.dropWhile_cons, if_neg hc]

theorem trimRightWs_idem (l : List Char) :
    trimRightWs (trimRightWs l) = trimRightWs l := by
  show ((((l.reverse.dropWhile cIsSpace).reverse).reverse).dropWhile cIsSpace).reverse = _
  rw [List.reverse_reverse, dropWhile_idem]
  rfl

theorem dropWhile_trimRightWs_comm (l : List Char) :
    (trimRightWs l).dropWhile cIsSpace = trimRightWs (l.dropWhile cIsSpace) := by
  induction l with
  | nil => rfl
  | cons c r ih =>
    by_cases hc : cIsSpace c = true
    · by_cases hr : trimRightWs r = []
      · rw [trimRightWs_cons, if_pos hr, if_pos hc]
        rw [List.dropWhile_cons, if_pos hc, ← ih, hr]
      · rw [trimRightWs_cons, if_neg hr]
        rw [show (c :: r).dropWhile cIsSpace = r.dropWhile cIsSpace from by
          rw [List.dropWhile_cons, if_pos hc]]
        rw [show (c :: trimRightWs r).dropWhile cIsSpace = (trimRightWs r).dropWhile cIsSpace from by
          rw [List.dropWhile_cons, if_pos hc]]
        exact ih
    · rw [trimRightWs_cons]
      rw [show (c :: r).dropWhile cIsSpace = c :: r from by
        rw [List.dropWhile_cons, if_neg hc]]
      by_cases hr : trimRightWs r = []
      · rw [if_pos hr, if_neg hc]
        rw [show ([c] : List Char).dropWhile cIsSpace = [c] from by
          rw [List.dropWhile_cons, if_neg hc]]
        rw [trimRightWs_cons, if_pos hr, if_neg hc]
      · rw [if_neg hr]
        rw [show (c :: trimRightWs r).dropWhile cIsSpace = c :: trimRightWs r from by
          rw [List.dropWhile_cons, if_neg hc]]
        rw [trimRightWs_cons, if_neg hr]

theorem trim_trimRightWs (l : List Char) :
    parse_params_trim (trimRightWs l) = parse_params_trim l := by
  show trimRightWs ((trimRightWs l).dropWhile cIsSpace) = trimRightWs (l.dropWhile cIsSpace)
  rw [dropWhile_trimRightWs_comm, trimRightWs_idem]

theorem awkTrim_eq_trim (l : List Char) : awkTrim l = parse_params_trim l := rfl

theorem takeWhile_append_all {p : Char → Bool} {xs : List Char}
    (h : ∀ c ∈ xs, p c) (ys : List Char) :
    (xs ++ ys).takeWhile p = xs ++ ys.takeWhile p := by
  induction xs with
  | nil => rfl
  | cons c r ih =>
    rw [List.cons_append, List.takeWhile_cons, if_pos (h c (List.mem_cons_self ..)),
        ih (fun d hd => h d (List.mem_cons_of_mem _ hd)), List.cons_append]

theorem dropWhile_append_all {p : Char → Bool} {xs : List Char}
    (h : ∀ c ∈ xs, p c) (ys : List Char) :
    (xs ++ ys).dropWhile p = ys.dropWhile p := by
  induction xs with
  | nil => rfl
  | cons c r ih =>
    rw [List.cons_append, List.dropWhile_cons, if_pos (h c (List.mem_cons_self ..))]
    exact ih fun d hd => h d (List.mem_cons_of_mem _ hd)

theorem hash_not_mem_takeWhile_eq {l : List Char}
    (h : '=' ∈ l.takeWhile (fun c => decide (c ≠ '#'))) :
    '#' ∉ l.takeWhile (fun c => decide (c ≠ '=')) := by
  induction l with
  | nil => simp at h
  | cons c r ih =>
    by_cases hH : c = '#'
    · subst hH
      simp [List.takeWhile_cons] at h
    · by_cases hE : c = '='
      · subst hE
        simp [List.takeWhile_cons]
      · have hpH : decide (c ≠ '#') = true := by simp [hH]
        have hpE : decide (c ≠ '=') = true := by simp [hE]
        rw [List.takeWhile_cons, if_pos hpH] at h
        rw [List.takeWhile_cons, if_pos hpE]
        intro hm
        rcases List.mem_cons.1 hm with rfl | hm'
        · exact hH rfl
        · rcases List.mem_cons.1 h with heq | h'
          · exact hE heq.symm
          · exact ih h' hm'

theorem takeWhile_eq_of_mem_hash {l : List Char}
    (h : '=' ∈ l.takeWhile (fun c => decide (c ≠ '#'))) :
    (l.takeWhile (fun c => decide (c ≠ '#'))).takeWhile (fun c => decide (c ≠ '=')) =
      l.takeWhile (fun c => decide (c ≠ '=')) := by
  induction l with
  | nil => simp at h
  | cons c r ih =>
    by_cases hH : c = '#'
    · subst hH
      simp [List.takeWhile_cons] at h
    · by_cases hE : c = '='
      · subst hE
        have hpH : decide (('=' : Char) ≠ '#') = true := by decide
        have hpE : decide (('=' : Char) ≠ '=') = false := by decide
        rw [List.takeWhile_cons, if_pos hpH, List.takeWhile_cons, if_neg (by rw [hpE]; simp),
            List.takeWhile_cons, if_neg (by rw [hpE]; simp)]
      · have hpH : decide (c ≠ '#') = true := by simp [hH]
        have hpE : decide (c ≠ '=') = true := by simp [hE]
        rw [List.takeWhile_cons, if_pos hpH] at h
        have h' : '=' ∈ r.takeWhile (fun c => decide (c ≠ '#')) := by
          rcases List.mem_cons.1 h with heq | h'
          · exact absurd heq.symm hE
          · exact h'
        rw [List.takeWhile_cons, if_pos hpH, List.takeWhile_cons, if_pos hpE,
            List.takeWhile_cons, if_pos hpE, ih h']

theorem takeWhile_hash_of_no_eq {B : List Char}
    (h : '=' ∉ B.takeWhile (fun c => decide (c ≠ '#'))) :
    (B.takeWhile (fun c => decide (c ≠ '='))).takeWhile (fun c => decide (c ≠ '#')) =
      B.takeWhile (fun c => decide (c ≠ '#')) := by
  induction B with
  | nil => rfl
  | cons c r ih =>
    by_cases hH : c = '#'
    · subst hH
      have hpE : decide (('#' : Char) ≠ '=') = true := by decide
      rw [List.takeWhile_cons, if_pos hpE, List.takeWhile_cons,
          if_neg (by simp), List.takeWhile_cons, if_neg (by simp)]
    · by_cases hE : c = '='
      · subst hE
        exfalso
        apply h
        rw [List.takeWhile_cons, if_pos (by decide)]
        exact List.mem_cons_self ..
      · have hpH : decide (c ≠ '#') = true := by simp [hH]
        have hpE : decide (c ≠ '=') = true := by simp [hE]
        have h' : '=' ∉ r.takeWhile (fun c => decide (c ≠ '#')) := fun hm =>
          h (by rw [List.takeWhile_cons, if_pos hpH]; exact List.mem_cons_of_mem _ hm)
        rw [List.takeWhile_cons, if_pos hpE, List.takeWhile_cons, if_pos hpH,
            List.takeWhile_cons, if_pos hpH, ih h']

theorem takeWhile_all_of_no_eq_no_hash {B : List Char}
    (h1 : '=' ∉ B.takeWhile (fun c => decide (c ≠ '#')))
    (h2 : '#' ∉ B.takeWhile (fun c => decide (c ≠ '='))) :
    B.takeWhile (fun c => decide (c ≠ '=')) = B ∧
      B.takeWhile (fun c => decide (c ≠ '#')) = B := by
  induction B with
  | nil => exact ⟨rfl, rfl⟩
  | cons c r ih =>
    by_cases hH : c = '#'
    · subst hH
      exfalso
      apply h2
      rw [List.takeWhile_cons, if_pos (by decide)]
      exact List.mem_cons_self ..
    · by_cases hE : c = '='
      · subst hE
        exfalso
        apply h1
        rw [List.takeWhile_cons, if_pos (by decide)]
        exact List.mem_cons_self ..
      · have hpH : decide (c ≠ '#') = true := by simp [hH]
        have hpE : decide (c ≠ '=') = true := by simp [hE]
        have h1' : '=' ∉ r.takeWhile (fun c => decide (c ≠ '#')) := fun hm =>
          h1 (by rw [List.takeWhile_cons, if_pos hpH]; exact List.mem_cons_of_mem _ hm)
        have h2' : '#' ∉ r.takeWhile (fun c => decide (c ≠ '=')) := fun hm =>
          h2 (by rw [List.takeWhile_cons, if_pos hpE]; exact List.mem_cons_of_mem _ hm)
        obtain ⟨ha, hb⟩ := ih h1' h2'
        constructor
        · rw [List.takeWhile_cons, if_pos hpE, ha]
        · rw [List.takeWhile_cons, if_pos hpH, hb]

theorem takeWhile_hash_all_ws {l : List Char} (h : awkLineIsComment l = true) :
    ∀ c ∈ l.takeWhile (fun c => decide (c ≠ '#')), cIsSpace c = true := by
  unfold awkLineIsComment at h
  rcases hdw : l.dropWhile cIsSpace with _ | ⟨d, t⟩
  · rw [hdw] at h; simp at h
  · rw [hdw] at h
    have hd : d = '#' := by simpa using h
    subst hd
    have hws : ∀ c ∈ l.takeWhile cIsSpace, cIsSpace c = true :=
      fun c hc => List.mem_takeWhile_imp hc
    have ht : l.takeWhile (fun c => decide (c ≠ '#')) = l.takeWhile cIsSpace := by
      conv_lhs => rw [← List.takeWhile_append_dropWhile cIsSpace l, hdw]
      rw [takeWhile_append_all (fun c hc => by simpa using ws_ne_hash (hws c hc)) _,
          List.takeWhile_cons, if_neg (by decide)]
      simp
    rw [ht]
    exact hws

theorem awk_of_parse {l k v : List Char}
    (hp : parse_params_line l = some (k, v)) :
    awkKeyOf l = some k ∧
      ('=' ∉ v → awkTrim (awkStripComment (awkField2 l)) = v) := by
  unfold parse_params_line at hp
  by_cases hmem : '=' ∈ l.takeWhile (fun c => decide (c ≠ '#'))
  · rw [if_pos hmem] at hp
    by_cases hempty :
        parse_params_trim ((l.takeWhile (fun c => decide (c ≠ '#'))).takeWhile
          (fun c => decide (c ≠ '='))) = [] ∨
        parse_params_trim (((l.takeWhile (fun c => decide (c ≠ '#'))).dropWhile
          (fun c => decide (c ≠ '='))).tail) = []
    · rw [if_pos hempty] at hp; cases hp
    · rw [if_neg hempty] at hp
      have hkv := Option.some.inj hp
      have hk : parse_params_trim ((l.takeWhile (fun c => decide (c ≠ '#'))).takeWhile
          (fun c => decide (c ≠ '='))) = k := congrArg Prod.fst hkv
      have hv : parse_params_trim (((l.takeWhile (fun c => decide (c ≠ '#'))).dropWhile
          (fun c => decide (c ≠ '='))).tail) = v := congrArg Prod.snd hkv
      have hmeml : '=' ∈ l := (List.takeWhile_sublist _).subset hmem
      have hne : l.dropWhile (fun c => decide (c ≠ '=')) ≠ [] :=
        dropWhile_ne_nil_of_stop ⟨'=', hmeml, by simp⟩
      obtain ⟨z, zs, hzs⟩ : ∃ z zs, l.dropWhile (fun c => decide (c ≠ '=')) = z :: zs := by
        rcases hd : l.dropWhile (fun c => decide (c ≠ '=')) with _ | ⟨z, zs⟩
        · exact absurd hd hne
        · exact ⟨z, zs, rfl⟩
      have hz : z = '=' := by simpa using dropWhile_head_not hzs
      subst hz
      have hAq : ∀ e ∈ l.takeWhile (fun d => decide (d ≠ '=')),
          (fun d => decide (d ≠ '=')) e = true :=
        fun _ hc => by simpa using List.mem_takeWhile_imp hc
      have hAnoHash : '#' ∉ l.takeWhile (fun c => decide (c ≠ '=')) :=
        hash_not_mem_takeWhile_eq hmem
      have hAp : ∀ e ∈ l.takeWhile (fun d => decide (d ≠ '=')),
          (fun d => decide (d ≠ '#')) e = true := by
        intro c hc
        simp only [decide_eq_true_eq]
        intro hcc
        exact hAnoHash (hcc ▸ hc)
      have hsplit : l = l.takeWhile (fun c => decide (c ≠ '=')) ++ '=' :: zs := by
        conv_lhs => rw [← List.takeWhile_append_dropWhile (fun c => decide (c ≠ '=')) l, hzs]
      have hlH : l.takeWhile (fun c => decide (c ≠ '#')) =
          l.takeWhile (fun c => decide (c ≠ '=')) ++
            '=' :: zs.takeWhile (fun c => decide (c ≠ '#')) := by
        conv_lhs => rw [hsplit]
        rw [takeWhile_append_all hAp, List.takeWhile_cons, if_pos (by decide)]
      have hkey : (l.takeWhile (fun c => decide (c ≠ '#'))).takeWhile
          (fun c => decide (c ≠ '=')) = l.takeWhile (fun c => decide (c ≠ '=')) :=
        takeWhile_eq_of_mem_hash hmem
      have hdropH : (l.takeWhile (fun c => decide (c ≠ '#'))).dropWhile
          (fun c => decide (c ≠ '=')) =
          '=' :: zs.takeWhile (fun c => decide (c ≠ '#')) := by
        rw [hlH, dropWhile_append_all hAq, List.dropWhile_cons, if_neg (by decide)]
      have hcom : awkLineIsComment l = false := by
        rcases hco : awkLineIsComment l
        · rfl
        · exact absurd (takeWhile_hash_all_ws hco '=' hmem) (by decide)
      refine ⟨?_, ?_⟩
      · unfold awkKeyOf
        rw [if_neg (by rw [hcom]; simp)]
        unfold awkField1
        rw [awkTrim_eq_trim, ← hkey, hk]
      · intro hnoeq
        have hv' : parse_params_trim (zs.takeWhile (fun c => decide (c ≠ '#'))) = v := by
          rw [hdropH] at hv
          exact hv
        have hnoeq' : '=' ∉ zs.takeWhile (fun c => decide (c ≠ '#')) := fun hm =>
          hnoeq (hv' ▸ mem_trim_of_mem hm (by decide))
        have hF2 : awkField2 l = zs.takeWhile (fun c => decide (c ≠ '=')) := by
          unfold awkField2
          rw [hzs, List.tail_cons]
        by_cases hHF : '#' ∈ zs.takeWhile (fun c => decide (c ≠ '='))
        · rw [hF2]
          unfold awkStripComment
          rw [if_pos hHF, takeWhile_hash_of_no_eq hnoeq', awkTrim_eq_trim, trim_trimRightWs]
          exact hv'
        · obtain ⟨hqa, hpa⟩ := takeWhile_all_of_no_eq_no_hash hnoeq' hHF
          rw [hF2, hqa]
          unfold awkStripComment
          rw [if_neg (hqa ▸ hHF), awkTrim_eq_trim, ← hpa]
          exact hv'
  · rw [if_neg hmem] at hp
    cases hp

theorem find_of_filter_singleton {α : Type} {p : α → Bool} :
    ∀ {l : List α} {a : α}, l.filter p = [a] → l.find? p = some a := by
  intro l
  induction l with
  | nil => intro a h; simp at h
  | cons c r ih =>
    intro a h
    rw [List.filter_cons] at h
    by_cases hc : p c = true
    · rw [if_pos hc] at h
      injection h with h1 h2
      subst h1
      exact List.find?_cons_of_pos _ hc
    · rw [if_neg hc] at h
      rw [List.find?_cons_of_neg _ hc]
      exact ih h

theorem entriesLast_of_filter_singleton {ps : List Entry} {k : List Char} {e : Entry}
    (h : ps.filter (fun x => decide (x.1 = k)) = [e]) :
    entriesLast ps k = some e.2 := by
  unfold entriesLast
  have hrev : ps.reverse.filter (fun x => decide (x.1 = k)) = [e] := by
    rw [List.filter_reverse, h]
    rfl
  rw [find_of_filter_singleton hrev]
  rfl

theorem assigns_nil_of_awk_nil {k : List Char} : ∀ {lines : List (List Char)},
    lines.filter (fun l => decide (awkKeyOf l = some k)) = [] →
    (lines.filterMap parse_params_line).filter (fun e => decide (e.1 = k)) = [] := by
  intro lines
  induction lines with
  | nil => intro _; rfl
  | cons l rest ih =>
    intro h
    rw [List.filter_cons] at h
    by_cases ha : awkKeyOf l = some k
    · rw [if_pos (by simpa using ha)] at h
      cases h
    · rw [if_neg (by simpa using ha)] at h
      rw [List.filterMap_cons]
      rcases hp : parse_params_line l with _ | ⟨k', v'⟩
      · exact ih h
      · rw [List.filter_cons,
          if_neg (by simp only [decide_eq_true_eq]; exact fun he => ha (he ▸ (awk_of_parse hp).1))]
        exact ih h

theorem assigns_filter_singleton {k l₀ v : List Char} : ∀ {lines : List (List Char)},
    lines.filter (fun l => decide (awkKeyOf l = some k)) = [l₀] →
    parse_params_line l₀ = some (k, v) →
    (lines.filterMap parse_params_line).filter (fun e => decide (e.1 = k)) = [(k, v)] := by
  intro lines
  induction lines with
  | nil => intro h _; simp at h
  | cons l rest ih =>
    intro hfilter hassign
    rw [List.filter_cons] at hfilter
    by_cases ha : awkKeyOf l = some k
    · rw [if_pos (by simpa using ha)] at hfilter
      injection hfilter with h1 h2
      subst h1
      rw [List.filterMap_cons, hassign, List.filter_cons, if_pos (by simp),
        assigns_nil_of_awk_nil h2]
    · rw [if_neg (by simpa using ha)] at hfilter
      rw [List.filterMap_cons]
      rcases hp : parse_params_line l with _ | ⟨k', v'⟩
      · exact ih hfilter hassign
      · rw [List.filter_cons,
          if_neg (by simp only [decide_eq_true_eq]; exact fun he => ha (he ▸ (awk_of_parse hp).1))]
        exact ih hfilter hassign

theorem get_param_value_of_singleton {lines : List (List Char)} {k l₀ v : List Char}
    (hfilter : lines.filter (fun l => decide (awkKeyOf l = some k)) = [l₀])
    (hassign : parse_params_line l₀ = some (k, v)) (hnoeq : '=' ∉ v) :
    get_param_value k lines = some v := by
  unfold get_param_value
  rw [find_of_filter_singleton hfilter]
  show some (awkTrim (awkStripComment (awkField2 l₀))) = some v
  rw [(awk_of_parse hassign).2 hnoeq]

/-- Claim C10, amended.  For every readable parameter file whose physical
lines fit the 448-byte read buffer, whose surviving assignments fit the
key (127) and value (255) character buffers, which assigns at most 256
distinct keys, and in which exactly one line carries the awk key
`CaseNo` (a non-comment line whose trimmed first `'='`-field is
`CaseNo`), that line parsing in the store as an assignment of `CaseNo`
to a value `v` containing no `'='` — the case identifier the Case Driver
extracts with `get_param_value` and the value the Configuration Store
returns for key `CaseNo` after loading the same file agree: both are
exactly `v`, for every get-time default. -/
theorem claim_C10 (fs : FS) (path content : List Char) (st : PState)
    (l₀ v : List Char)
    (hread : fs path = some content)
    (hlines : ∀ l ∈ fileLines content, l.length ≤ PARSE_PARAMS_LINE_BUF - 2)
    (hsizes : ∀ e ∈ (fileLines content).filterMap parse_params_line,
      e.1.length ≤ PARSE_PARAMS_KEY_LEN - 1 ∧
      e.2.length ≤ PARSE_PARAMS_VALUE_LEN - 1)
    (hcount : distinctKeyCount (fileLines content) ≤ PARSE_PARAMS_MAX_ENTRIES)
    (hfilter : (fileLines content).filter
      (fun l => decide (awkKeyOf l = some "CaseNo".toList)) = [l₀])
    (hassign : parse_params_line l₀ = some ("CaseNo".toList, v))
    (hnoeq : '=' ∉ v) :
    get_param_value "CaseNo".toList (fileLines content) = some v ∧
    ∀ (fs' : FS) (dflt : List Char),
      (parse_param_string fs' "CaseNo".toList dflt (parse_params_load fs path st).1).1 = v := by
  refine ⟨get_param_value_of_singleton hfilter hassign hnoeq, ?_⟩
  intro fs' dflt
  rw [load_get_lastAssigned fs path content st hread hlines hsizes hcount "CaseNo".toList dflt fs',
    lastAssignedValue_eq,
    entriesLast_of_filter_singleton (assigns_filter_singleton hfilter hassign)]
  rfl

/-- Readable files used by the counterexample to claim C10 as stated: a
key assigned twice, a bare key line before an assignment, and a value
longer than the 255-character value buffer. -/
def c10Fs : FS := fun p =>
  if p = "f1".toList then some "CaseNo=1\nCaseNo=2\n".toList
  else if p = "f2".toList then some "CaseNo\nCaseNo=1000\n".toList
  else if p = "f3".toList then some ("CaseNo=".toList ++ List.replicate 256 '1')
  else none

/-- Counterexample to claim C10 as stated: on `CaseNo=1` then `CaseNo=2`
the driver extracts the first value and the store keeps the last; on a
bare `CaseNo` line before `CaseNo=1000` the driver extracts the empty
string while the store keeps `1000`; on a 256-character value the driver
extracts all of it while the store truncates to 255 characters.  Each
file assigns `CaseNo` with no `'='` in the assigned value — the second
and third even assign it exactly once — yet extractor and store
disagree. -/
theorem claim_C10_cx :
    (get_param_value "CaseNo".toList (fileLines "CaseNo=1\nCaseNo=2\n".toList) =
        some "1".toList ∧
      (parse_param_string (fun _ => none) "CaseNo".toList []
        (parse_params_load c10Fs "f1".toList initialPState).1).1 = "2".toList ∧
      "1".toList ≠ "2".toList) ∧
    (get_param_value "CaseNo".toList (fileLines "CaseNo\nCaseNo=1000\n".toList) =
        some [] ∧
      (parse_param_string (fun _ => none) "CaseNo".toList []
        (parse_params_load c10Fs "f2".toList initialPState).1).1 = "1000".toList ∧
      ([] : List Char) ≠ "1000".toList) ∧
    (get_param_value "CaseNo".toList
        (fileLines ("CaseNo=".toList ++ List.replicate 256 '1')) =
        some (List.replicate 256 '1') ∧
      (parse_param_string (fun _ => none) "CaseNo".toList []
        (parse_params_load c10Fs "f3".toList initialPState).1).1 =
        List.replicate 255 '1' ∧
      List.replicate 256 '1' ≠ List.replicate 255 '1') :=
  ⟨⟨by decide, by decide, by decide⟩, ⟨by decide, by decide, by decide⟩,
    ⟨by decide, by decide, by decide⟩⟩

/-- The readable file used by the witness to claim C10. -/
def c10WitFs : FS := fun p =>
  if p = "g".toList then some "tmax=2\nCaseNo = 1234 # run\n".toList else none

/-- Witness for claim C10 at a concrete two-line file: both the driver
extraction and the loaded store yield `1234`. -/
theorem claim_C10_witness :
    get_param_value "CaseNo".toList (fileLines "tmax=2\nCaseNo = 1234 # run\n".toList) =
      some "1234".toList ∧
    (parse_param_string (fun _ => none) "CaseNo".toList ['d']
      (parse_params_load c10WitFs "g".toList initialPState).1).1 = "1234".toList := by
  have h := claim_C10 c10WitFs "g".toList "tmax=2\nCaseNo = 1234 # run\n".toList
    initialPState "CaseNo = 1234 # run".toList "1234".toList
    (by decide) (by decide) (by decide) (by decide) (by decide) (by decide) (by decide)
  exact ⟨h.1, h.2 (fun _ => none) ['d']⟩

/-! ## Shape lemmas for the numeric accessors (claims C7 and C4) -/

theorem drop_length_takeWhile (p : Char → Bool) (s : List Char) :
    s.drop (s.takeWhile p).length = s.dropWhile p := by
  induction s with
  | nil => rfl
  | cons c r ih =>
    rw [List.takeWhile_cons, List.dropWhile_cons]
    by_cases hc : p c = true
    · rw [if_pos hc, if_pos hc, List.length_cons, List.drop_succ_cons]
      exact ih
    · rw [if_neg hc, if_neg hc, List.length_nil, List.drop_zero]

theorem ws_not_digit {c : Char} (h : cIsSpace c = true) : isDigit10 c = false := by
  simp only [cIsSpace, Bool.or_eq_true, decide_eq_true_eq] at h
  rcases h with ((((h | h) | h) | h) | h) | h <;> subst h <;> decide

theorem trimRightWs_eq_nil_iff {l : List Char} :
    trimRightWs l = [] ↔ ∀ c ∈ l, cIsSpace c = true := by
  unfold trimRightWs
  rw [List.reverse_eq_nil_iff, List.dropWhile_eq_nil_iff]
  constructor
  · intro h c hc
    exact h c (List.mem_reverse.2 hc)
  · intro h c hc
    exact h c (List.mem_reverse.1 hc)

theorem trimRightWs_prefix (l : List Char) :
    ∃ tr, l = trimRightWs l ++ tr ∧ ∀ c ∈ tr, cIsSpace c = true := by
  refine ⟨(l.reverse.takeWhile cIsSpace).reverse, ?_, ?_⟩
  · conv_lhs => rw [← l.reverse_reverse,
      ← List.takeWhile_append_dropWhile cIsSpace l.reverse]
    rw [List.reverse_append]
    rfl
  · intro c hc
    exact List.mem_takeWhile_imp (List.mem_reverse.1 hc)

theorem trimRightWs_append_allws {xs ys : List Char}
    (h : ∀ c ∈ ys, cIsSpace c = true) :
    trimRightWs (xs ++ ys) = trimRightWs xs := by
  unfold trimRightWs
  rw [List.reverse_append,
    dropWhile_append_all (fun c hc => h c (List.mem_reverse.1 hc)) _]

theorem trimRightWs_all_nonws {l : List Char}
    (h : ∀ c ∈ l, cIsSpace c = false) :
    trimRightWs l = l := by
  unfold trimRightWs
  rcases hl : l.reverse with _ | ⟨c, r⟩
  · simpa using congrArg List.reverse hl
  · rw [List.dropWhile_cons,
      if_neg (by rw [h c (List.mem_reverse.1 (hl ▸ List.mem_cons_self ..))]; simp),
      ← hl, List.reverse_reverse]

theorem trimRightWs_append_stop {xs ys : List Char}
    (h : trimRightWs ys ≠ []) :
    trimRightWs (xs ++ ys) = xs ++ trimRightWs ys := by
  unfold trimRightWs at *
  rw [List.reverse_append, dropWhile_append_stop, List.reverse_append,
    List.reverse_reverse]
  obtain ⟨c, hc, hcp⟩ : ∃ c ∈ ys.reverse, ¬ cIsSpace c = true := by
    by_contra hall
    push_neg at hall
    exact h (by rw [dropWhile_all hall]; rfl)
  exact ⟨c, hc, hcp⟩

theorem head_trimRightWs {l : List Char} (h : trimRightWs l ≠ []) :
    (trimRightWs l).head? = l.head? := by
  rcases l with _ | ⟨c, r⟩
  · rfl
  · rw [trimRightWs_cons] at h ⊢
    by_cases hr : trimRightWs r = []
    · rw [if_pos hr] at h ⊢
      by_cases hc : cIsSpace c = true
      · rw [if_pos hc] at h; exact absurd rfl h
      · rw [if_neg hc]; rfl
    · rw [if_neg hr]; rfl

theorem takeWhile_digits_append {ds ws : List Char}
    (hd : ∀ c ∈ ds, isDigit10 c = true) (hw : ∀ c ∈ ws, cIsSpace c = true) :
    (ds ++ ws).takeWhile isDigit10 = ds := by
  rw [takeWhile_append_all hd]
  rcases ws with _ | ⟨c, r⟩
  · simp
  · rw [List.takeWhile_cons,
      if_neg (by rw [ws_not_digit (hw c (List.mem_cons_self ..))]; simp)]
    simp

theorem parseSign_cons (c : Char) (r : List Char) :
    parseSign (c :: r) =
      if c = '-' then (true, 1) else if c = '+' then (false, 1) else (false, 0) := by
  by_cases h1 : c = '-'
  · subst h1; simp [parseSign]
  · by_cases h2 : c = '+'
    · subst h2; simp [parseSign]
    · rw [if_neg h1, if_neg h2]
      unfold parseSign
      split
      · rename_i heq
        injection heq with h _
        exact absurd h h1
      · rename_i heq
        injection heq with h _
        exact absurd h h2
      · rfl

theorem parseSign_append {l : List Char} (h : l ≠ []) (l' : List Char) :
    parseSign (l ++ l') = parseSign l := by
  rcases l with _ | ⟨c, r⟩
  · exact absurd rfl h
  · rw [List.cons_append, parseSign_cons, parseSign_cons]

theorem strtol_eq (s : List Char) :
    strtol s =
      (let s1 := s.dropWhile cIsSpace
       let sg := parseSign s1
       let ds := (s1.drop sg.2).takeWhile isDigit10
       if ds = [] then ⟨0, 0, false⟩
       else
         let n : Int := if sg.1 then -(digitsVal ds : Int) else (digitsVal ds : Int)
         ⟨if n < LONG_MIN then LONG_MIN else if LONG_MAX < n then LONG_MAX else n,
           (s.takeWhile cIsSpace).length + sg.2 + ds.length,
           decide (n < LONG_MIN) || decide (LONG_MAX < n)⟩) := by
  unfold strtol
  simp only [drop_length_takeWhile]

theorem head_append_ne {l : List Char} (h : l ≠ []) (l' : List Char) :
    (l ++ l').head? = l.head? := by
  rcases l with _ | ⟨c, r⟩
  · exact absurd rfl h
  · rfl

theorem parseSign_head_congr {l l' : List Char} (h : l.head? = l'.head?) :
    parseSign l = parseSign l' := by
  rcases l with _ | ⟨c, r⟩ <;> rcases l' with _ | ⟨c', r'⟩
  · rfl
  · exact absurd h (by simp)
  · exact absurd h (by simp)
  · have hc : c = c' := by simpa using h
    subst hc
    rw [parseSign_cons, parseSign_cons]

theorem parseSign_le (l : List Char) : (parseSign l).2 ≤ l.length := by
  rcases l with _ | ⟨c, r⟩
  · exact Nat.le_refl 0
  · rw [parseSign_cons]
    by_cases h1 : c = '-'
    · rw [if_pos h1]; simp
    · rw [if_neg h1]
      by_cases h2 : c = '+'
      · rw [if_pos h2]; simp
      · rw [if_neg h2]; simp

theorem all_digit_not_ws {ds : List Char} (h : ∀ c ∈ ds, isDigit10 c = true) :
    ∀ c ∈ ds, cIsSpace c = false := by
  intro c hc
  rcases hw : cIsSpace c
  · rfl
  · exact absurd (ws_not_digit hw ▸ h c hc) (by simp)

theorem specInt32_shape {s t : List Char} {neg : Bool} {k : Nat}
    (ht : parse_params_trim s = t) (hsg : parseSign t = (neg, k)) :
    specInt32 s =
      (if t.drop k ≠ [] ∧ (t.drop k).all isDigit10 then
        (let n : Int :=
          if neg then -(digitsVal (t.drop k) : Int) else (digitsVal (t.drop k) : Int)
         if INT_MIN ≤ n ∧ n ≤ INT_MAX then some n else none)
      else none) := by
  unfold specInt32
  rw [ht]
  dsimp only
  rw [hsg]

theorem param_int_core_shape (str : List Char) (dflt : Int) :
    param_int_core (some str) dflt =
      (if (strtol str).errno = true ∨ (strtol str).consumed = 0 ∨
          (str.drop (strtol str).consumed).dropWhile cIsSpace ≠ [] ∨
          (strtol str).value < INT_MIN ∨ INT_MAX < (strtol str).value
       then (dflt, true) else ((strtol str).value, false)) := rfl

theorem strtol_shape {s s2 : List Char} {neg : Bool} {k : Nat}
    (hsg : parseSign (s.dropWhile cIsSpace) = (neg, k))
    (hdrop : (s.dropWhile cIsSpace).drop k = s2) :
    strtol s =
      (if s2.takeWhile isDigit10 = [] then ⟨0, 0, false⟩
       else
         (let ds := s2.takeWhile isDigit10
          let n : Int := if neg then -(digitsVal ds : Int) else (digitsVal ds : Int)
          ⟨if n < LONG_MIN then LONG_MIN else if LONG_MAX < n then LONG_MAX else n,
            (s.takeWhile cIsSpace).length + k + ds.length,
            decide (n < LONG_MIN) || decide (LONG_MAX < n)⟩)) := by
  rw [strtol_eq]
  dsimp only
  rw [hsg]
  dsimp only
  rw [hdrop]

theorem int_long_bounds : LONG_MIN ≤ INT_MIN ∧ (INT_MAX : Int) ≤ LONG_MAX := by
  norm_num [LONG_MIN, INT_MIN, INT_MAX, LONG_MAX]

theorem param_int_core_of_spec_some {str : List Char} {n : Int} (dflt : Int)
    (hspec : specInt32 str = some n) :
    param_int_core (some str) dflt = (n, false) := by
  obtain ⟨W, hW, hWws⟩ := trimRightWs_prefix (str.dropWhile cIsSpace)
  have ht : parse_params_trim str = trimRightWs (str.dropWhile cIsSpace) := rfl
  rcases hsg : parseSign (trimRightWs (str.dropWhile cIsSpace)) with ⟨neg, k⟩
  rw [specInt32_shape ht hsg] at hspec
  dsimp only at hspec
  by_cases hcond : (trimRightWs (str.dropWhile cIsSpace)).drop k ≠ [] ∧
      ((trimRightWs (str.dropWhile cIsSpace)).drop k).all isDigit10
  · rw [if_pos hcond] at hspec
    obtain ⟨hne, hall⟩ := hcond
    by_cases hrange :
        INT_MIN ≤ (if neg then
            -(digitsVal ((trimRightWs (str.dropWhile cIsSpace)).drop k) : Int)
          else (digitsVal ((trimRightWs (str.dropWhile cIsSpace)).drop k) : Int)) ∧
        (if neg then
            -(digitsVal ((trimRightWs (str.dropWhile cIsSpace)).drop k) : Int)
          else (digitsVal ((trimRightWs (str.dropWhile cIsSpace)).drop k) : Int)) ≤ INT_MAX
    · rw [if_pos hrange] at hspec
      have hn := Option.some.inj hspec
      have htlen : k ≤ (trimRightWs (str.dropWhile cIsSpace)).length := by
        have h0 := parseSign_le (trimRightWs (str.dropWhile cIsSpace))
        rw [hsg] at h0
        exact h0
      have htk : ((trimRightWs (str.dropWhile cIsSpace)).take k).length = k := by
        rw [List.length_take]
        omega
      have hs1 : str.dropWhile cIsSpace =
          (trimRightWs (str.dropWhile cIsSpace)).take k ++
            ((trimRightWs (str.dropWhile cIsSpace)).drop k ++ W) := by
        rw [← List.append_assoc, List.take_append_drop]
        exact hW
      have htne : trimRightWs (str.dropWhile cIsSpace) ≠ [] := by
        intro h0
        apply hne
        rw [h0]
        simp
      have hhead : (str.dropWhile cIsSpace).head? =
          (trimRightWs (str.dropWhile cIsSpace)).head? := by
        conv_lhs => rw [hW]
        rw [head_append_ne htne]
      have hsg1 : parseSign (str.dropWhile cIsSpace) = (neg, k) := by
        rw [parseSign_head_congr hhead, hsg]
      have hdrop1 : (str.dropWhile cIsSpace).drop k =
          (trimRightWs (str.dropWhile cIsSpace)).drop k ++ W := by
        conv_lhs => rw [hs1]
        have h0 := List.drop_left ((trimRightWs (str.dropWhile cIsSpace)).take k)
          ((trimRightWs (str.dropWhile cIsSpace)).drop k ++ W)
        rw [htk] at h0
        exact h0
      have hallmem : ∀ c ∈ (trimRightWs (str.dropWhile cIsSpace)).drop k,
          isDigit10 c = true := List.all_eq_true.1 hall
      have hDS : ((trimRightWs (str.dropWhile cIsSpace)).drop k ++ W).takeWhile isDigit10 =
          (trimRightWs (str.dropWhile cIsSpace)).drop k :=
        takeWhile_digits_append hallmem hWws
      rw [param_int_core_shape, strtol_shape hsg1 hdrop1]
      dsimp only
      rw [hDS]
      rw [if_neg hne]
      dsimp only
      have h1 : ¬ ((if neg then
            -(digitsVal ((trimRightWs (str.dropWhile cIsSpace)).drop k) : Int)
          else (digitsVal ((trimRightWs (str.dropWhile cIsSpace)).drop k) : Int)) < LONG_MIN) := by
        have := int_long_bounds
        omega
      have h2 : ¬ (LONG_MAX < (if neg then
            -(digitsVal ((trimRightWs (str.dropWhile cIsSpace)).drop k) : Int)
          else (digitsVal ((trimRightWs (str.dropWhile cIsSpace)).drop k) : Int))) := by
        have := int_long_bounds
        omega
      rw [if_neg h1, if_neg h2]
      have hstr2 : str = str.takeWhile cIsSpace ++
          ((trimRightWs (str.dropWhile cIsSpace)).take k ++
            ((trimRightWs (str.dropWhile cIsSpace)).drop k ++ W)) := by
        conv_lhs => rw [← List.takeWhile_append_dropWhile cIsSpace str, hs1]
      have hdropstr : ∀ m, m = (str.takeWhile cIsSpace).length +
          (k + ((trimRightWs (str.dropWhile cIsSpace)).drop k).length) →
          str.drop m = W := by
        intro m hm
        conv_lhs => rw [hstr2]
        rw [hm, List.drop_append, ← List.append_assoc]
        rw [show k + ((trimRightWs (str.dropWhile cIsSpace)).drop k).length =
            ((trimRightWs (str.dropWhile cIsSpace)).take k ++
              (trimRightWs (str.dropWhile cIsSpace)).drop k).length from by
          rw [List.length_append, htk]]
        exact List.drop_left _ _
      rw [show (str.takeWhile cIsSpace).length + k +
          ((trimRightWs (str.dropWhile cIsSpace)).drop k).length =
          (str.takeWhile cIsSpace).length +
          (k + ((trimRightWs (str.dropWhile cIsSpace)).drop k).length) from by omega]
      rw [hdropstr _ rfl]
      rw [if_neg ?_]
      · rw [hn]
      · intro hbad
        rcases hbad with hb | hb | hb | hb | hb
        · rw [show (decide ((if neg then
              -(digitsVal ((trimRightWs (str.dropWhile cIsSpace)).drop k) : Int)
            else (digitsVal ((trimRightWs (str.dropWhile cIsSpace)).drop k) : Int)) < LONG_MIN) ||
            decide (LONG_MAX < (if neg then
              -(digitsVal ((trimRightWs (str.dropWhile cIsSpace)).drop k) : Int)
            else (digitsVal ((trimRightWs (str.dropWhile cIsSpace)).drop k) : Int)))) = false from by
            simp only [Bool.or_eq_false_iff, decide_eq_false_iff_not]
            exact ⟨h1, h2⟩] at hb
          exact absurd hb (by simp)
        · have hpos : ((trimRightWs (str.dropWhile cIsSpace)).drop k).length ≠ 0 := by
            intro h0
            exact hne (List.eq_nil_of_length_eq_zero h0)
          omega
        · exact hb (dropWhile_all hWws)
        · omega
        · omega
    · rw [if_neg hrange] at hspec
      exact absurd hspec (by simp)
  · rw [if_neg hcond] at hspec
    exact absurd hspec (by simp)

theorem spec_some_of_strtol_ok {str : List Char}
    (hcond : ¬ ((strtol str).errno = true ∨ (strtol str).consumed = 0 ∨
      (str.drop (strtol str).consumed).dropWhile cIsSpace ≠ [] ∨
      (strtol str).value < INT_MIN ∨ INT_MAX < (strtol str).value)) :
    specInt32 str = some ((strtol str).value) := by
  rcases hsg1 : parseSign (str.dropWhile cIsSpace) with ⟨neg, k⟩
  have hst := strtol_shape hsg1 rfl
  by_cases hDS : ((str.dropWhile cIsSpace).drop k).takeWhile isDigit10 = []
  · rw [hst, if_pos hDS] at hcond
    exact absurd (Or.inr (Or.inl rfl)) hcond
  · rw [hst, if_neg hDS] at hcond
    dsimp only at hcond
    rw [hst, if_neg hDS]
    dsimp only
    push_neg at hcond
    obtain ⟨herr, -, hrest, hge, hle⟩ := hcond
    have herr2 : ¬ ((if neg then
          -(digitsVal (((str.dropWhile cIsSpace).drop k).takeWhile isDigit10) : Int)
        else (digitsVal (((str.dropWhile cIsSpace).drop k).takeWhile isDigit10) : Int)) <
          LONG_MIN) ∧
        ¬ (LONG_MAX < (if neg then
          -(digitsVal (((str.dropWhile cIsSpace).drop k).takeWhile isDigit10) : Int)
        else (digitsVal (((str.dropWhile cIsSpace).drop k).takeWhile isDigit10) : Int))) := by
      have herrf := Bool.eq_false_iff.2 herr
      rw [Bool.or_eq_false_iff, decide_eq_false_iff_not,
        decide_eq_false_iff_not] at herrf
      exact herrf
    rw [if_neg herr2.1, if_neg herr2.2] at hge hle ⊢
    have hkle : k ≤ (str.dropWhile cIsSpace).length := by
      have h0 := parseSign_le (str.dropWhile cIsSpace)
      rw [hsg1] at h0
      exact h0
    have htake : ((str.dropWhile cIsSpace).take k).length = k := by
      rw [List.length_take]
      omega
    have hallm : ∀ c ∈ ((str.dropWhile cIsSpace).drop k).takeWhile isDigit10,
        isDigit10 c = true := fun _ hc => List.mem_takeWhile_imp hc
    have hDSnws : ∀ c ∈ ((str.dropWhile cIsSpace).drop k).takeWhile isDigit10,
        cIsSpace c = false := all_digit_not_ws hallm
    have hs2split : (str.dropWhile cIsSpace).drop k =
        ((str.dropWhile cIsSpace).drop k).takeWhile isDigit10 ++
          ((str.dropWhile cIsSpace).drop k).dropWhile isDigit10 :=
      (List.takeWhile_append_dropWhile isDigit10 _).symm
    have hs1 : str.dropWhile cIsSpace =
        (str.dropWhile cIsSpace).take k ++
          (((str.dropWhile cIsSpace).drop k).takeWhile isDigit10 ++
            ((str.dropWhile cIsSpace).drop k).dropWhile isDigit10) := by
      conv_lhs => rw [← List.take_append_drop k (str.dropWhile cIsSpace)]
      rw [← hs2split]
    have hstr2 : str = str.takeWhile cIsSpace ++
        ((str.dropWhile cIsSpace).take k ++
          (((str.dropWhile cIsSpace).drop k).takeWhile isDigit10 ++
            ((str.dropWhile cIsSpace).drop k).dropWhile isDigit10)) := by
      conv_lhs => rw [← List.takeWhile_append_dropWhile cIsSpace str, hs1]
    have hdropstr : ∀ m, m = (str.takeWhile cIsSpace).length +
        (k + (((str.dropWhile cIsSpace).drop k).takeWhile isDigit10).length) →
        str.drop m = ((str.dropWhile cIsSpace).drop k).dropWhile isDigit10 := by
      intro m hm
      conv_lhs => rw [hstr2]
      rw [hm, List.drop_append, ← List.append_assoc]
      rw [show k + (((str.dropWhile cIsSpace).drop k).takeWhile isDigit10).length =
          ((str.dropWhile cIsSpace).take k ++
            ((str.dropWhile cIsSpace).drop k).takeWhile isDigit10).length from by
        rw [List.length_append, htake]]
      exact List.drop_left _ _
    rw [show (str.takeWhile cIsSpace).length + k +
        (((str.dropWhile cIsSpace).drop k).takeWhile isDigit10).length =
        (str.takeWhile cIsSpace).length +
        (k + (((str.dropWhile cIsSpace).drop k).takeWhile isDigit10).length) from by omega]
      at hrest
    rw [hdropstr _ rfl] at hrest
    have hTws : ∀ c ∈ ((str.dropWhile cIsSpace).drop k).dropWhile isDigit10,
        cIsSpace c = true := List.dropWhile_eq_nil_iff.1 hrest
    have ht : parse_params_trim str =
        (str.dropWhile cIsSpace).take k ++
          ((str.dropWhile cIsSpace).drop k).takeWhile isDigit10 := by
      show trimRightWs (str.dropWhile cIsSpace) = _
      conv_lhs => rw [hs1]
      rw [← List.append_assoc, trimRightWs_append_allws hTws,
        trimRightWs_append_stop (by rw [trimRightWs_all_nonws hDSnws]; exact hDS),
        trimRightWs_all_nonws hDSnws]
    have hheads : ((str.dropWhile cIsSpace).take k ++
        ((str.dropWhile cIsSpace).drop k).takeWhile isDigit10).head? =
        (str.dropWhile cIsSpace).head? := by
      rcases htk0 : (str.dropWhile cIsSpace).take k with _ | ⟨a, b⟩
      · rw [List.nil_append]
        conv_rhs => rw [hs1, htk0]
        rw [List.nil_append, head_append_ne hDS]
      · rw [List.cons_append]
        conv_rhs => rw [hs1, htk0]
        rw [List.cons_append]
        rfl
    have hsgt : parseSign ((str.dropWhile cIsSpace).take k ++
        ((str.dropWhile cIsSpace).drop k).takeWhile isDigit10) = (neg, k) := by
      rw [parseSign_head_congr hheads, hsg1]
    have hdropt : ((str.dropWhile cIsSpace).take k ++
        ((str.dropWhile cIsSpace).drop k).takeWhile isDigit10).drop k =
        ((str.dropWhile cIsSpace).drop k).takeWhile isDigit10 := by
      have h0 := List.drop_left ((str.dropWhile cIsSpace).take k)
        (((str.dropWhile cIsSpace).drop k).takeWhile isDigit10)
      rw [htake] at h0
      exact h0
    rw [specInt32_shape ht hsgt]
    dsimp only
    rw [hdropt, if_pos ⟨hDS, List.all_eq_true.2 hallm⟩, if_pos ⟨hge, hle⟩]

/-- Claim C7.  For every key and default, `param_int` returns the parsed
value exactly when the stored string, after trimming ASCII whitespace on
both sides, is entirely a base-10 signed integer literal that fits the
32-bit signed range (`specInt32`); on a missing key it returns the
default silently, and on a present but malformed, partially consumed,
trailing-garbage or out-of-range value it returns the default with the
warning flag set — it is a total function and never aborts. -/
theorem claim_C7 (fs : FS) (key : List Char) (dflt : Int) (st : PState) :
    (param_int fs key dflt st).1 =
      match (parse_param_string_opt fs key st).1 with
      | none => (dflt, false)
      | some str =>
        match specInt32 str with
        | some n => (n, false)
        | none => (dflt, true) := by
  show param_int_core (parse_param_string_opt fs key st).1 dflt = _
  rcases ho : (parse_param_string_opt fs key st).1 with _ | str
  · rfl
  · dsimp only
    rcases hspec : specInt32 str with _ | n
    · dsimp only
      rw [param_int_core_shape]
      by_cases hcond : ((strtol str).errno = true ∨ (strtol str).consumed = 0 ∨
          (str.drop (strtol str).consumed).dropWhile cIsSpace ≠ [] ∨
          (strtol str).value < INT_MIN ∨ INT_MAX < (strtol str).value)
      · rw [if_pos hcond]
      · exact absurd (spec_some_of_strtol_ok hcond) (by rw [hspec]; simp)
    · dsimp only
      exact param_int_core_of_spec_some dflt hspec

/-! ## Toolkit for the floating-point accessor (claim C4) -/

theorem ws_char_cases {c : Char} (h : cIsSpace c = true) :
    c = ' ' ∨ c = '\t' ∨ c = '\n' ∨ c = '\x0b' ∨ c = '\x0c' ∨ c = '\r' := by
  simp only [cIsSpace, Bool.or_eq_true, decide_eq_true_eq] at h
  tauto

theorem ws_facts {c : Char} (h : cIsSpace c = true) :
    c.toLower ≠ 'i' ∧ c.toLower ≠ 'n' ∧ c.toLower ≠ 'e' ∧ c.toLower ≠ 'p' ∧
    c ≠ '.' ∧ c ≠ '(' ∧ isHexDigit16 c = false ∧ isDigit10 c = false ∧
    c ≠ '-' ∧ c ≠ '+' ∧ c ≠ '0' ∧ c ≠ 'x' ∧ c ≠ 'X' := by
  rcases ws_char_cases h with rfl | rfl | rfl | rfl | rfl | rfl <;> exact (by decide)

theorem takeWhile_append_of_disj {p : Char → Bool} {W : List Char}
    (hW : ∀ c ∈ W, p c = false) : ∀ u : List Char,
    (u ++ W).takeWhile p = u.takeWhile p := by
  intro u
  induction u with
  | nil =>
    rcases W with _ | ⟨c, r⟩
    · rfl
    · rw [List.nil_append, List.takeWhile_cons,
        if_neg (by rw [hW c (List.mem_cons_self ..)]; simp)]
      rfl
  | cons c u ih =>
    rw [List.cons_append, List.takeWhile_cons, List.takeWhile_cons]
    by_cases hc : p c = true
    · rw [if_pos hc, if_pos hc, ih]
    · rw [if_neg hc, if_neg hc]

theorem dropWhile_append_of_disj {p : Char → Bool} {W : List Char}
    (hW : ∀ c ∈ W, p c = false) : ∀ u : List Char,
    (u ++ W).dropWhile p = u.dropWhile p ++ W := by
  intro u
  induction u with
  | nil =>
    rcases W with _ | ⟨c, r⟩
    · rfl
    · rw [List.nil_append, List.dropWhile_cons,
        if_neg (by rw [hW c (List.mem_cons_self ..)]; simp)]
      rfl
  | cons c u ih =>
    rw [List.cons_append, List.dropWhile_cons, List.dropWhile_cons]
    by_cases hc : p c = true
    · rw [if_pos hc, if_pos hc, ih]
    · rw [if_neg hc, if_neg hc, List.cons_append]

theorem ciMatch_head {p : Char} {ps l : List Char} (h : ciMatch (p :: ps) l = true) :
    ∃ c cs, l = c :: cs ∧ c.toLower = p := by
  unfold ciMatch at h
  rw [decide_eq_true_eq] at h
  rcases l with _ | ⟨c, cs⟩
  · exact absurd h (by simp)
  · refine ⟨c, cs, rfl, ?_⟩
    rw [List.length_cons, List.take_succ_cons, List.map_cons] at h
    exact (List.cons.injEq .. ▸ h).1

theorem digit_isHex {c : Char} (h : isDigit10 c = true) : isHexDigit16 c = true := by
  unfold isDigit10 at h
  unfold isHexDigit16
  rw [h]
  rfl

/-- The `0x`/`0X` shape test on the subject sequence of the spec-side
reading. -/
def hexShapeTest : List Char → Bool
  | '0' :: x :: _ => decide (x = 'x' ∨ x = 'X')
  | _ => false

/-- The branch on the subject sequence (after sign) of the spec-side
total-match reading of a floating-point literal; `specDoubleLit` is this
applied to the trimmed string after its sign. -/
def specDoubleCore (m : List Char) : Option (DVal × Bool) :=
  if m.map Char.toLower = "inf".toList ∨ m.map Char.toLower = "infinity".toList then
    some (DVal.inf false, false)
  else if (m.take 3).map Char.toLower = "nan".toList ∧ specNanTot (m.drop 3) then
    some (DVal.nan, false)
  else if hexShapeTest m then
    (specHexTot (m.drop 2)).map (fun p => (DVal.fin p.1, p.2))
  else
    (specDecTot m).map (fun p => (DVal.fin p.1, p.2))

theorem specDoubleLit_shape {s t : List Char} {neg : Bool} {k : Nat}
    (ht : parse_params_trim s = t) (hsg : parseSign t = (neg, k)) :
    specDoubleLit s =
      (specDoubleCore (t.drop k)).map (fun p => (applySign neg p.1, p.2)) := by
  unfold specDoubleLit
  rw [ht]
  dsimp only
  rw [hsg]
  dsimp only
  rfl

theorem strtod_shape {s s2 : List Char} {neg : Bool} {k : Nat}
    (hsg : parseSign (s.dropWhile cIsSpace) = (neg, k))
    (hdrop : (s.dropWhile cIsSpace).drop k = s2) :
    strtod s =
      match strtodAfterSign s2 with
      | none => ⟨DVal.fin 0, 0, false⟩
      | some (n, v, e) =>
        ⟨applySign neg v, (s.takeWhile cIsSpace).length + k + n, e⟩ := by
  unfold strtod
  simp only [drop_length_takeWhile]
  rw [hsg]
  dsimp only
  rw [hdrop]

theorem param_double_core_shape (str : List Char) :
    param_double_core (some str) =
      (if (strtod str).errno = true ∨ (strtod str).consumed = 0 ∨
          (str.drop (strtod str).consumed).dropWhile cIsSpace ≠ []
       then DRes.defaulted else DRes.value (strtod str).value) := rfl

theorem take_length_takeWhile (p : Char → Bool) (u : List Char) :
    u.take (u.takeWhile p).length = u.takeWhile p := by
  induction u with
  | nil => rfl
  | cons c r ih =>
    rw [List.takeWhile_cons]
    by_cases hc : p c = true
    · rw [if_pos hc, List.length_cons, List.take_succ_cons, ih]
    · rw [if_neg hc, List.length_nil, List.take_zero]

theorem head_takeWhile_ne {p : Char → Bool} {u : List Char}
    (h : u.takeWhile p ≠ []) : (u.takeWhile p).head? = u.head? := by
  rcases u with _ | ⟨c, r⟩
  · rfl
  · rw [List.takeWhile_cons] at h ⊢
    by_cases hc : p c = true
    · rw [if_pos hc]
      rfl
    · rw [if_neg hc] at h
      exact absurd rfl h

theorem parseSign_resplice {l D : List Char} {b : Bool} {k : Nat}
    (h : parseSign l = (b, k)) (hD : D.head? = (l.drop k).head?) (hDne : D ≠ []) :
    parseSign (l.take k ++ D) = (b, k) := by
  rcases htk : l.take k with _ | ⟨a, tk⟩
  · rw [List.nil_append]
    rcases l with _ | ⟨c, r⟩
    · rw [List.drop_nil] at hD
      rcases D with _ | _
      · exact absurd rfl hDne
      · exact absurd hD (by simp)
    · have hk0 : k = 0 := by
        rcases k with _ | k'
        · rfl
        · rw [List.take_succ_cons] at htk; cases htk
      subst hk0
      rw [List.drop_zero] at hD
      rw [parseSign_head_congr hD]
      exact h
  · have hl : l.head? = some a := by
      conv_lhs => rw [← List.take_append_drop k l, htk]
      rfl
    rw [List.cons_append]
    rcases l with _ | ⟨c, r⟩
    · simp at htk
    · have hca : c = a := by simpa using hl
      subst hca
      rw [parseSign_cons] at h ⊢
      exact h

theorem parseSign_take_nonws {l : List Char} {b : Bool} {k : Nat}
    (h : parseSign l = (b, k)) : ∀ c ∈ l.take k, cIsSpace c = false := by
  rcases l with _ | ⟨c, r⟩
  · intro d hd; rw [List.take_nil] at hd; cases hd
  · rw [parseSign_cons] at h
    by_cases h1 : c = '-'
    · rw [if_pos h1] at h
      injection h with hb hk
      subst hk
      subst h1
      intro d hd
      rw [List.take_succ_cons, List.take_zero] at hd
      rcases List.mem_cons.1 hd with rfl | hd'
      · decide
      · cases hd'
    · rw [if_neg h1] at h
      by_cases h2 : c = '+'
      · rw [if_pos h2] at h
        injection h with hb hk
        subst hk
        subst h2
        intro d hd
        rw [List.take_succ_cons, List.take_zero] at hd
        rcases List.mem_cons.1 hd with rfl | hd'
        · decide
        · cases hd'
      · rw [if_neg h2] at h
        injection h with hb hk
        subst hk
        intro d hd
        rw [List.take_zero] at hd
        cases hd

theorem expPart_nil (mk : Char) : expPart mk [] = (0, 0) := rfl

theorem expPart_cons (mk c : Char) (rest : List Char) :
    expPart mk (c :: rest) =
      (if c.toLower = mk then
        (let sg := parseSign rest
         let ds := (rest.drop sg.2).takeWhile isDigit10
         if ds = [] then (0, 0)
         else (1 + sg.2 + ds.length,
               if sg.1 then -(digitsVal ds : Int) else (digitsVal ds : Int)))
      else (0, 0)) := rfl

theorem specExpTot_nil (mk : Char) : specExpTot mk [] = some 0 := rfl

theorem specExpTot_cons (mk c : Char) (rest : List Char) :
    specExpTot mk (c :: rest) =
      (if c.toLower = mk then
        (let sg := parseSign rest
         let ds := rest.drop sg.2
         if ds ≠ [] ∧ ds.all isDigit10 then
           some (if sg.1 then -(digitsVal ds : Int) else (digitsVal ds : Int))
         else none)
      else none) := rfl

theorem expPart_fwd {mk : Char} {rest W : List Char} {ex : Int}
    (hmk : mk = 'e' ∨ mk = 'p')
    (hspec : specExpTot mk rest = some ex)
    (hW : ∀ c ∈ W, cIsSpace c = true) :
    expPart mk (rest ++ W) = (rest.length, ex) := by
  rcases rest with _ | ⟨c, rr⟩
  · have hex : ex = 0 := by
      rw [specExpTot_nil] at hspec
      exact (Option.some.inj hspec).symm
    subst hex
    rw [List.nil_append]
    rcases W with _ | ⟨w0, ws0⟩
    · rfl
    · rw [expPart_cons, if_neg ?_]
      · rfl
      · have hf := ws_facts (hW w0 (List.mem_cons_self ..))
        rcases hmk with rfl | rfl
        · exact hf.2.2.1
        · exact hf.2.2.2.1
  · rw [specExpTot_cons] at hspec
    by_cases hcm : c.toLower = mk
    · rw [if_pos hcm] at hspec
      dsimp only at hspec
      rcases hsg : parseSign rr with ⟨b, k⟩
      rw [hsg] at hspec
      dsimp only at hspec
      by_cases hds : rr.drop k ≠ [] ∧ (rr.drop k).all isDigit10
      · rw [if_pos hds] at hspec
        obtain ⟨hne, hall⟩ := hds
        have hex := Option.some.inj hspec
        have hkle : k ≤ rr.length := by
          have h0 := parseSign_le rr
          rw [hsg] at h0
          exact h0
        rw [List.cons_append, expPart_cons, if_pos hcm]
        dsimp only
        rw [parseSign_append (by intro h0; rw [h0] at hne; simp at hne) W, hsg]
        dsimp only
        rw [List.drop_append_of_le_length hkle,
          takeWhile_append_of_disj (fun c hc => (ws_facts (hW c hc)).2.2.2.2.2.2.2.1) _,
          takeWhile_all (List.all_eq_true.1 hall)]
        rw [if_neg hne]
        rw [List.length_cons, List.length_drop] at *
        rw [hex]
        have : 1 + k + (rr.length - k) = rr.length + 1 := by omega
        rw [this]
      · rw [if_neg hds] at hspec
        cases hspec
    · rw [if_neg hcm] at hspec
      cases hspec

theorem expPart_bwd {mk : Char} {l : List Char} {cnt : Nat} {ex : Int}
    (hmk : mk = 'e' ∨ mk = 'p')
    (h : expPart mk l = (cnt, ex)) :
    cnt ≤ l.length ∧ (∀ c ∈ l.take cnt, cIsSpace c = false) ∧
    specExpTot mk (l.take cnt) = some ex := by
  rcases l with _ | ⟨c, rr⟩
  · rw [expPart_nil] at h
    injection h with hc hx
    subst hc
    subst hx
    refine ⟨by simp, ?_, rfl⟩
    intro d hd
    simp at hd
  · rw [expPart_cons] at h
    by_cases hcm : c.toLower = mk
    · rw [if_pos hcm] at h
      dsimp only at h
      rcases hsg : parseSign rr with ⟨b, k⟩
      rw [hsg] at h
      dsimp only at h
      by_cases hds : ((rr.drop k).takeWhile isDigit10) = []
      · rw [if_pos hds] at h
        injection h with hc hx
        subst hc
        subst hx
        refine ⟨by simp, ?_, rfl⟩
        intro d hd
        simp at hd
      · rw [if_neg hds] at h
        injection h with hc hx
        subst hx
        have hkle : k ≤ rr.length := by
          have h0 := parseSign_le rr
          rw [hsg] at h0
          exact h0
        have hdig : ∀ d ∈ (rr.drop k).takeWhile isDigit10, isDigit10 d = true :=
          fun _ hd => List.mem_takeWhile_imp hd
        have htake : (c :: rr).take cnt =
            c :: (rr.take k ++ (rr.drop k).takeWhile isDigit10) := by
          rw [← hc,
            show 1 + k + ((rr.drop k).takeWhile isDigit10).length =
              (k + ((rr.drop k).takeWhile isDigit10).length) + 1 from by omega,
            List.take_succ_cons, List.take_add, take_length_takeWhile]
        have hsgspl : parseSign (rr.take k ++ (rr.drop k).takeWhile isDigit10) = (b, k) :=
          parseSign_resplice hsg (head_takeWhile_ne hds) hds
        have hdropspl : (rr.take k ++ (rr.drop k).takeWhile isDigit10).drop k =
            (rr.drop k).takeWhile isDigit10 := by
          have h0 := List.drop_left (rr.take k) ((rr.drop k).takeWhile isDigit10)
          rw [List.length_take_of_le hkle] at h0
          exact h0
        refine ⟨?_, ?_, ?_⟩
        · rw [← hc, List.length_cons]
          have h1 : ((rr.drop k).takeWhile isDigit10).length ≤ (rr.drop k).length :=
            (List.takeWhile_sublist _).length_le
          rw [List.length_drop] at h1
          omega
        · rw [htake]
          intro d hd
          rcases List.mem_cons.1 hd with rfl | hd'
          · rcases hw : cIsSpace d
            · rfl
            · have hf := ws_facts hw
              exfalso
              rcases hmk with rfl | rfl
              · exact hf.2.2.1 hcm
              · exact hf.2.2.2.1 hcm
          · rcases List.mem_append.1 hd' with hd2 | hd2
            · exact parseSign_take_nonws hsg d hd2
            · exact all_digit_not_ws hdig d hd2
        · rw [htake]
          rw [specExpTot_cons, if_pos hcm]
          dsimp only
          rw [hsgspl]
          dsimp only
          rw [hdropspl]
          rw [if_pos ⟨hds, List.all_eq_true.2 hdig⟩]
    · rw [if_neg hcm] at h
      injection h with hc hx
      subst hc
      subst hx
      refine ⟨by simp, ?_, rfl⟩
      intro d hd
      simp at hd

theorem decTail_fwd {m W : List Char} {q : ℚ} {e : Bool}
    (hW : ∀ c ∈ W, cIsSpace c = true)
    (hspec : specDecTot m = some (q, e)) :
    decTail (m ++ W) = some (m.length, q, e) := by
  have hWd : ∀ c ∈ W, isDigit10 c = false :=
    fun c hc => (ws_facts (hW c hc)).2.2.2.2.2.2.2.1
  have hiple : (m.takeWhile isDigit10).length ≤ m.length :=
    (List.takeWhile_sublist _).length_le
  have hip : (m ++ W).takeWhile isDigit10 = m.takeWhile isDigit10 :=
    takeWhile_append_of_disj hWd m
  have ha1 : (m ++ W).drop (m.takeWhile isDigit10).length =
      m.drop (m.takeWhile isDigit10).length ++ W :=
    List.drop_append_of_le_length hiple
  unfold specDecTot at hspec
  dsimp only at hspec
  unfold decTail
  dsimp only
  rw [hip, ha1]
  by_cases hdot : (m.drop (m.takeWhile isDigit10).length).head? = some '.'
  · simp only [if_pos hdot] at hspec
    obtain ⟨a1t, ha1t⟩ : ∃ a1t, m.drop (m.takeWhile isDigit10).length = '.' :: a1t := by
      rcases h0 : m.drop (m.takeWhile isDigit10).length with _ | ⟨d, tl⟩
      · rw [h0] at hdot; exact absurd hdot (by simp)
      · rw [h0] at hdot
        exact ⟨tl, by rw [show d = '.' from by simpa using hdot]⟩
    rw [ha1t] at hspec ⊢
    rw [List.cons_append]
    simp only [if_pos (show ('.' :: (a1t ++ W)).head? = some '.' from rfl)]
    rw [List.tail_cons]
    rw [List.tail_cons] at hspec
    rw [takeWhile_append_of_disj hWd a1t]
    by_cases hnil : m.takeWhile isDigit10 = [] ∧ a1t.takeWhile isDigit10 = []
    · rw [if_pos hnil] at hspec
      cases hspec
    · rw [if_neg hnil] at hspec
      rw [if_neg hnil]
      have hlen1 : m.length = (m.takeWhile isDigit10).length + (1 + a1t.length) := by
        have h0 := congrArg List.length ha1t
        rw [List.length_drop, List.length_cons] at h0
        omega
      have hfple : (a1t.takeWhile isDigit10).length ≤ a1t.length :=
        (List.takeWhile_sublist _).length_le
      have hmantle : (m.takeWhile isDigit10).length + 1 +
          (a1t.takeWhile isDigit10).length ≤ m.length := by omega
      have hdropm : m.drop ((m.takeWhile isDigit10).length + 1 +
          (a1t.takeWhile isDigit10).length) =
          a1t.drop (a1t.takeWhile isDigit10).length := by
        rw [show (m.takeWhile isDigit10).length + 1 + (a1t.takeWhile isDigit10).length =
            (m.takeWhile isDigit10).length + (1 + (a1t.takeWhile isDigit10).length) from by
          omega]
        rw [← List.drop_drop, ha1t,
          show (1 : Nat) + (a1t.takeWhile isDigit10).length =
            (a1t.takeWhile isDigit10).length + 1 from by omega,
          List.drop_succ_cons]
      rcases hexp0 : specExpTot 'e' (a1t.drop (a1t.takeWhile isDigit10).length) with _ | ex
      · rw [hexp0] at hspec
        exact absurd hspec (by simp)
      · rw [hexp0] at hspec
        dsimp only at hspec
        have hq := congrArg Prod.fst (Option.some.inj hspec)
        have he := congrArg Prod.snd (Option.some.inj hspec)
        dsimp only at hq he
        rw [show (m ++ W).drop ((m.takeWhile isDigit10).length + 1 +
            (a1t.takeWhile isDigit10).length) =
            a1t.drop (a1t.takeWhile isDigit10).length ++ W from by
          rw [List.drop_append_of_le_length hmantle, hdropm]]
        rw [expPart_fwd (Or.inl rfl) hexp0 hW]
        rw [show (m.takeWhile isDigit10).length + 1 + (a1t.takeWhile isDigit10).length +
            (a1t.drop (a1t.takeWhile isDigit10).length).length = m.length from by
          rw [List.length_drop]; omega]
        rw [hq] at he
        rw [hq, he]
  · simp only [if_neg hdot] at hspec
    by_cases hipnil : m.takeWhile isDigit10 = []
    · rw [if_pos ⟨hipnil, trivial⟩] at hspec
      cases hspec
    · rw [if_neg (by intro h0; exact hipnil h0.1)] at hspec
      have hdotapp : ¬ ((m.drop (m.takeWhile isDigit10).length ++ W).head? = some '.') := by
        rcases h0 : m.drop (m.takeWhile isDigit10).length with _ | ⟨d, tl⟩
        · rw [List.nil_append]
          rcases W with _ | ⟨w0, ws0⟩
          · simp
          · intro hc
            exact (ws_facts (hW w0 (List.mem_cons_self ..))).2.2.2.2.1
              (by simpa using hc)
        · rw [List.cons_append]
          intro hc
          rw [h0] at hdot
          exact hdot (by simpa using hc)
      simp only [if_neg hdotapp]
      rw [if_neg (by intro h0; exact hipnil h0.1)]
      rcases hexp0 : specExpTot 'e' (m.drop (m.takeWhile isDigit10).length) with _ | ex
      · rw [hexp0] at hspec
        exact absurd hspec (by simp)
      · rw [hexp0] at hspec
        dsimp only at hspec
        have hq := congrArg Prod.fst (Option.some.inj hspec)
        have he := congrArg Prod.snd (Option.some.inj hspec)
        dsimp only at hq he
        rw [show (m.takeWhile isDigit10).length + 0 + ([] : List Char).length =
            (m.takeWhile isDigit10).length from by simp]
        rw [ha1, expPart_fwd (Or.inl rfl) hexp0 hW]
        rw [show (m.takeWhile isDigit10).length +
            (m.drop (m.takeWhile isDigit10).length).length = m.length from by
          rw [List.length_drop]; omega]
        rw [hq] at he
        rw [hq, he]

theorem decTail_bwd {s2 : List Char} {n : Nat} {q : ℚ} {e : Bool}
    (h : decTail s2 = some (n, q, e)) :
    n ≤ s2.length ∧ s2.take n ≠ [] ∧ (∀ c ∈ s2.take n, cIsSpace c = false) ∧
    specDecTot (s2.take n) = some (q, e) := by
  have hipd : ∀ c ∈ s2.takeWhile isDigit10, isDigit10 c = true :=
    fun _ hc => List.mem_takeWhile_imp hc
  have hs2split : s2 = s2.takeWhile isDigit10 ++
      s2.drop (s2.takeWhile isDigit10).length := by
    conv_lhs => rw [← List.take_append_drop (s2.takeWhile isDigit10).length s2,
      take_length_takeWhile]
  unfold decTail at h
  dsimp only at h
  by_cases hdot : (s2.drop (s2.takeWhile isDigit10).length).head? = some '.'
  · simp only [if_pos hdot] at h
    obtain ⟨a1t, ha1t⟩ : ∃ a1t, s2.drop (s2.takeWhile isDigit10).length = '.' :: a1t := by
      rcases h0 : s2.drop (s2.takeWhile isDigit10).length with _ | ⟨d, tl⟩
      · rw [h0] at hdot; exact absurd hdot (by simp)
      · rw [h0] at hdot
        exact ⟨tl, by rw [show d = '.' from by simpa using hdot]⟩
    rw [ha1t, List.tail_cons] at h
    by_cases hnil : s2.takeWhile isDigit10 = [] ∧ a1t.takeWhile isDigit10 = []
    · rw [if_pos hnil] at h
      cases h
    · rw [if_neg hnil] at h
      have hfpd : ∀ c ∈ a1t.takeWhile isDigit10, isDigit10 c = true :=
        fun _ hc => List.mem_takeWhile_imp hc
      have hfple : (a1t.takeWhile isDigit10).length ≤ a1t.length :=
        (List.takeWhile_sublist _).length_le
      have hlen1 : s2.length = (s2.takeWhile isDigit10).length + (1 + a1t.length) := by
        have h0 := congrArg List.length ha1t
        rw [List.length_drop, List.length_cons] at h0
        have := (List.takeWhile_sublist (l := s2) isDigit10).length_le
        omega
      have ha1tsplit : a1t = a1t.takeWhile isDigit10 ++
          a1t.drop (a1t.takeWhile isDigit10).length := by
        conv_lhs => rw [← List.take_append_drop (a1t.takeWhile isDigit10).length a1t,
          take_length_takeWhile]
      have hdropm : s2.drop ((s2.takeWhile isDigit10).length + 1 +
          (a1t.takeWhile isDigit10).length) =
          a1t.drop (a1t.takeWhile isDigit10).length := by
        rw [show (s2.takeWhile isDigit10).length + 1 + (a1t.takeWhile isDigit10).length =
            (s2.takeWhile isDigit10).length + (1 + (a1t.takeWhile isDigit10).length) from by
          omega]
        rw [← List.drop_drop, ha1t,
          show (1 : Nat) + (a1t.takeWhile isDigit10).length =
            (a1t.takeWhile isDigit10).length + 1 from by omega,
          List.drop_succ_cons]
      rcases hep : expPart 'e' (s2.drop ((s2.takeWhile isDigit10).length + 1 +
          (a1t.takeWhile isDigit10).length)) with ⟨cnt, ex⟩
      rw [hep] at h
      dsimp only at h
      have h0 := Option.some.inj h
      have hn := congrArg (fun p => p.1) h0
      have hq := congrArg (fun p => p.2.1) h0
      have he := congrArg (fun p => p.2.2) h0
      dsimp only at hn hq he
      obtain ⟨hcnt, hecws, hectot⟩ := expPart_bwd (Or.inl rfl) hep
      rw [hdropm] at hcnt hecws hectot
      have hnle : n ≤ s2.length := by
        rw [← hn]
        rw [List.length_drop] at hcnt
        omega
      have hmant : ∀ j, j = (s2.takeWhile isDigit10).length + 1 +
          (a1t.takeWhile isDigit10).length →
          s2.take j = s2.takeWhile isDigit10 ++ '.' :: a1t.takeWhile isDigit10 := by
        intro j hj
        conv_lhs => rw [show s2 = (s2.takeWhile isDigit10 ++
            '.' :: a1t.takeWhile isDigit10) ++
            a1t.drop (a1t.takeWhile isDigit10).length from by
          rw [List.append_assoc, List.cons_append, ← ha1tsplit, ← ha1t]
          exact hs2split]
        rw [hj, show (s2.takeWhile isDigit10).length + 1 + (a1t.takeWhile isDigit10).length =
            (s2.takeWhile isDigit10 ++ '.' :: a1t.takeWhile isDigit10).length from by
          rw [List.length_append, List.length_cons]
          omega]
        exact List.take_left ..
      have hm : s2.take n = (s2.takeWhile isDigit10 ++ '.' :: a1t.takeWhile isDigit10) ++
          (a1t.drop (a1t.takeWhile isDigit10).length).take cnt := by
        rw [← hn, List.take_add, hmant _ rfl, hdropm]
      have hecnd : ∀ d tl, (a1t.drop (a1t.takeWhile isDigit10).length).take cnt = d :: tl →
          isDigit10 d = false := by
        intro d tl hdt
        have hh : (a1t.drop (a1t.takeWhile isDigit10).length).head? = some d := by
          rcases h1 : a1t.drop (a1t.takeWhile isDigit10).length with _ | ⟨d0, tl0⟩
          · rw [h1] at hdt; simp at hdt
          · rw [h1] at hdt
            rcases cnt with _ | cnt'
            · simp at hdt
            · rw [List.take_succ_cons] at hdt
              injection hdt with hd0 _
              rw [hd0]
              rfl
        rw [drop_length_takeWhile isDigit10 a1t] at hh
        rcases h1 : a1t.dropWhile isDigit10 with _ | ⟨d0, tl0⟩
        · rw [h1] at hh; simp at hh
        · rw [h1] at hh
          have hd0 : d0 = d := by simpa using hh
          subst hd0
          exact dropWhile_head_not h1
      refine ⟨hnle, ?_, ?_, ?_⟩
      · rw [hm]
        simp
      · rw [hm]
        intro d hd
        rcases List.mem_append.1 hd with hd1 | hd1
        · rcases List.mem_append.1 hd1 with hd2 | hd2
          · exact all_digit_not_ws hipd d hd2
          · rcases List.mem_cons.1 hd2 with rfl | hd3
            · decide
            · exact all_digit_not_ws hfpd d hd3
        · exact hecws d hd1
      · rw [hm]
        unfold specDecTot
        dsimp only
        have htkm : ((s2.takeWhile isDigit10 ++ '.' :: a1t.takeWhile isDigit10) ++
            (a1t.drop (a1t.takeWhile isDigit10).length).take cnt).takeWhile isDigit10 =
            s2.takeWhile isDigit10 := by
          rw [List.append_assoc, List.cons_append, takeWhile_append_all hipd,
            List.takeWhile_cons, if_neg (by decide)]
          exact List.append_nil _
        rw [htkm]
        have hdropm2 : ((s2.takeWhile isDigit10 ++ '.' :: a1t.takeWhile isDigit10) ++
            (a1t.drop (a1t.takeWhile isDigit10).length).take cnt).drop
            (s2.takeWhile isDigit10).length =
            '.' :: (a1t.takeWhile isDigit10 ++
              (a1t.drop (a1t.takeWhile isDigit10).length).take cnt) := by
          rw [List.append_assoc, List.cons_append]
          exact List.drop_left ..
        rw [hdropm2]
        simp only [if_pos (show ('.' :: (a1t.takeWhile isDigit10 ++
            (a1t.drop (a1t.takeWhile isDigit10).length).take cnt)).head? =
            some '.' from rfl)]
        rw [List.tail_cons]
        have hfpm : (a1t.takeWhile isDigit10 ++
            (a1t.drop (a1t.takeWhile isDigit10).length).take cnt).takeWhile isDigit10 =
            a1t.takeWhile isDigit10 := by
          rw [takeWhile_append_all hfpd]
          rcases h1 : (a1t.drop (a1t.takeWhile isDigit10).length).take cnt with _ | ⟨d, tl⟩
          · simp
          · rw [List.takeWhile_cons, if_neg (by rw [hecnd d tl h1]; simp)]
            simp
        rw [hfpm]
        rw [if_neg hnil]
        rw [show (a1t.takeWhile isDigit10 ++
            (a1t.drop (a1t.takeWhile isDigit10).length).take cnt).drop
            (a1t.takeWhile isDigit10).length =
            (a1t.drop (a1t.takeWhile isDigit10).length).take cnt from
          List.drop_left ..]
        rw [hectot]
        dsimp only
        rw [hq] at he
        rw [hq, he]
  · simp only [if_neg hdot] at h
    by_cases hipnil : s2.takeWhile isDigit10 = []
    · rw [if_pos ⟨hipnil, trivial⟩] at h
      cases h
    · rw [if_neg (by intro h1; exact hipnil h1.1)] at h
      rw [show (s2.takeWhile isDigit10).length + 0 + ([] : List Char).length =
          (s2.takeWhile isDigit10).length from by simp] at h
      rcases hep : expPart 'e' (s2.drop (s2.takeWhile isDigit10).length) with ⟨cnt, ex⟩
      rw [hep] at h
      dsimp only at h
      have h0 := Option.some.inj h
      have hn := congrArg (fun p => p.1) h0
      have hq := congrArg (fun p => p.2.1) h0
      have he := congrArg (fun p => p.2.2) h0
      dsimp only at hn hq he
      obtain ⟨hcnt, hecws, hectot⟩ := expPart_bwd (Or.inl rfl) hep
      have hnle : n ≤ s2.length := by
        rw [← hn]
        rw [List.length_drop] at hcnt
        have := (List.takeWhile_sublist (l := s2) isDigit10).length_le
        omega
      have hm : s2.take n = s2.takeWhile isDigit10 ++
          (s2.drop (s2.takeWhile isDigit10).length).take cnt := by
        rw [← hn, List.take_add, take_length_takeWhile]
      have hecnd : ∀ d tl, (s2.drop (s2.takeWhile isDigit10).length).take cnt = d :: tl →
          isDigit10 d = false ∧ d ≠ '.' := by
        intro d tl hdt
        have hh : (s2.drop (s2.takeWhile isDigit10).length).head? = some d := by
          rcases h1 : s2.drop (s2.takeWhile isDigit10).length with _ | ⟨d0, tl0⟩
          · rw [h1] at hdt; simp at hdt
          · rw [h1] at hdt
            rcases cnt with _ | cnt'
            · simp at hdt
            · rw [List.take_succ_cons] at hdt
              injection hdt with hd0 _
              rw [hd0]
              rfl
        constructor
        · have hh2 := hh
          rw [drop_length_takeWhile isDigit10 s2] at hh2
          rcases h1 : s2.dropWhile isDigit10 with _ | ⟨d0, tl0⟩
          · rw [h1] at hh2; simp at hh2
          · rw [h1] at hh2
            have hd0 : d0 = d := by simpa using hh2
            subst hd0
            exact dropWhile_head_not h1
        · intro hd
          subst hd
          exact hdot hh
      refine ⟨hnle, ?_, ?_, ?_⟩
      · rw [hm]
        intro h1
        rw [List.append_eq_nil] at h1
        exact hipnil h1.1
      · rw [hm]
        intro d hd
        rcases List.mem_append.1 hd with hd1 | hd1
        · exact all_digit_not_ws hipd d hd1
        · exact hecws d hd1
      · rw [hm]
        unfold specDecTot
        dsimp only
        have htkm : (s2.takeWhile isDigit10 ++
            (s2.drop (s2.takeWhile isDigit10).length).take cnt).takeWhile isDigit10 =
            s2.takeWhile isDigit10 := by
          rw [takeWhile_append_all hipd]
          rcases h1 : (s2.drop (s2.takeWhile isDigit10).length).take cnt with _ | ⟨d, tl⟩
          · simp
          · rw [List.takeWhile_cons, if_neg (by rw [(hecnd d tl h1).1]; simp)]
            simp
        rw [htkm]
        rw [show (s2.takeWhile isDigit10 ++
            (s2.drop (s2.takeWhile isDigit10).length).take cnt).drop
            (s2.takeWhile isDigit10).length =
            (s2.drop (s2.takeWhile isDigit10).length).take cnt from
          List.drop_left ..]
        have hdotm : ¬ ((((s2.drop (s2.takeWhile isDigit10).length).take cnt)).head? =
            some '.') := by
          rcases h1 : (s2.drop (s2.takeWhile isDigit10).length).take cnt with _ | ⟨d, tl⟩
          · simp
          · intro hc
            exact (hecnd d tl h1).2 (by simpa using hc)
        simp only [if_neg hdotm]
        rw [if_neg (by intro h1; exact hipnil h1.1)]
        rw [hectot]
        dsimp only
        rw [hq] at he
        rw [hq, he]

theorem hexTail_fwd {x : Char} {r W : List Char} {q : ℚ} {e : Bool}
    (hx : x = 'x' ∨ x = 'X')
    (hW : ∀ c ∈ W, cIsSpace c = true)
    (hspec : specHexTot r = some (q, e)) :
    hexTail (('0' :: x :: r) ++ W) = some (('0' :: x :: r).length, q, e) := by
  have hWh : ∀ c ∈ W, isHexDigit16 c = false :=
    fun c hc => (ws_facts (hW c hc)).2.2.2.2.2.2.1
  have hihle : (r.takeWhile isHexDigit16).length ≤ r.length :=
    (List.takeWhile_sublist _).length_le
  have hih : (r ++ W).takeWhile isHexDigit16 = r.takeWhile isHexDigit16 :=
    takeWhile_append_of_disj hWh r
  have ha1 : (r ++ W).drop (r.takeWhile isHexDigit16).length =
      r.drop (r.takeWhile isHexDigit16).length ++ W :=
    List.drop_append_of_le_length hihle
  unfold specHexTot at hspec
  dsimp only at hspec
  rw [List.cons_append, List.cons_append]
  unfold hexTail
  dsimp only
  rw [if_pos ⟨rfl, hx⟩]
  rw [hih, ha1]
  have hdrop2 : ∀ X : List Char, ∀ j j2, j2 = j + 1 + 1 →
      ('0' :: x :: X).drop j2 = X.drop j := by
    intro X j j2 hj
    rw [hj, List.drop_succ_cons, List.drop_succ_cons]
  by_cases hdot : (r.drop (r.takeWhile isHexDigit16).length).head? = some '.'
  · simp only [if_pos hdot] at hspec
    obtain ⟨a1t, ha1t⟩ : ∃ a1t, r.drop (r.takeWhile isHexDigit16).length = '.' :: a1t := by
      rcases h0 : r.drop (r.takeWhile isHexDigit16).length with _ | ⟨d, tl⟩
      · rw [h0] at hdot; exact absurd hdot (by simp)
      · rw [h0] at hdot
        exact ⟨tl, by rw [show d = '.' from by simpa using hdot]⟩
    rw [ha1t] at hspec ⊢
    rw [List.cons_append]
    simp only [if_pos (show ('.' :: (a1t ++ W)).head? = some '.' from rfl)]
    rw [List.tail_cons]
    rw [List.tail_cons] at hspec
    rw [takeWhile_append_of_disj hWh a1t]
    by_cases hnil : r.takeWhile isHexDigit16 = [] ∧ a1t.takeWhile isHexDigit16 = []
    · rw [if_pos hnil] at hspec
      cases hspec
    · rw [if_neg hnil] at hspec
      rw [if_neg hnil]
      have hlen1 : r.length = (r.takeWhile isHexDigit16).length + (1 + a1t.length) := by
        have h0 := congrArg List.length ha1t
        rw [List.length_drop, List.length_cons] at h0
        omega
      have hfple : (a1t.takeWhile isHexDigit16).length ≤ a1t.length :=
        (List.takeWhile_sublist _).length_le
      have hmantle : (r.takeWhile isHexDigit16).length + 1 +
          (a1t.takeWhile isHexDigit16).length ≤ r.length := by omega
      have hdropm : r.drop ((r.takeWhile isHexDigit16).length + 1 +
          (a1t.takeWhile isHexDigit16).length) =
          a1t.drop (a1t.takeWhile isHexDigit16).length := by
        rw [show (r.takeWhile isHexDigit16).length + 1 +
            (a1t.takeWhile isHexDigit16).length =
            (r.takeWhile isHexDigit16).length +
              (1 + (a1t.takeWhile isHexDigit16).length) from by omega]
        rw [← List.drop_drop, ha1t,
          show (1 : Nat) + (a1t.takeWhile isHexDigit16).length =
            (a1t.takeWhile isHexDigit16).length + 1 from by omega,
          List.drop_succ_cons]
      rcases hexp0 : specExpTot 'p' (a1t.drop (a1t.takeWhile isHexDigit16).length)
        with _ | ex
      · rw [hexp0] at hspec
        exact absurd hspec (by simp)
      · rw [hexp0] at hspec
        dsimp only at hspec
        have hq := congrArg Prod.fst (Option.some.inj hspec)
        have he := congrArg Prod.snd (Option.some.inj hspec)
        dsimp only at hq he
        rw [show ('0' :: x :: (r ++ W)).drop (2 + (r.takeWhile isHexDigit16).length + 1 +
            (a1t.takeWhile isHexDigit16).length) =
            a1t.drop (a1t.takeWhile isHexDigit16).length ++ W from by
          rw [hdrop2 (r ++ W) ((r.takeWhile isHexDigit16).length + 1 +
              (a1t.takeWhile isHexDigit16).length) _ (by omega)]
          rw [List.drop_append_of_le_length hmantle, hdropm]]
        rw [expPart_fwd (Or.inr rfl) hexp0 hW]
        rw [show 2 + (r.takeWhile isHexDigit16).length + 1 +
            (a1t.takeWhile isHexDigit16).length +
            (a1t.drop (a1t.takeWhile isHexDigit16).length).length =
            ('0' :: x :: r).length from by
          rw [List.length_drop, List.length_cons, List.length_cons]; omega]
        rw [hq] at he
        rw [hq, he]
  · simp only [if_neg hdot] at hspec
    by_cases hihnil : r.takeWhile isHexDigit16 = []
    · rw [if_pos ⟨hihnil, trivial⟩] at hspec
      cases hspec
    · rw [if_neg (by intro h0; exact hihnil h0.1)] at hspec
      have hdotapp : ¬ ((r.drop (r.takeWhile isHexDigit16).length ++ W).head? =
          some '.') := by
        rcases h0 : r.drop (r.takeWhile isHexDigit16).length with _ | ⟨d, tl⟩
        · rw [List.nil_append]
          rcases W with _ | ⟨w0, ws0⟩
          · simp
          · intro hc
            exact (ws_facts (hW w0 (List.mem_cons_self ..))).2.2.2.2.1
              (by simpa using hc)
        · rw [List.cons_append]
          intro hc
          rw [h0] at hdot
          exact hdot (by simpa using hc)
      simp only [if_neg hdotapp]
      rw [if_neg (by intro h0; exact hihnil h0.1)]
      rcases hexp0 : specExpTot 'p' (r.drop (r.takeWhile isHexDigit16).length) with _ | ex
      · rw [hexp0] at hspec
        exact absurd hspec (by simp)
      · rw [hexp0] at hspec
        dsimp only at hspec
        have hq := congrArg Prod.fst (Option.some.inj hspec)
        have he := congrArg Prod.snd (Option.some.inj hspec)
        dsimp only at hq he
        rw [show 2 + (r.takeWhile isHexDigit16).length + 0 + ([] : List Char).length =
            (r.takeWhile isHexDigit16).length + 1 + 1 from by simp; omega]
        rw [List.drop_succ_cons, List.drop_succ_cons]
        rw [ha1, expPart_fwd (Or.inr rfl) hexp0 hW]
        rw [show (r.takeWhile isHexDigit16).length + 1 + 1 +
            (r.drop (r.takeWhile isHexDigit16).length).length =
            ('0' :: x :: r).length from by
          rw [List.length_drop, List.length_cons, List.length_cons]; omega]
        rw [hq] at he
        rw [hq, he]

theorem hexTail_bwd {s2 : List Char} {n : Nat} {q : ℚ} {e : Bool}
    (h : hexTail s2 = some (n, q, e)) :
    ∃ x r nr, (x = 'x' ∨ x = 'X') ∧ s2 = '0' :: x :: r ∧ n = nr + 2 ∧ nr ≤ r.length ∧
      s2.take n = '0' :: x :: r.take nr ∧
      (∀ c ∈ r.take nr, cIsSpace c = false) ∧
      specHexTot (r.take nr) = some (q, e) := by
  rcases s2 with _ | ⟨c0, s2t⟩
  · cases h
  rcases s2t with _ | ⟨cx, r⟩
  · cases h
  unfold hexTail at h
  dsimp only at h
  by_cases hsh : c0 = '0' ∧ (cx = 'x' ∨ cx = 'X')
  · rw [if_pos hsh] at h
    obtain ⟨hc0, hcx⟩ := hsh
    subst hc0
    have hihd : ∀ c ∈ r.takeWhile isHexDigit16, isHexDigit16 c = true :=
      fun _ hc => List.mem_takeWhile_imp hc
    have hhexws : ∀ c ∈ r.takeWhile isHexDigit16, cIsSpace c = false := by
      intro c hc
      rcases hw : cIsSpace c
      · rfl
      · exact absurd ((ws_facts hw).2.2.2.2.2.2.1 ▸ hihd c hc) (by simp)
    have hdrop2 : ∀ X : List Char, ∀ j j2, j2 = j + 1 + 1 →
        ('0' :: cx :: X).drop j2 = X.drop j := by
      intro X j j2 hj
      rw [hj, List.drop_succ_cons, List.drop_succ_cons]
    by_cases hdot : (r.drop (r.takeWhile isHexDigit16).length).head? = some '.'
    · simp only [if_pos hdot] at h
      obtain ⟨a1t, ha1t⟩ : ∃ a1t, r.drop (r.takeWhile isHexDigit16).length = '.' :: a1t := by
        rcases h0 : r.drop (r.takeWhile isHexDigit16).length with _ | ⟨d, tl⟩
        · rw [h0] at hdot; exact absurd hdot (by simp)
        · rw [h0] at hdot
          exact ⟨tl, by rw [show d = '.' from by simpa using hdot]⟩
      rw [ha1t, List.tail_cons] at h
      by_cases hnil : r.takeWhile isHexDigit16 = [] ∧ a1t.takeWhile isHexDigit16 = []
      · rw [if_pos hnil] at h
        cases h
      · rw [if_neg hnil] at h
        have hfhd : ∀ c ∈ a1t.takeWhile isHexDigit16, isHexDigit16 c = true :=
          fun _ hc => List.mem_takeWhile_imp hc
        have hfhws : ∀ c ∈ a1t.takeWhile isHexDigit16, cIsSpace c = false := by
          intro c hc
          rcases hw : cIsSpace c
          · rfl
          · exact absurd ((ws_facts hw).2.2.2.2.2.2.1 ▸ hfhd c hc) (by simp)
        have hfple : (a1t.takeWhile isHexDigit16).length ≤ a1t.length :=
          (List.takeWhile_sublist _).length_le
        have hlen1 : r.length = (r.takeWhile isHexDigit16).length + (1 + a1t.length) := by
          have h0 := congrArg List.length ha1t
          rw [List.length_drop, List.length_cons] at h0
          have := (List.takeWhile_sublist (l := r) isHexDigit16).length_le
          omega
        have ha1tsplit : a1t = a1t.takeWhile isHexDigit16 ++
            a1t.drop (a1t.takeWhile isHexDigit16).length := by
          conv_lhs => rw [← List.take_append_drop (a1t.takeWhile isHexDigit16).length a1t,
            take_length_takeWhile]
        have hrsplit : r = r.takeWhile isHexDigit16 ++
            r.drop (r.takeWhile isHexDigit16).length := by
          conv_lhs => rw [← List.take_append_drop (r.takeWhile isHexDigit16).length r,
            take_length_takeWhile]
        have hdropm : r.drop ((r.takeWhile isHexDigit16).length + 1 +
            (a1t.takeWhile isHexDigit16).length) =
            a1t.drop (a1t.takeWhile isHexDigit16).length := by
          rw [show (r.takeWhile isHexDigit16).length + 1 +
              (a1t.takeWhile isHexDigit16).length =
              (r.takeWhile isHexDigit16).length +
                (1 + (a1t.takeWhile isHexDigit16).length) from by omega]
          rw [← List.drop_drop, ha1t,
            show (1 : Nat) + (a1t.takeWhile isHexDigit16).length =
              (a1t.takeWhile isHexDigit16).length + 1 from by omega,
            List.drop_succ_cons]
        rw [hdrop2 r ((r.takeWhile isHexDigit16).length + 1 +
            (a1t.takeWhile isHexDigit16).length)
            (2 + (r.takeWhile isHexDigit16).length + 1 +
              (a1t.takeWhile isHexDigit16).length) (by omega)] at h
        rw [hdropm] at h
        rcases hep : expPart 'p' (a1t.drop (a1t.takeWhile isHexDigit16).length)
          with ⟨cnt, ex⟩
        rw [hep] at h
        dsimp only at h
        have h0 := Option.some.inj h
        have hn := congrArg (fun p => p.1) h0
        have hq := congrArg (fun p => p.2.1) h0
        have he := congrArg (fun p => p.2.2) h0
        dsimp only at hn hq he
        obtain ⟨hcnt, hecws, hectot⟩ := expPart_bwd (Or.inr rfl) hep
        have hmant : ∀ j, j = (r.takeWhile isHexDigit16).length + 1 +
            (a1t.takeWhile isHexDigit16).length →
            r.take j = r.takeWhile isHexDigit16 ++ '.' :: a1t.takeWhile isHexDigit16 := by
          intro j hj
          conv_lhs => rw [show r = (r.takeWhile isHexDigit16 ++
              '.' :: a1t.takeWhile isHexDigit16) ++
              a1t.drop (a1t.takeWhile isHexDigit16).length from by
            rw [List.append_assoc, List.cons_append, ← ha1tsplit, ← ha1t]
            exact hrsplit]
          rw [hj, show (r.takeWhile isHexDigit16).length + 1 +
              (a1t.takeWhile isHexDigit16).length =
              (r.takeWhile isHexDigit16 ++ '.' :: a1t.takeWhile isHexDigit16).length from by
            rw [List.length_append, List.length_cons]
            omega]
          exact List.take_left ..
        have hm : r.take ((r.takeWhile isHexDigit16).length + 1 +
            (a1t.takeWhile isHexDigit16).length + cnt) =
            (r.takeWhile isHexDigit16 ++ '.' :: a1t.takeWhile isHexDigit16) ++
            (a1t.drop (a1t.takeWhile isHexDigit16).length).take cnt := by
          rw [List.take_add, hmant _ rfl, hdropm]
        have hecnd : ∀ d tl,
            (a1t.drop (a1t.takeWhile isHexDigit16).length).take cnt = d :: tl →
            isHexDigit16 d = false := by
          intro d tl hdt
          have hh : (a1t.drop (a1t.takeWhile isHexDigit16).length).head? = some d := by
            rcases h1 : a1t.drop (a1t.takeWhile isHexDigit16).length with _ | ⟨d0, tl0⟩
            · rw [h1] at hdt; simp at hdt
            · rw [h1] at hdt
              rcases cnt with _ | cnt'
              · simp at hdt
              · rw [List.take_succ_cons] at hdt
                injection hdt with hd0 _
                rw [hd0]
                rfl
          rw [drop_length_takeWhile isHexDigit16 a1t] at hh
          rcases h1 : a1t.dropWhile isHexDigit16 with _ | ⟨d0, tl0⟩
          · rw [h1] at hh; simp at hh
          · rw [h1] at hh
            have hd0 : d0 = d := by simpa using hh
            subst hd0
            exact dropWhile_head_not h1
        refine ⟨cx, r, (r.takeWhile isHexDigit16).length + 1 +
          (a1t.takeWhile isHexDigit16).length + cnt, hcx, rfl, by omega, ?_, ?_, ?_, ?_⟩
        · rw [List.length_drop] at hcnt
          omega
        · rw [show n = (r.takeWhile isHexDigit16).length + 1 +
              (a1t.takeWhile isHexDigit16).length + cnt + 1 + 1 from by omega,
            List.take_succ_cons, List.take_succ_cons]
        · rw [hm]
          intro d hd
          rcases List.mem_append.1 hd with hd1 | hd1
          · rcases List.mem_append.1 hd1 with hd2 | hd2
            · exact hhexws d hd2
            · rcases List.mem_cons.1 hd2 with rfl | hd3
              · decide
              · exact hfhws d hd3
          · exact hecws d hd1
        · rw [hm]
          unfold specHexTot
          dsimp only
          have htkm : ((r.takeWhile isHexDigit16 ++ '.' :: a1t.takeWhile isHexDigit16) ++
              (a1t.drop (a1t.takeWhile isHexDigit16).length).take cnt).takeWhile
              isHexDigit16 = r.takeWhile isHexDigit16 := by
            rw [List.append_assoc, List.cons_append, takeWhile_append_all hihd,
              List.takeWhile_cons, if_neg (by decide)]
            exact List.append_nil _
          rw [htkm]
          have hdropm2 : ((r.takeWhile isHexDigit16 ++ '.' :: a1t.takeWhile isHexDigit16) ++
              (a1t.drop (a1t.takeWhile isHexDigit16).length).take cnt).drop
              (r.takeWhile isHexDigit16).length =
              '.' :: (a1t.takeWhile isHexDigit16 ++
                (a1t.drop (a1t.takeWhile isHexDigit16).length).take cnt) := by
            rw [List.append_assoc, List.cons_append]
            exact List.drop_left ..
          rw [hdropm2]
          simp only [if_pos (show ('.' :: (a1t.takeWhile isHexDigit16 ++
              (a1t.drop (a1t.takeWhile isHexDigit16).length).take cnt)).head? =
              some '.' from rfl)]
          rw [List.tail_cons]
          have hfpm : (a1t.takeWhile isHexDigit16 ++
              (a1t.drop (a1t.takeWhile isHexDigit16).length).take cnt).takeWhile
              isHexDigit16 = a1t.takeWhile isHexDigit16 := by
            rw [takeWhile_append_all hfhd]
            rcases h1 : (a1t.drop (a1t.takeWhile isHexDigit16).length).take cnt
              with _ | ⟨d, tl⟩
            · simp
            · rw [List.takeWhile_cons, if_neg (by rw [hecnd d tl h1]; simp)]
              simp
          rw [hfpm]
          rw [if_neg hnil]
          rw [show (a1t.takeWhile isHexDigit16 ++
              (a1t.drop (a1t.takeWhile isHexDigit16).length).take cnt).drop
              (a1t.takeWhile isHexDigit16).length =
              (a1t.drop (a1t.takeWhile isHexDigit16).length).take cnt from
            List.drop_left ..]
          rw [hectot]
          dsimp only
          rw [hq] at he
          rw [hq, he]
    · simp only [if_neg hdot] at h
      by_cases hihnil : r.takeWhile isHexDigit16 = []
      · rw [if_pos ⟨hihnil, trivial⟩] at h
        cases h
      · rw [if_neg (by intro h1; exact hihnil h1.1)] at h
        rw [show 2 + (r.takeWhile isHexDigit16).length + 0 + ([] : List Char).length =
            2 + (r.takeWhile isHexDigit16).length from by simp] at h
        rw [hdrop2 r (r.takeWhile isHexDigit16).length
            (2 + (r.takeWhile isHexDigit16).length) (by omega)] at h
        rcases hep : expPart 'p' (r.drop (r.takeWhile isHexDigit16).length)
          with ⟨cnt, ex⟩
        rw [hep] at h
        dsimp only at h
        have h0 := Option.some.inj h
        have hn := congrArg (fun p => p.1) h0
        have hq := congrArg (fun p => p.2.1) h0
        have he := congrArg (fun p => p.2.2) h0
        dsimp only at hn hq he
        obtain ⟨hcnt, hecws, hectot⟩ := expPart_bwd (Or.inr rfl) hep
        have hm : r.take ((r.takeWhile isHexDigit16).length + cnt) =
            r.takeWhile isHexDigit16 ++
            (r.drop (r.takeWhile isHexDigit16).length).take cnt := by
          rw [List.take_add, take_length_takeWhile]
        have hecnd : ∀ d tl, (r.drop (r.takeWhile isHexDigit16).length).take cnt =
            d :: tl → isHexDigit16 d = false ∧ d ≠ '.' := by
          intro d tl hdt
          have hh : (r.drop (r.takeWhile isHexDigit16).length).head? = some d := by
            rcases h1 : r.drop (r.takeWhile isHexDigit16).length with _ | ⟨d0, tl0⟩
            · rw [h1] at hdt; simp at hdt
            · rw [h1] at hdt
              rcases cnt with _ | cnt'
              · simp at hdt
              · rw [List.take_succ_cons] at hdt
                injection hdt with hd0 _
                rw [hd0]
                rfl
          constructor
          · have hh2 := hh
            rw [drop_length_takeWhile isHexDigit16 r] at hh2
            rcases h1 : r.dropWhile isHexDigit16 with _ | ⟨d0, tl0⟩
            · rw [h1] at hh2; simp at hh2
            · rw [h1] at hh2
              have hd0 : d0 = d := by simpa using hh2
              subst hd0
              exact dropWhile_head_not h1
          · intro hd
            subst hd
            exact hdot hh
        refine ⟨cx, r, (r.takeWhile isHexDigit16).length + cnt, hcx, rfl, by omega,
          ?_, ?_, ?_, ?_⟩
        · rw [List.length_drop] at hcnt
          have := (List.takeWhile_sublist (l := r) isHexDigit16).length_le
          omega
        · rw [show n = (r.takeWhile isHexDigit16).length + cnt + 1 + 1 from by omega,
            List.take_succ_cons, List.take_succ_cons]
        · rw [hm]
          intro d hd
          rcases List.mem_append.1 hd with hd1 | hd1
          · exact hhexws d hd1
          · exact hecws d hd1
        · rw [hm]
          unfold specHexTot
          dsimp only
          have htkm : (r.takeWhile isHexDigit16 ++
              (r.drop (r.takeWhile isHexDigit16).length).take cnt).takeWhile
              isHexDigit16 = r.takeWhile isHexDigit16 := by
            rw [takeWhile_append_all hihd]
            rcases h1 : (r.drop (r.takeWhile isHexDigit16).length).take cnt
              with _ | ⟨d, tl⟩
            · simp
            · rw [List.takeWhile_cons, if_neg (by rw [(hecnd d tl h1).1]; simp)]
              simp
          rw [htkm]
          rw [show (r.takeWhile isHexDigit16 ++
              (r.drop (r.takeWhile isHexDigit16).length).take cnt).drop
              (r.takeWhile isHexDigit16).length =
              (r.drop (r.takeWhile isHexDigit16).length).take cnt from
            List.drop_left ..]
          have hdotm : ¬ ((((r.drop (r.takeWhile isHexDigit16).length).take cnt)).head? =
              some '.') := by
            rcases h1 : (r.drop (r.takeWhile isHexDigit16).length).take cnt
              with _ | ⟨d, tl⟩
            · simp
            · intro hc
              exact (hecnd d tl h1).2 (by simpa using hc)
          simp only [if_neg hdotm]
          rw [if_neg (by intro h1; exact hihnil h1.1)]
          rw [hectot]
          dsimp only
          rw [hq] at he
          rw [hq, he]
  · rw [if_neg hsh] at h
    cases h

theorem digit_lt65 {c : Char} (h : isDigit10 c = true) : c.toNat < 65 := by
  simp only [isDigit10, Bool.and_eq_true, decide_eq_true_eq] at h
  have h9 := h.2
  simp only [Char.le_def, UInt32.le_def, BitVec.le_def] at h9
  simp only [Char.toNat, UInt32.toNat]
  have hval : ('9' : Char).val.toBitVec.toNat = 57 := rfl
  omega

theorem toLower_self_of_lt65 {c : Char} (h : c.toNat < 65) : c.toLower = c := by
  unfold Char.toLower
  rw [if_neg]
  intro hle
  omega

theorem headclass_toLower {c : Char} (h : isDigit10 c = true ∨ c = '.') :
    c.toLower ≠ 'i' ∧ c.toLower ≠ 'n' := by
  rcases h with hd | rfl
  · rw [toLower_self_of_lt65 (digit_lt65 hd)]
    constructor
    · intro h0; subst h0; exact absurd hd (by decide)
    · intro h0; subst h0; exact absurd hd (by decide)
  · exact ⟨by decide, by decide⟩

theorem ws_toLower_ws {c : Char} (h : cIsSpace c = true) : cIsSpace c.toLower = true := by
  rcases ws_char_cases h with rfl | rfl | rfl | rfl | rfl | rfl <;> decide

theorem nonws_of_map_toLower {m pat : List Char} (h : m.map Char.toLower = pat)
    (hpat : ∀ p ∈ pat, cIsSpace p = false) : ∀ c ∈ m, cIsSpace c = false := by
  intro c hc
  rcases hw : cIsSpace c
  · rfl
  · have hmem : c.toLower ∈ pat := h ▸ List.mem_map_of_mem _ hc
    have h1 := hpat _ hmem
    rw [ws_toLower_ws hw] at h1
    cases h1

theorem ciMatch_of_total {pat m : List Char} (h : m.map Char.toLower = pat)
    (W : List Char) : ciMatch pat (m ++ W) = true := by
  unfold ciMatch
  rw [decide_eq_true_eq]
  have hlen : pat.length = m.length := by rw [← h, List.length_map]
  rw [hlen, List.take_left]
  exact h

theorem ciMatch_extract {pat m : List Char} (h : ciMatch pat m = true) :
    pat.length ≤ m.length ∧ (m.take pat.length).map Char.toLower = pat := by
  unfold ciMatch at h
  rw [decide_eq_true_eq] at h
  refine ⟨?_, h⟩
  have h0 := congrArg List.length h
  rw [List.length_map, List.length_take] at h0
  omega

theorem ciMatch_infinity_ws_false {m W : List Char}
    (h : m.map Char.toLower = "inf".toList) (hW : ∀ c ∈ W, cIsSpace c = true) :
    ciMatch "infinity".toList (m ++ W) = false := by
  have hlen : m.length = 3 := by
    have h0 := congrArg List.length h
    rw [List.length_map] at h0
    simpa using h0
  rcases m with _ | ⟨a, m⟩
  · simp at hlen
  rcases m with _ | ⟨b, m⟩
  · simp at hlen
  rcases m with _ | ⟨c3, m⟩
  · simp at hlen
  rcases m with _ | ⟨d, m⟩
  swap
  · simp at hlen
  unfold ciMatch
  rw [decide_eq_false_iff_not]
  intro heq
  rw [show ("infinity".toList).length = 8 from rfl] at heq
  rw [List.cons_append, List.cons_append, List.cons_append, List.nil_append] at heq
  rw [show (a :: b :: c3 :: W).take 8 = a :: b :: c3 :: W.take 5 from rfl] at heq
  rw [show "infinity".toList = 'i' :: 'n' :: 'f' :: 'i' :: 'n' :: 'i' :: 't' :: 'y' :: []
    from rfl] at heq
  simp only [List.map_cons, List.cons.injEq] at heq
  obtain ⟨-, -, -, heq4⟩ := heq
  rcases W with _ | ⟨w0, W⟩
  · simp at heq4
  · rw [show (w0 :: W).take 5 = w0 :: W.take 4 from rfl] at heq4
    rw [List.map_cons] at heq4
    have hw0 : w0.toLower = 'i' := (List.cons.injEq .. ▸ heq4).1
    have hws := ws_toLower_ws (hW w0 (List.mem_cons_self ..))
    rw [hw0] at hws
    cases hws

theorem ws_not_nanChar {c : Char} (h : cIsSpace c = true) : isNanChar c = false := by
  rcases ws_char_cases h with rfl | rfl | rfl | rfl | rfl | rfl <;> decide

theorem nanParen_nil : nanParen [] = 0 := rfl

theorem nanParen_cons (c : Char) (l : List Char) :
    nanParen (c :: l) =
      (if c = '(' then
        (if (l.drop (l.takeWhile isNanChar).length).head? = some ')' then
          (l.takeWhile isNanChar).length + 2 else 0)
      else 0) := by
  by_cases h : c = '('
  · subst h
    rw [if_pos rfl]
    rfl
  · rw [if_neg h]
    unfold nanParen
    split
    · rename_i heq
      injection heq with h1 _
      exact absurd h1 h
    · rfl

theorem specNanTot_cons (c : Char) (l : List Char) :
    specNanTot (c :: l) =
      (if c = '(' then
        (decide (l ≠ []) && decide (l.getLast? = some ')') && l.dropLast.all isNanChar)
      else false) := by
  by_cases h : c = '('
  · subst h
    rw [if_pos rfl]
    rfl
  · rw [if_neg h]
    unfold specNanTot
    split
    · rename_i heq
      simp at heq
    · rename_i heq
      injection heq with h1 _
      exact absurd h1 h
    · rfl

theorem nanParen_fwd {md W : List Char} (hW : ∀ c ∈ W, cIsSpace c = true)
    (hspec : specNanTot md = true) : nanParen (md ++ W) = md.length := by
  rcases md with _ | ⟨c, r⟩
  · rw [List.nil_append]
    rcases W with _ | ⟨w0, W⟩
    · rfl
    · rw [nanParen_cons,
        if_neg ((ws_facts (hW w0 (List.mem_cons_self ..))).2.2.2.2.2.1)]
      rfl
  · rw [specNanTot_cons] at hspec
    by_cases hc : c = '('
    · subst hc
      rw [if_pos rfl] at hspec
      simp only [Bool.and_eq_true, decide_eq_true_eq, List.all_eq_true] at hspec
      obtain ⟨⟨hrne, hlast⟩, hall⟩ := hspec
      have hglast : r.getLast hrne = ')' := by
        rw [List.getLast?_eq_getLast r hrne] at hlast
        exact Option.some.inj hlast
      have hsplit : r = r.dropLast ++ [')'] := by
        conv_lhs => rw [← List.dropLast_append_getLast hrne, hglast]
      rw [List.cons_append, nanParen_cons, if_pos rfl]
      have hbody : ((r ++ W).takeWhile isNanChar) = r.dropLast := by
        conv_lhs => rw [hsplit, List.append_assoc, List.singleton_append]
        rw [takeWhile_append_all hall, List.takeWhile_cons, if_neg (by decide)]
        exact List.append_nil _
      rw [hbody]
      have hdropb : ∀ j, j = r.dropLast.length → (r ++ W).drop j = ')' :: W := by
        intro j hj
        conv_lhs => rw [hsplit, List.append_assoc, List.singleton_append]
        rw [hj]
        exact List.drop_left ..
      rw [hdropb _ rfl]
      rw [if_pos (show ((')' :: W).head? = some ')') from rfl)]
      have hrlen : r.length = r.dropLast.length + 1 := by
        conv_lhs => rw [hsplit]
        rw [List.length_append]
        rfl
      rw [List.length_cons, hrlen]
    · rw [if_neg hc] at hspec
      cases hspec

theorem nanParen_bwd {l : List Char} {k : Nat} (h : nanParen l = k) :
    k ≤ l.length ∧ (∀ c ∈ l.take k, cIsSpace c = false) ∧
    specNanTot (l.take k) = true := by
  rcases l with _ | ⟨c, r⟩
  · rw [nanParen_nil] at h
    subst h
    exact ⟨by simp, by intro d hd; simp at hd, rfl⟩
  · rw [nanParen_cons] at h
    by_cases hc : c = '('
    · subst hc
      rw [if_pos rfl] at h
      by_cases hhead : (r.drop (r.takeWhile isNanChar).length).head? = some ')'
      · rw [if_pos hhead] at h
        subst h
        have hnand : ∀ d ∈ r.takeWhile isNanChar, isNanChar d = true :=
          fun _ hd => List.mem_takeWhile_imp hd
        obtain ⟨rest2, hrest2⟩ : ∃ rest2,
            r.drop (r.takeWhile isNanChar).length = ')' :: rest2 := by
          rcases h0 : r.drop (r.takeWhile isNanChar).length with _ | ⟨d, tl⟩
          · rw [h0] at hhead; exact absurd hhead (by simp)
          · rw [h0] at hhead
            exact ⟨tl, by rw [show d = ')' from by simpa using hhead]⟩
        have hlenr : r.length = (r.takeWhile isNanChar).length + (1 + rest2.length) := by
          have h0 := congrArg List.length hrest2
          rw [List.length_drop, List.length_cons] at h0
          have := (List.takeWhile_sublist (l := r) isNanChar).length_le
          omega
        have htk : ('(' :: r).take ((r.takeWhile isNanChar).length + 2) =
            '(' :: (r.takeWhile isNanChar ++ [')']) := by
          rw [show (r.takeWhile isNanChar).length + 2 =
            ((r.takeWhile isNanChar).length + 1) + 1 from by omega, List.take_succ_cons]
          rw [List.take_add, take_length_takeWhile, hrest2]
          rfl
        refine ⟨by rw [List.length_cons]; omega, ?_, ?_⟩
        · rw [htk]
          intro d hd
          rcases List.mem_cons.1 hd with rfl | hd1
          · decide
          · rcases List.mem_append.1 hd1 with hd2 | hd2
            · rcases hw : cIsSpace d
              · rfl
              · exact absurd (ws_not_nanChar hw ▸ hnand d hd2) (by simp)
            · rcases List.mem_cons.1 hd2 with rfl | hd3
              · decide
              · cases hd3
        · rw [htk, specNanTot_cons, if_pos rfl]
          simp only [Bool.and_eq_true, decide_eq_true_eq, List.all_eq_true]
          refine ⟨⟨by simp, ?_⟩, ?_⟩
          · rw [List.getLast?_concat]
          · rw [List.dropLast_concat]
            exact hnand
      · rw [if_neg hhead] at h
        subst h
        exact ⟨by simp, by intro d hd; simp at hd, rfl⟩
    · rw [if_neg hc] at h
      subst h
      exact ⟨by simp, by intro d hd; simp at hd, rfl⟩

theorem hexShapeTest_intro {x : Char} (mt : List Char) (hx : x = 'x' ∨ x = 'X') :
    hexShapeTest ('0' :: x :: mt) = true := by
  rcases hx with rfl | rfl <;> rfl

theorem hexShapeTest_elim {m : List Char} (h : hexShapeTest m = true) :
    ∃ x r, m = '0' :: x :: r ∧ (x = 'x' ∨ x = 'X') := by
  unfold hexShapeTest at h
  split at h
  · exact ⟨_, _, rfl, by simpa using h⟩
  · cases h

theorem specDecTot_head {m : List Char} {q : ℚ} {e : Bool}
    (h : specDecTot m = some (q, e)) :
    ∃ c mt, m = c :: mt ∧ (isDigit10 c = true ∨ c = '.') := by
  rcases m with _ | ⟨c, mt⟩
  · rw [show specDecTot ([] : List Char) = none from rfl] at h
    cases h
  · refine ⟨c, mt, rfl, ?_⟩
    by_cases hd : isDigit10 c = true
    · exact Or.inl hd
    · right
      unfold specDecTot at h
      dsimp only at h
      rw [List.takeWhile_cons, if_neg hd] at h
      by_cases hdot : ((c :: mt).drop ([] : List Char).length).head? = some '.'
      · have : (c :: mt).drop ([] : List Char).length = c :: mt := rfl
        rw [this] at hdot
        simpa using hdot
      · simp only [if_neg hdot] at h
        rw [if_pos ⟨by trivial, by trivial⟩] at h
        cases h

theorem specDecTot_not_0x {x : Char} {mt : List Char} (hx : x = 'x' ∨ x = 'X')
    {q : ℚ} {e : Bool} : specDecTot ('0' :: x :: mt) ≠ some (q, e) := by
  rcases hx with rfl | rfl
  · intro h
    unfold specDecTot at h
    dsimp only at h
    rw [show List.takeWhile isDigit10 ('0' :: 'x' :: mt) = ['0'] from by
      rw [List.takeWhile_cons, if_pos (by decide), List.takeWhile_cons,
        if_neg (by decide)]] at h
    rw [show ((['0'] : List Char)).length = 1 from rfl] at h
    rw [show List.drop 1 ('0' :: 'x' :: mt) = 'x' :: mt from rfl] at h
    simp only [if_neg (show ¬ ((('x' : Char) :: mt).head? = some '.') from by simp)] at h
    rw [if_neg (show ¬ ((['0'] : List Char) = [] ∧ True) from by
      intro h0; exact absurd h0.1 (by simp))] at h
    rw [specExpTot_cons, if_neg (by decide)] at h
    dsimp only at h
    exact absurd h (by simp)
  · intro h
    unfold specDecTot at h
    dsimp only at h
    rw [show List.takeWhile isDigit10 ('0' :: 'X' :: mt) = ['0'] from by
      rw [List.takeWhile_cons, if_pos (by decide), List.takeWhile_cons,
        if_neg (by decide)]] at h
    rw [show ((['0'] : List Char)).length = 1 from rfl] at h
    rw [show List.drop 1 ('0' :: 'X' :: mt) = 'X' :: mt from rfl] at h
    simp only [if_neg (show ¬ ((('X' : Char) :: mt).head? = some '.') from by simp)] at h
    rw [if_neg (show ¬ ((['0'] : List Char) = [] ∧ True) from by
      intro h0; exact absurd h0.1 (by simp))] at h
    rw [specExpTot_cons, if_neg (by decide)] at h
    dsimp only at h
    exact absurd h (by simp)

theorem hexShapeTest_nelim {c0 c1 : Char} {mr : List Char}
    (h : ¬ (hexShapeTest (c0 :: c1 :: mr) = true)) :
    ¬ (c0 = '0' ∧ (c1 = 'x' ∨ c1 = 'X')) := by
  intro h0
  obtain ⟨h1, hx⟩ := h0
  subst h1
  exact h (hexShapeTest_intro mr hx)

theorem strtodAfterSign_fwd {m W : List Char} {v : DVal} {e : Bool}
    (hW : ∀ c ∈ W, cIsSpace c = true)
    (hspec : specDoubleCore m = some (v, e)) :
    strtodAfterSign (m ++ W) = some (m.length, v, e) := by
  unfold specDoubleCore at hspec
  by_cases hinf : m.map Char.toLower = "inf".toList ∨
      m.map Char.toLower = "infinity".toList
  · rw [if_pos hinf] at hspec
    have hkv := Option.some.inj hspec
    have hv := congrArg Prod.fst hkv
    have he := congrArg Prod.snd hkv
    dsimp only at hv he
    unfold strtodAfterSign
    rcases hinf with hm | hm
    · rw [ciMatch_infinity_ws_false hm hW, if_neg (by simp),
        ciMatch_of_total hm W, if_pos rfl]
      have hlen : m.length = 3 := by
        have h0 := congrArg List.length hm
        rw [List.length_map] at h0
        simpa using h0
      rw [hlen, hv, he]
    · rw [ciMatch_of_total hm W, if_pos rfl]
      have hlen : m.length = 8 := by
        have h0 := congrArg List.length hm
        rw [List.length_map] at h0
        simpa using h0
      rw [hlen, hv, he]
  · rw [if_neg hinf] at hspec
    by_cases hnan : (m.take 3).map Char.toLower = "nan".toList ∧
        specNanTot (m.drop 3) = true
    · rw [if_pos hnan] at hspec
      have hkv := Option.some.inj hspec
      have hv := congrArg Prod.fst hkv
      have he := congrArg Prod.snd hkv
      dsimp only at hv he
      obtain ⟨hn3, hnt⟩ := hnan
      have h3 : 3 ≤ m.length := by
        have h0 := congrArg List.length hn3
        rw [List.length_map, List.length_take] at h0
        rw [show ("nan".toList).length = 3 from rfl] at h0
        have h1 := Nat.min_le_right 3 m.length
        omega
      rcases m with _ | ⟨mc, mt⟩
      · simp at h3
      have hmc : mc.toLower = 'n' := by
        rw [show (mc :: mt).take 3 = mc :: mt.take 2 from rfl, List.map_cons] at hn3
        injection hn3 with h1 _
      unfold strtodAfterSign
      rw [if_neg (show ¬ (ciMatch "infinity".toList ((mc :: mt) ++ W) = true) from by
        intro hc
        obtain ⟨c', cs', hcons, hlow⟩ := ciMatch_head hc
        rw [List.cons_append] at hcons
        injection hcons with h1 _
        rw [← h1, hmc] at hlow
        exact absurd hlow (by decide))]
      rw [if_neg (show ¬ (ciMatch "inf".toList ((mc :: mt) ++ W) = true) from by
        intro hc
        obtain ⟨c', cs', hcons, hlow⟩ := ciMatch_head hc
        rw [List.cons_append] at hcons
        injection hcons with h1 _
        rw [← h1, hmc] at hlow
        exact absurd hlow (by decide))]
      rw [if_pos (show ciMatch "nan".toList ((mc :: mt) ++ W) = true from by
        unfold ciMatch
        rw [decide_eq_true_eq, show ("nan".toList).length = 3 from rfl,
          List.take_append_of_le_length h3]
        exact hn3)]
      rw [List.drop_append_of_le_length h3, nanParen_fwd hW hnt]
      rw [show 3 + ((mc :: mt).drop 3).length = (mc :: mt).length from by
        rw [List.length_drop]; omega]
      rw [hv, he]
    · rw [if_neg hnan] at hspec
      by_cases hsh : hexShapeTest m = true
      · rw [if_pos hsh] at hspec
        obtain ⟨x, r, hm0, hx⟩ := hexShapeTest_elim hsh
        subst hm0
        rw [show (('0' :: x :: r).drop 2) = r from rfl] at hspec
        rcases hht : specHexTot r with _ | ⟨qq, ee⟩
        · rw [hht] at hspec
          exact absurd hspec (by simp)
        · rw [hht] at hspec
          have hkv := Option.some.inj hspec
          have hv := congrArg Prod.fst hkv
          have he := congrArg Prod.snd hkv
          dsimp only at hv he
          unfold strtodAfterSign
          rw [if_neg (show ¬ (ciMatch "infinity".toList (('0' :: x :: r) ++ W) = true)
              from by
            intro hc
            obtain ⟨c', cs', hcons, hlow⟩ := ciMatch_head hc
            rw [List.cons_append] at hcons
            injection hcons with h1 _
            rw [← h1] at hlow
            exact absurd hlow (by decide))]
          rw [if_neg (show ¬ (ciMatch "inf".toList (('0' :: x :: r) ++ W) = true)
              from by
            intro hc
            obtain ⟨c', cs', hcons, hlow⟩ := ciMatch_head hc
            rw [List.cons_append] at hcons
            injection hcons with h1 _
            rw [← h1] at hlow
            exact absurd hlow (by decide))]
          rw [if_neg (show ¬ (ciMatch "nan".toList (('0' :: x :: r) ++ W) = true)
              from by
            intro hc
            obtain ⟨c', cs', hcons, hlow⟩ := ciMatch_head hc
            rw [List.cons_append] at hcons
            injection hcons with h1 _
            rw [← h1] at hlow
            exact absurd hlow (by decide))]
          rw [hexTail_fwd hx hW hht]
          dsimp only
          rw [hv, he]
      · rw [if_neg hsh] at hspec
        rcases hdt : specDecTot m with _ | ⟨qq, ee⟩
        · rw [hdt] at hspec
          exact absurd hspec (by simp)
        · rw [hdt] at hspec
          have hkv := Option.some.inj hspec
          have hv := congrArg Prod.fst hkv
          have he := congrArg Prod.snd hkv
          dsimp only at hv he
          obtain ⟨c, mt, hm0, hcl⟩ := specDecTot_head hdt
          subst hm0
          unfold strtodAfterSign
          rw [if_neg (show ¬ (ciMatch "infinity".toList ((c :: mt) ++ W) = true)
              from by
            intro hc0
            obtain ⟨c', cs', hcons, hlow⟩ := ciMatch_head hc0
            rw [List.cons_append] at hcons
            injection hcons with h1 _
            rw [← h1] at hlow
            exact (headclass_toLower hcl).1 hlow)]
          rw [if_neg (show ¬ (ciMatch "inf".toList ((c :: mt) ++ W) = true) from by
            intro hc0
            obtain ⟨c', cs', hcons, hlow⟩ := ciMatch_head hc0
            rw [List.cons_append] at hcons
            injection hcons with h1 _
            rw [← h1] at hlow
            exact (headclass_toLower hcl).1 hlow)]
          rw [if_neg (show ¬ (ciMatch "nan".toList ((c :: mt) ++ W) = true) from by
            intro hc0
            obtain ⟨c', cs', hcons, hlow⟩ := ciMatch_head hc0
            rw [List.cons_append] at hcons
            injection hcons with h1 _
            rw [← h1] at hlow
            exact (headclass_toLower hcl).2 hlow)]
          have hhtnone : hexTail ((c :: mt) ++ W) = none := by
            rcases mt with _ | ⟨c1, mt'⟩
            · rw [List.cons_append, List.nil_append]
              rcases W with _ | ⟨w0, W'⟩
              · rfl
              · unfold hexTail
                dsimp only
                rw [if_neg]
                intro h0
                obtain ⟨-, hx1⟩ := h0
                have hf := ws_facts (hW w0 (List.mem_cons_self ..))
                rcases hx1 with h2 | h2
                · exact hf.2.2.2.2.2.2.2.2.2.2.2.1 h2
                · exact hf.2.2.2.2.2.2.2.2.2.2.2.2 h2
            · rw [List.cons_append, List.cons_append]
              unfold hexTail
              dsimp only
              rw [if_neg (hexShapeTest_nelim hsh)]
          rw [hhtnone]
          dsimp only
          rw [decTail_fwd hW hdt]
          dsimp only
          rw [hv, he]

theorem specDoubleCore_inf_of {m : List Char}
    (h : m.map Char.toLower = "inf".toList ∨ m.map Char.toLower = "infinity".toList) :
    specDoubleCore m = some (DVal.inf false, false) := by
  unfold specDoubleCore
  rw [if_pos h]

theorem specDoubleCore_nan_of {T3 K : List Char}
    (hmapT : T3.map Char.toLower = "nan".toList)
    (hK : specNanTot K = true) :
    specDoubleCore (T3 ++ K) = some (DVal.nan, false) := by
  have hmaplen : (T3.map Char.toLower).length = 3 := by
    rw [hmapT]
    rfl
  have hT3len : T3.length = 3 := by rw [← hmaplen, List.length_map]
  have htl : ((T3 ++ K).map Char.toLower).take 3 = "nan".toList := by
    rw [List.map_append, List.take_append_of_le_length (by omega),
      List.take_of_length_le (by omega)]
    exact hmapT
  have htake3 : (T3 ++ K).take 3 = T3 := by
    rw [List.take_append_of_le_length (by omega), List.take_of_length_le (by omega)]
  have hdrop3 : (T3 ++ K).drop 3 = K := by
    rw [← hT3len]
    exact List.drop_left ..
  have hc1 : ¬ ((T3 ++ K).map Char.toLower = "inf".toList ∨
      (T3 ++ K).map Char.toLower = "infinity".toList) := by
    rintro (hc | hc) <;>
    · have h2 := congrArg (List.take 3) hc
      rw [htl] at h2
      exact absurd h2 (by decide)
  have hc2 : ((T3 ++ K).take 3).map Char.toLower = "nan".toList ∧
      specNanTot ((T3 ++ K).drop 3) = true := by
    constructor
    · rw [htake3]
      exact hmapT
    · rw [hdrop3]
      exact hK
  unfold specDoubleCore
  rw [if_neg hc1, if_pos hc2]

theorem specDoubleCore_hex {x : Char} (hx : x = 'x' ∨ x = 'X') (rt : List Char) :
    specDoubleCore ('0' :: x :: rt) =
      (specHexTot rt).map (fun p => (DVal.fin p.1, p.2)) := by
  have hc1 : ¬ (('0' :: x :: rt).map Char.toLower = "inf".toList ∨
      ('0' :: x :: rt).map Char.toLower = "infinity".toList) := by
    rintro (hc | hc) <;>
    · rw [List.map_cons] at hc
      injection hc with h1 _
      exact absurd h1 (by decide)
  have hc2 : ¬ ((('0' :: x :: rt).take 3).map Char.toLower = "nan".toList ∧
      specNanTot (('0' :: x :: rt).drop 3) = true) := by
    intro hcc
    obtain ⟨h3, -⟩ := hcc
    rw [show ('0' :: x :: rt).take 3 = '0' :: x :: rt.take 1 from rfl,
      List.map_cons] at h3
    injection h3 with h1 _
    exact absurd h1 (by decide)
  unfold specDoubleCore
  rw [if_neg hc1, if_neg hc2, if_pos (hexShapeTest_intro rt hx)]
  rfl

theorem specDoubleCore_dec {m : List Char} {q : ℚ} {e : Bool}
    (hdspec : specDecTot m = some (q, e)) :
    specDoubleCore m = some (DVal.fin q, e) := by
  obtain ⟨c, mt, hm0, hcl⟩ := specDecTot_head hdspec
  subst hm0
  have hc1 : ¬ ((c :: mt).map Char.toLower = "inf".toList ∨
      (c :: mt).map Char.toLower = "infinity".toList) := by
    rintro (hc | hc) <;>
    · rw [List.map_cons] at hc
      injection hc with h1 _
      exact (headclass_toLower hcl).1 h1
  have hc2 : ¬ (((c :: mt).take 3).map Char.toLower = "nan".toList ∧
      specNanTot ((c :: mt).drop 3) = true) := by
    intro hcc
    obtain ⟨h3, -⟩ := hcc
    rw [show (c :: mt).take 3 = c :: mt.take 2 from rfl, List.map_cons] at h3
    injection h3 with h1 _
    exact (headclass_toLower hcl).2 h1
  have hc3 : ¬ (hexShapeTest (c :: mt) = true) := by
    intro hsh
    obtain ⟨x, r, hm1, hx⟩ := hexShapeTest_elim hsh
    rw [hm1] at hdspec
    exact specDecTot_not_0x hx hdspec
  unfold specDoubleCore
  rw [if_neg hc1, if_neg hc2, if_neg hc3, hdspec]
  rfl

theorem strtodAfterSign_bwd {s2 : List Char} {n : Nat} {v : DVal} {e : Bool}
    (h : strtodAfterSign s2 = some (n, v, e)) :
    n ≤ s2.length ∧ s2.take n ≠ [] ∧ (∀ c ∈ s2.take n, cIsSpace c = false) ∧
    specDoubleCore (s2.take n) = some (v, e) := by
  unfold strtodAfterSign at h
  by_cases hin8 : ciMatch "infinity".toList s2 = true
  · rw [if_pos hin8] at h
    rw [Option.some.injEq, Prod.mk.injEq, Prod.mk.injEq] at h
    obtain ⟨hn, hv, he⟩ := h
    subst hn hv he
    obtain ⟨hlen, hmap⟩ := ciMatch_extract hin8
    rw [show ("infinity".toList).length = 8 from rfl] at hlen hmap
    have hT : (s2.take 8).length = 8 := by rw [List.length_take]; omega
    refine ⟨hlen, ?_, nonws_of_map_toLower hmap (by decide),
      specDoubleCore_inf_of (Or.inr hmap)⟩
    intro h0
    rw [h0] at hT
    simp at hT
  · rw [if_neg hin8] at h
    by_cases hin3 : ciMatch "inf".toList s2 = true
    · rw [if_pos hin3] at h
      rw [Option.some.injEq, Prod.mk.injEq, Prod.mk.injEq] at h
      obtain ⟨hn, hv, he⟩ := h
      subst hn hv he
      obtain ⟨hlen, hmap⟩ := ciMatch_extract hin3
      rw [show ("inf".toList).length = 3 from rfl] at hlen hmap
      have hT : (s2.take 3).length = 3 := by rw [List.length_take]; omega
      refine ⟨hlen, ?_, nonws_of_map_toLower hmap (by decide),
        specDoubleCore_inf_of (Or.inl hmap)⟩
      intro h0
      rw [h0] at hT
      simp at hT
    · rw [if_neg hin3] at h
      by_cases hnan : ciMatch "nan".toList s2 = true
      · rw [if_pos hnan] at h
        rw [Option.some.injEq, Prod.mk.injEq, Prod.mk.injEq] at h
        obtain ⟨hn, hv, he⟩ := h
        subst hn hv he
        obtain ⟨hlen3, hmap3⟩ := ciMatch_extract hnan
        rw [show ("nan".toList).length = 3 from rfl] at hlen3 hmap3
        obtain ⟨hk, hkws, hknan⟩ := nanParen_bwd (l := s2.drop 3) rfl
        have hdlen : (s2.drop 3).length = s2.length - 3 := List.length_drop ..
        have hM : s2.take (3 + nanParen (s2.drop 3)) =
            s2.take 3 ++ (s2.drop 3).take (nanParen (s2.drop 3)) :=
          List.take_add ..
        refine ⟨by omega, ?_, ?_, ?_⟩
        · intro h0
          have h1 := congrArg List.length h0
          rw [List.length_take, List.length_nil] at h1
          omega
        · intro c hc
          rw [hM] at hc
          rcases List.mem_append.1 hc with hc1 | hc1
          · exact nonws_of_map_toLower hmap3 (by decide) c hc1
          · exact hkws c hc1
        · rw [hM]
          exact specDoubleCore_nan_of hmap3 hknan
      · rw [if_neg hnan] at h
        rcases hht : hexTail s2 with _ | ⟨nn, qq, ee⟩
        · rw [hht] at h
          dsimp only at h
          rcases hdt : decTail s2 with _ | ⟨nn, qq, ee⟩
          · rw [hdt] at h
            exact absurd h (by simp)
          · rw [hdt] at h
            dsimp only at h
            rw [Option.some.injEq, Prod.mk.injEq, Prod.mk.injEq] at h
            obtain ⟨hn, hv, he⟩ := h
            subst hn hv he
            obtain ⟨h1, h2, h3, h4⟩ := decTail_bwd hdt
            exact ⟨h1, h2, h3, specDoubleCore_dec h4⟩
        · rw [hht] at h
          dsimp only at h
          rw [Option.some.injEq, Prod.mk.injEq, Prod.mk.injEq] at h
          obtain ⟨hn, hv, he⟩ := h
          subst hn hv he
          obtain ⟨x, r, nr, hx, hs2, hnn, hnr, htake, hnws, hhex⟩ := hexTail_bwd hht
          refine ⟨?_, ?_, ?_, ?_⟩
          · rw [hs2, List.length_cons, List.length_cons]
            omega
          · rw [htake]
            simp
          · rw [htake]
            intro c hc
            rcases List.mem_cons.1 hc with rfl | hc1
            · decide
            rcases List.mem_cons.1 hc1 with rfl | hc2
            · rcases hx with rfl | rfl <;> decide
            · exact hnws c hc2
          · rw [htake, specDoubleCore_hex hx, hhex]
            rfl

theorem specDoubleCore_nil : specDoubleCore [] = none := rfl

theorem param_double_core_of_spec_some {str : List Char} {v : DVal} {e : Bool}
    (hspec : specDoubleLit str = some (v, e)) :
    param_double_core (some str) = (if e then DRes.defaulted else DRes.value v) := by
  obtain ⟨W, hW, hWws⟩ := trimRightWs_prefix (str.dropWhile cIsSpace)
  have ht : parse_params_trim str = trimRightWs (str.dropWhile cIsSpace) := rfl
  rcases hsg : parseSign (trimRightWs (str.dropWhile cIsSpace)) with ⟨neg, k⟩
  rw [specDoubleLit_shape ht hsg] at hspec
  rcases hcore : specDoubleCore ((trimRightWs (str.dropWhile cIsSpace)).drop k)
    with _ | ⟨v0, e0⟩
  · rw [hcore] at hspec
    exact absurd hspec (by simp)
  · rw [hcore] at hspec
    have hkv := Option.some.inj hspec
    have hv := congrArg Prod.fst hkv
    have he := congrArg Prod.snd hkv
    dsimp only at hv he
    subst hv he
    have hmne : (trimRightWs (str.dropWhile cIsSpace)).drop k ≠ [] := by
      intro h0
      rw [h0, specDoubleCore_nil] at hcore
      exact absurd hcore (by simp)
    have htne : trimRightWs (str.dropWhile cIsSpace) ≠ [] := by
      intro h0
      apply hmne
      rw [h0, List.drop_nil]
    have htlen : k ≤ (trimRightWs (str.dropWhile cIsSpace)).length := by
      have h0 := parseSign_le (trimRightWs (str.dropWhile cIsSpace))
      rw [hsg] at h0
      exact h0
    have htk : ((trimRightWs (str.dropWhile cIsSpace)).take k).length = k := by
      rw [List.length_take]
      omega
    have hs1 : str.dropWhile cIsSpace =
        (trimRightWs (str.dropWhile cIsSpace)).take k ++
          ((trimRightWs (str.dropWhile cIsSpace)).drop k ++ W) := by
      rw [← List.append_assoc, List.take_append_drop]
      exact hW
    have hhead : (str.dropWhile cIsSpace).head? =
        (trimRightWs (str.dropWhile cIsSpace)).head? := by
      conv_lhs => rw [hW]
      rw [head_append_ne htne]
    have hsg1 : parseSign (str.dropWhile cIsSpace) = (neg, k) := by
      rw [parseSign_head_congr hhead, hsg]
    have hdrop1 : (str.dropWhile cIsSpace).drop k =
        (trimRightWs (str.dropWhile cIsSpace)).drop k ++ W := by
      conv_lhs => rw [hs1]
      have h0 := List.drop_left ((trimRightWs (str.dropWhile cIsSpace)).take k)
        ((trimRightWs (str.dropWhile cIsSpace)).drop k ++ W)
      rw [htk] at h0
      exact h0
    rw [param_double_core_shape, strtod_shape hsg1 hdrop1,
      strtodAfterSign_fwd hWws hcore]
    dsimp only
    have hstr2 : str = str.takeWhile cIsSpace ++
        ((trimRightWs (str.dropWhile cIsSpace)).take k ++
          ((trimRightWs (str.dropWhile cIsSpace)).drop k ++ W)) := by
      conv_lhs => rw [← List.takeWhile_append_dropWhile cIsSpace str, hs1]
    have hdropstr : ∀ mm, mm = (str.takeWhile cIsSpace).length +
        (k + ((trimRightWs (str.dropWhile cIsSpace)).drop k).length) →
        str.drop mm = W := by
      intro mm hm
      conv_lhs => rw [hstr2]
      rw [hm, List.drop_append, ← List.append_assoc]
      rw [show k + ((trimRightWs (str.dropWhile cIsSpace)).drop k).length =
          ((trimRightWs (str.dropWhile cIsSpace)).take k ++
            (trimRightWs (str.dropWhile cIsSpace)).drop k).length from by
        rw [List.length_append, htk]]
      exact List.drop_left _ _
    rw [show (str.takeWhile cIsSpace).length + k +
        ((trimRightWs (str.dropWhile cIsSpace)).drop k).length =
        (str.takeWhile cIsSpace).length +
        (k + ((trimRightWs (str.dropWhile cIsSpace)).drop k).length) from by omega]
    rw [hdropstr _ rfl, dropWhile_all hWws]
    rcases e0 with _ | _
    · rw [if_neg ?_]
      · rfl
      · rintro (hb | hb | hb)
        · exact absurd hb (by simp)
        · have hlen0 : ((trimRightWs (str.dropWhile cIsSpace)).drop k).length ≠ 0 := by
            intro h0
            exact hmne (List.eq_nil_of_length_eq_zero h0)
          omega
        · exact hb rfl
    · rw [if_pos (Or.inl rfl)]
      rfl

theorem spec_some_of_strtod_ok {str : List Char}
    (hcond : ¬ ((strtod str).errno = true ∨ (strtod str).consumed = 0 ∨
      (str.drop (strtod str).consumed).dropWhile cIsSpace ≠ [])) :
    specDoubleLit str = some ((strtod str).value, false) := by
  rcases hsg1 : parseSign (str.dropWhile cIsSpace) with ⟨neg, k⟩
  have hst := strtod_shape hsg1 rfl
  rcases hsa : strtodAfterSign ((str.dropWhile cIsSpace).drop k) with _ | ⟨n, v0, e0⟩
  · rw [hsa] at hst
    dsimp only at hst
    rw [hst] at hcond
    dsimp only at hcond
    exact absurd (Or.inr (Or.inl rfl)) hcond
  · rw [hsa] at hst
    dsimp only at hst
    rw [hst] at hcond
    dsimp only at hcond
    push_neg at hcond
    obtain ⟨herr, hcons0, hrest⟩ := hcond
    have he0 : e0 = false := by
      cases e0
      · rfl
      · exact absurd rfl herr
    obtain ⟨hn, htkne, hnws, hcore⟩ := strtodAfterSign_bwd hsa
    have hkle : k ≤ (str.dropWhile cIsSpace).length := by
      have h0 := parseSign_le (str.dropWhile cIsSpace)
      rw [hsg1] at h0
      exact h0
    have htake : ((str.dropWhile cIsSpace).take k).length = k := by
      rw [List.length_take]
      omega
    have htaken : (((str.dropWhile cIsSpace).drop k).take n).length = n := by
      rw [List.length_take]
      omega
    have hs2split : (str.dropWhile cIsSpace).drop k =
        ((str.dropWhile cIsSpace).drop k).take n ++
          ((str.dropWhile cIsSpace).drop k).drop n :=
      (List.take_append_drop n _).symm
    have hs1 : str.dropWhile cIsSpace =
        (str.dropWhile cIsSpace).take k ++
          (((str.dropWhile cIsSpace).drop k).take n ++
            ((str.dropWhile cIsSpace).drop k).drop n) := by
      conv_lhs => rw [← List.take_append_drop k (str.dropWhile cIsSpace)]
      rw [← hs2split]
    have hstr2 : str = str.takeWhile cIsSpace ++
        ((str.dropWhile cIsSpace).take k ++
          (((str.dropWhile cIsSpace).drop k).take n ++
            ((str.dropWhile cIsSpace).drop k).drop n)) := by
      conv_lhs => rw [← List.takeWhile_append_dropWhile cIsSpace str, hs1]
    have hdropstr : ∀ mm, mm = (str.takeWhile cIsSpace).length + (k + n) →
        str.drop mm = ((str.dropWhile cIsSpace).drop k).drop n := by
      intro mm hm
      conv_lhs => rw [hstr2]
      rw [hm, List.drop_append, ← List.append_assoc]
      rw [show k + n = ((str.dropWhile cIsSpace).take k ++
          ((str.dropWhile cIsSpace).drop k).take n).length from by
        rw [List.length_append, htake, htaken]]
      exact List.drop_left _ _
    rw [show (str.takeWhile cIsSpace).length + k + n =
        (str.takeWhile cIsSpace).length + (k + n) from by omega] at hrest
    rw [hdropstr _ rfl] at hrest
    have hTws : ∀ c ∈ ((str.dropWhile cIsSpace).drop k).drop n, cIsSpace c = true :=
      List.dropWhile_eq_nil_iff.1 hrest
    have ht : parse_params_trim str =
        (str.dropWhile cIsSpace).take k ++
          ((str.dropWhile cIsSpace).drop k).take n := by
      show trimRightWs (str.dropWhile cIsSpace) = _
      conv_lhs => rw [hs1]
      rw [← List.append_assoc, trimRightWs_append_allws hTws,
        trimRightWs_append_stop (by rw [trimRightWs_all_nonws hnws]; exact htkne),
        trimRightWs_all_nonws hnws]
    have hheads : ((str.dropWhile cIsSpace).take k ++
        ((str.dropWhile cIsSpace).drop k).take n).head? =
        (str.dropWhile cIsSpace).head? := by
      rcases htk0 : (str.dropWhile cIsSpace).take k with _ | ⟨a, b⟩
      · rw [List.nil_append]
        conv_rhs => rw [hs1, htk0]
        rw [List.nil_append, head_append_ne htkne]
      · rw [List.cons_append]
        conv_rhs => rw [hs1, htk0]
        rw [List.cons_append]
        rfl
    have hsgt : parseSign ((str.dropWhile cIsSpace).take k ++
        ((str.dropWhile cIsSpace).drop k).take n) = (neg, k) := by
      rw [parseSign_head_congr hheads, hsg1]
    have hdropt : ((str.dropWhile cIsSpace).take k ++
        ((str.dropWhile cIsSpace).drop k).take n).drop k =
        ((str.dropWhile cIsSpace).drop k).take n := by
      have h0 := List.drop_left ((str.dropWhile cIsSpace).take k)
        (((str.dropWhile cIsSpace).drop k).take n)
      rw [htake] at h0
      exact h0
    rw [specDoubleLit_shape ht hsgt, hdropt, hcore, hst, he0]
    rfl

/-- Claim C4.  For every key, `param_double` returns the parsed value
exactly when the stored string, after trimming ASCII whitespace on both
sides, is entirely one `strtod` floating-point literal whose conversion
does not set `ERANGE`; a missing key returns the default silently, and a
present but malformed, partially consumed, trailing-garbage or
out-of-range value returns the default with the warning flag.  The
parsed value is returned even when it is non-finite (`inf`/`nan`): the
code has no finiteness check, contrary to the claim's final sentence. -/
theorem claim_C4 (fs : FS) (key : List Char) (st : PState) :
    (param_double fs key st).1 =
      match (parse_param_string_opt fs key st).1 with
      | none => DRes.missing
      | some str =>
        match specDoubleLit str with
        | none => DRes.defaulted
        | some (v, er) => if er then DRes.defaulted else DRes.value v := by
  show param_double_core (parse_param_string_opt fs key st).1 = _
  rcases ho : (parse_param_string_opt fs key st).1 with _ | str
  · rfl
  · dsimp only
    rcases hspec : specDoubleLit str with _ | ⟨v, er⟩
    · dsimp only
      rw [param_double_core_shape]
      by_cases hcond : ((strtod str).errno = true ∨ (strtod str).consumed = 0 ∨
          (str.drop (strtod str).consumed).dropWhile cIsSpace ≠ [])
      · rw [if_pos hcond]
      · exact absurd (spec_some_of_strtod_ok hcond) (by rw [hspec]; simp)
    · dsimp only
      exact param_double_core_of_spec_some hspec

/-- The readable file used by the counterexample to claim C4 as stated:
one key assigned `inf`, another assigned `nan`. -/
def c4Fs : FS := fun p =>
  if p = "f".toList then some "a=inf
b=nan
".toList else none

/-- Counterexample to claim C4 as stated: for stored values `inf` and
`nan` the parse result is non-finite, yet `param_double` returns the
parsed non-finite value, not the default — the code checks `errno`,
consumption and trailing garbage but never the finiteness of the
result. -/
theorem claim_C4_cx :
    (param_double (fun _ => none) "a".toList
      (parse_params_load c4Fs "f".toList initialPState).1).1 =
      DRes.value (DVal.inf false) ∧
    (param_double (fun _ => none) "b".toList
      (parse_params_load c4Fs "f".toList initialPState).1).1 =
      DRes.value DVal.nan ∧
    DRes.value (DVal.inf false) ≠ DRes.defaulted ∧
    DRes.value DVal.nan ≠ DRes.defaulted :=
  ⟨by decide, by decide, by decide, by decide⟩

end EPO
